import Mathlib

/-!
Verification development for an overlapping-model Wave Function Collapse
texture synthesizer (Rust).  The definitions below are a shallow embedding
of the source files `src/data/direction.rs`, `src/data/vector2.rs`,
`src/data/grid2d.rs`, `src/data/sample.rs`, `src/image_reader.rs`,
`src/model.rs`, `src/entropy_coord.rs` and `src/core.rs`.

Embedding conventions:
* `usize`/`u32` values are `Nat`; the one place where overflow matters
  (the `u32` subtraction in `CoreCell::remove_tile`) is modelled with an
  explicit wrap at `2^32` (`u32sub`).
* `f32` quantities (the `count * log2 count` entries of the frequency map
  and their cached sums) are modelled as exact rationals: the frequency map
  stores an abstract `ℚ` for each tile, produced by a parameter `wlogF`
  standing for the float computation `(c as f32) * (c as f32).log2()`.
* `bit_set::BitSet` is modelled as `Finset ℕ`; iteration order of a bitset
  is ascending, modelled by filtering `List.range` over the tile count
  (`bsIter` below; every bitset of the program lives below that bound).
* The entropy heap is *not* part of the core state machine: the selection
  of the next cell (`choose_next_cell`) reads only the `is_collpased` flag
  of the popped entries, so runs of the collapse loop are modelled by a
  step relation in which any uncollapsed cell may be collapsed next, and
  the pop loop itself is modelled separately on the raw pop order
  (`choose_next_cell` below) for the claims that concern it.
-/

namespace Wfc

/-- RGB pixel, `[u8; 3]` in the source （`src/data/colour.rs`). -/
abbrev Rgb := ℕ × ℕ × ℕ

/-- The four cardinal directions (`src/data/direction.rs`). -/
inductive Direction
  | up
  | down
  | left
  | right
deriving DecidableEq, Repr

namespace Direction

/-- `Direction::to_idx`. -/
def to_idx : Direction → ℕ
  | up => 0
  | right => 1
  | down => 2
  | left => 3

/-- `Direction::opposite`. -/
def opposite : Direction → Direction
  | up => down
  | down => up
  | left => right
  | right => left

end Direction

instance : Fintype Direction :=
  ⟨⟨{Direction.up, Direction.down, Direction.left, Direction.right}, by decide⟩,
    by intro d; cases d <;> decide⟩

/-- `ALL_DIRECTIONS`, in source order. -/
def ALL_DIRECTIONS : List Direction :=
  [Direction.up, Direction.down, Direction.left, Direction.right]

/-- 2D integer vector (`src/data/vector2.rs`, fields are `i32`). -/
structure Vector2 where
  x : ℤ
  y : ℤ
deriving DecidableEq, Repr

instance : Add Vector2 := ⟨fun a b => ⟨a.x + b.x, a.y + b.y⟩⟩

/-- `Vector2::neighbor`. -/
def Vector2.neighbor (v : Vector2) : Direction → Vector2
  | Direction.down => ⟨v.x, v.y + 1⟩
  | Direction.left => ⟨v.x - 1, v.y⟩
  | Direction.right => ⟨v.x + 1, v.y⟩
  | Direction.up => ⟨v.x, v.y - 1⟩

/-- Row-major 2D grid (`src/data/grid2d.rs`): `index = y * width + x`. -/
structure Grid2D (α : Type) where
  width : ℕ
  height : ℕ
  data : List α
deriving DecidableEq, Repr

namespace Grid2D

variable {α : Type}

/-- `Grid2D::valid_pos`. -/
def valid_pos (g : Grid2D α) (v : Vector2) : Prop :=
  0 ≤ v.x ∧ v.x < (g.width : ℤ) ∧ 0 ≤ v.y ∧ v.y < (g.height : ℤ)

instance (g : Grid2D α) (v : Vector2) : Decidable (g.valid_pos v) := by
  unfold valid_pos; infer_instance

/-- `Grid2D::idx` as a total function (meaningful on valid positions). -/
def idxOf (g : Grid2D α) (v : Vector2) : ℕ :=
  v.y.toNat * g.width + v.x.toNat

/-- `Grid2D::get`, with a default for out-of-range accesses (the source
unwraps an `Option`; all verified accesses are in range). -/
def getV [Inhabited α] (g : Grid2D α) (v : Vector2) : α :=
  g.data.getD (g.idxOf v) default

/-- `Grid2D::set` at a (valid) position. -/
def setV (g : Grid2D α) (v : Vector2) (a : α) : Grid2D α :=
  { g with data := g.data.set (g.idxOf v) a }

/-- `Grid2D::size`. -/
def size (g : Grid2D α) : ℕ := g.width * g.height

/-- `Grid2D::init`. -/
def init (width height : ℕ) (a : α) : Grid2D α :=
  ⟨width, height, List.replicate (width * height) a⟩

end Grid2D

/-- A pattern / sample: an NxN grid of pixels (`src/data/sample.rs`). -/
structure Sample where
  region : Grid2D Rgb
deriving DecidableEq, Repr

instance : Inhabited Rgb := ⟨(0, 0, 0)⟩

instance : Inhabited Sample := ⟨⟨0, 0, []⟩⟩

namespace Sample

/-- `Sample::at` (unwraps; in-range at all verified call sites). -/
def at' (s : Sample) (v : Vector2) : Rgb :=
  s.region.getV v

/-- `Sample::get_top_left_pixel`. -/
def get_top_left_pixel (s : Sample) : Rgb :=
  s.at' ⟨0, 0⟩

/-- `Sample::rev_sample`: reverse the flat pixel list (a 180° rotation of
the region). -/
def rev_sample (s : Sample) : Sample :=
  ⟨⟨s.region.width, s.region.height, s.region.data.reverse⟩⟩

/-- `Sample::transpose_sample` (via `transpose::transpose(data, out, w, h)`,
which writes `out[a * h + b] = data[b * w + a]`; the source keeps the
`width`/`height` fields unchanged, as samples are square). -/
def transpose_sample (s : Sample) : Sample :=
  ⟨⟨s.region.width, s.region.height,
    (List.range s.region.width).flatMap fun a =>
      (List.range s.region.height).map fun b =>
        s.region.data.getD (b * s.region.width + a) default⟩⟩

/-- `Sample::rotate_90`: transpose, then reverse each `height`-chunk. -/
def rotate_90 (s : Sample) : Sample :=
  let data := (s.transpose_sample).region.data
  ⟨⟨s.region.width, s.region.height,
    (List.range s.region.width).flatMap fun row =>
      ((data.drop (row * s.region.height)).take s.region.height).reverse⟩⟩

/-- `Sample::rotate`: the sample together with its three successive 90°
rotations. -/
def rotate (s : Sample) : List Sample :=
  [s, s.rotate_90, s.rotate_90.rotate_90, s.rotate_90.rotate_90.rotate_90]

/-- `Sample::compatible`: overlap test between `self` shifted one step in
`direction` and `other`.  The range endpoints `height - 1` / `width - 1`
are natural subtraction; the source panics on dimension 0, so theorems
assume dimensions at least 1. -/
def compatible (self other : Sample) (direction : Direction) : Bool :=
  if other.region.width ≠ self.region.width ∨
      other.region.height ≠ self.region.height then
    false
  else
    let w := self.region.width
    let h := self.region.height
    let xs : List ℕ :=
      match direction with
      | Direction.down => List.range w
      | Direction.up => List.range w
      | Direction.left => List.range' 1 (w - 1)
      | Direction.right => List.range (w - 1)
    let ys : List ℕ :=
      match direction with
      | Direction.down => List.range (h - 1)
      | Direction.up => List.range' 1 (h - 1)
      | Direction.left => List.range h
      | Direction.right => List.range h
    let offset : Vector2 :=
      match direction with
      | Direction.down => ⟨0, 1⟩
      | Direction.up => ⟨0, -1⟩
      | Direction.left => ⟨-1, 0⟩
      | Direction.right => ⟨1, 0⟩
    ys.all fun y => xs.all fun x =>
      let pos : Vector2 := ⟨(x : ℤ), (y : ℤ)⟩
      decide (self.at' (pos + offset) = other.at' pos)

end Sample

/-- Image container (`src/image_reader.rs`), pixels in row-major order. -/
structure Image where
  width : ℕ
  height : ℕ
  pixels : List Rgb
deriving DecidableEq, Repr

namespace Image

/-- `Image::idx`. -/
def idx (img : Image) (at' : Vector2) : ℕ :=
  at'.y.toNat * img.width + at'.x.toNat

/-- `Image::at`. -/
def at' (img : Image) (v : Vector2) : Rgb :=
  img.pixels.getD (img.idx v) default

/-- `Image::get_region`, returning the flat pixel list of the slice.  The
source pushes, for `i` in `xs..xs+width` (outer) and `j` in
`ys..ys+height` (inner), the pixel at `x = j mod W`, `y = i mod H`. -/
def get_region (img : Image) (xs ys width height : ℕ) : List Rgb :=
  (List.range width).flatMap fun i =>
    (List.range height).map fun j =>
      img.at' ⟨(((ys + j) % img.width : ℕ) : ℤ), (((xs + i) % img.height : ℕ) : ℤ)⟩

/-- `Image::sample`: one NxN sample per pixel index, in index order
(`x = idx % width`, `y = idx / width`).  The source's sample container is
a flat pixel vector; `model.rs` treats it as the NxN `Sample` above, so
the region is wrapped in an `n × n` grid here. -/
def sample (img : Image) (n : ℕ) : List Sample :=
  (List.range img.pixels.length).map fun idx =>
    let x := idx % img.width
    let y := idx / img.width
    ⟨⟨n, n, img.get_region x y n n⟩⟩

end Image

/-- One pass of the frequency-count fold of `Model::create`
(`*freq_map.entry(sample).or_insert(0) += 1`). -/
def bumpCount (acc : List (Sample × ℕ)) (s : Sample) : List (Sample × ℕ) :=
  if acc.any fun p => p.1 = s then
    acc.map fun p => if p.1 = s then (p.1, p.2 + 1) else p
  else
    acc ++ [(s, 1)]

/-- The `HashMap<Sample, i32>` frequency map of `Model::create`, as an
association list.  The iteration order of the source's hash map is
unspecified; first-occurrence order is fixed here.  All verified
properties are independent of this order. -/
def dedupCounts (l : List Sample) : List (Sample × ℕ) :=
  l.foldl bumpCount []

/-- `TileEnablerCount` (`src/core.rs`): `by_direction` has length 4,
indexed by `Direction::to_idx`. -/
structure TileEnablerCount where
  by_direction : List ℕ
deriving DecidableEq, Repr

/-- Directions in `to_idx` order (used to lay out per-direction arrays). -/
def idxOrder : List Direction :=
  [Direction.up, Direction.right, Direction.down, Direction.left]

/-- The WFC model (`src/model.rs`).  `freq_map` stores, per tile id, the
`u32` multiplicity and the `f32` value `count * log2 count` (modelled as
an abstract rational, see the header).  `adjacency_rule` is
`Vec<[BitSet; 4]>`, inner arrays indexed by `Direction::to_idx`. -/
structure Model where
  samples : List Sample
  freq_map : List (ℕ × (ℕ × ℚ))
  adjacency_rule : List (List (Finset ℕ))
deriving DecidableEq

namespace Model

/-- `Model::get_relative_freq`. -/
def get_relative_freq (m : Model) (sample_id : ℕ) : ℕ × ℚ :=
  (m.freq_map.getD sample_id (0, (0, 0))).2

/-- `Model::size`. -/
def size (m : Model) : ℕ := m.samples.length

/-- Retrieve the adjacency bitset `adjacency_rule[s1][direction.to_idx()]`. -/
def adj (m : Model) (s1 : ℕ) (direction : Direction) : Finset ℕ :=
  (m.adjacency_rule.getD s1 []).getD direction.to_idx ∅

/-- The raw multiset of samples that `Model::create` feeds into its
frequency map: every extracted sample together with its `rev_sample`. -/
def unprocessedSamples (img : Image) (n_dimensions : ℕ) : List Sample :=
  (img.sample n_dimensions).flatMap fun s => [s, s.rev_sample]

/-- `Model::create` (`src/model.rs`).  The image is taken already decoded
(the loader is an external collaborator).  `wlogF c` stands for the float
computation `(c as f32) * (c as f32).log2()`. -/
def create (img : Image) (n_dimensions : ℕ) (wlogF : ℕ → ℚ) : Model :=
  let counted := dedupCounts (unprocessedSamples img n_dimensions)
  let samples := counted.map Prod.fst
  let freqs := counted.map Prod.snd
  let freq_map := (List.range freqs.length).map fun i =>
    (i, (freqs.getD i 0, wlogF (freqs.getD i 0)))
  let adjacency_rule := (List.range samples.length).map fun s1 =>
    idxOrder.map fun direction =>
      ((List.range samples.length).filter fun s2 =>
        (samples.getD s1 default).compatible (samples.getD s2 default) direction).toFinset
  { samples := samples, freq_map := freq_map, adjacency_rule := adjacency_rule }

/-- `Model::get_initial_tile_enabler_counts`:
`counts.by_direction[d] = adjacency_rule[tile_a][d].len()`. -/
def get_initial_tile_enabler_counts (m : Model) : List TileEnablerCount :=
  (List.range m.samples.length).map fun tile_a =>
    ⟨idxOrder.map fun direction => (m.adj tile_a direction).card⟩

end Model

/-- Entropy heap entry (`src/entropy_coord.rs`); `entropy` is an `f32` in
the source, modelled as an exact rational. -/
structure EntropyCoord where
  entropy : ℚ
  coord : Vector2
deriving DecidableEq

namespace EntropyCoord

/-- `PartialOrd for EntropyCoord`:
`other.entropy.partial_cmp(&self.entropy)` — note the reversed operands. -/
def pcmpE (self other : EntropyCoord) : Ordering :=
  compare other.entropy self.entropy

/-- The derived `<` of `PartialOrd` (true iff `partial_cmp` is `Less`). -/
def ltE (self other : EntropyCoord) : Bool :=
  decide (pcmpE self other = Ordering.lt)

/-- The derived `PartialEq` (field-wise equality). -/
def eqE (self other : EntropyCoord) : Bool :=
  decide (self.entropy = other.entropy ∧ self.coord = other.coord)

/-- `Ord::cmp for EntropyCoord`:
`match (self < other, self == other) { (true,_) => Less, (false,true) => Equal, (false,false) => Greater }`. -/
def cmpE (self other : EntropyCoord) : Ordering :=
  if ltE self other then Ordering.lt
  else if eqE self other then Ordering.eq
  else Ordering.gt

end EntropyCoord

/-- `CoreState::choose_next_cell` (`src/core.rs`), abstracted over the pop
order of the entropy heap (`heap`) and the grid's collapsed flags
(`collapsedAt`, standing for `grid.get(coord).unwrap().is_collpased`):
pop entries until one whose cell is not collapsed is found. -/
def choose_next_cell (heap : List EntropyCoord) (collapsedAt : Vector2 → Bool) :
    Option Vector2 :=
  match heap with
  | [] => none
  | ec :: rest =>
      if collapsedAt ec.coord then choose_next_cell rest collapsedAt
      else some ec.coord

/-- `u32` subtraction with an explicit wrap at `2 ^ 32` (Rust release-mode
semantics of `a - b` on `u32`). -/
def u32sub (a b : ℕ) : ℕ :=
  if b ≤ a then a - b else a + 2 ^ 32 - b

/-- `u32` addition with an explicit wrap at `2 ^ 32`. -/
def u32add (a b : ℕ) : ℕ :=
  (a + b) % 2 ^ 32

/-- `RemovalUpdate` (`src/core.rs`). -/
structure RemovalUpdate where
  tile_index : ℕ
  coord : Vector2
deriving DecidableEq, Repr

instance : Inhabited TileEnablerCount := ⟨⟨[]⟩⟩

/-- Ascending iteration of a bitset whose members lie below `cap` (the
iteration order of `bit_set::BitSet` is ascending; `cap` is the tile
count of the model in every use below). -/
def bsIter (s : Finset ℕ) (cap : ℕ) : List ℕ :=
  (List.range cap).filter fun t => t ∈ s

/-- Read `by_direction[d.to_idx()]`. -/
def TileEnablerCount.get (t : TileEnablerCount) (d : Direction) : ℕ :=
  t.by_direction.getD d.to_idx 0

/-- Write `by_direction[d.to_idx()]`. -/
def TileEnablerCount.set (t : TileEnablerCount) (d : Direction) (v : ℕ) : TileEnablerCount :=
  ⟨t.by_direction.set d.to_idx v⟩

/-- `CoreCell` (`src/core.rs`).  `entropy_noise` (a random `f32` feeding
only the entropy heap, which is not part of this state machine) is
omitted. -/
structure CoreCell where
  possible : Finset ℕ
  sum_of_possible_tile_weights : ℕ
  sum_of_possible_tile_weight_log_weights : ℚ
  is_collpased : Bool
  tile_enabler_counts : List TileEnablerCount
deriving DecidableEq

instance : Inhabited CoreCell := ⟨⟨∅, 0, 0, false, []⟩⟩

namespace CoreCell

/-- `CoreCell::total_possible_tile_freq`: sum (on `u32`) of the
frequencies of the possible tiles, in ascending bitset order. -/
def total_possible_tile_freq (cell : CoreCell) (model : Model) : ℕ :=
  ((bsIter cell.possible model.size).map fun id => (model.get_relative_freq id).1).foldl u32add 0

/-- `CoreCell::new`: all `capacity` tiles possible, cached sums computed
from the model (`tile_enabler_counts` starts empty and is filled by
`CoreState::new`). -/
def new (capacity : ℕ) (context : Model) : CoreCell :=
  let possible := Finset.range capacity
  let cell : CoreCell := ⟨possible, 0, 0, false, []⟩
  { cell with
    sum_of_possible_tile_weights := cell.total_possible_tile_freq context,
    sum_of_possible_tile_weight_log_weights :=
      ((bsIter cell.possible context.size).map fun id =>
        (context.get_relative_freq id).2).foldl (· + ·) 0 }

/-- `CoreCell::remove_tile`: drop the tile and subtract its weight and
log-weight from the cached sums. -/
def remove_tile (cell : CoreCell) (tile_index : ℕ) (model : Model) : CoreCell :=
  let freq := model.get_relative_freq tile_index
  { cell with
    possible := cell.possible.erase tile_index,
    sum_of_possible_tile_weights := u32sub cell.sum_of_possible_tile_weights freq.1,
    sum_of_possible_tile_weight_log_weights :=
      cell.sum_of_possible_tile_weight_log_weights - freq.2 }

/-- `CoreCell::get_the_only_possible_tile_index` (`possible.iter().next()`
is the least member of the bitset). -/
def get_the_only_possible_tile_index (cell : CoreCell) : Option ℕ :=
  if h : cell.possible = ∅ ∨ 1 < cell.possible.card then none
  else some (cell.possible.min' (by
    rcases Finset.eq_empty_or_nonempty cell.possible with he | hn
    · exact absurd (Or.inl he) h
    · exact hn))

/-- The enabler count of tile `t` towards direction `d`. -/
def countOf (cell : CoreCell) (t : ℕ) (d : Direction) : ℕ :=
  (cell.tile_enabler_counts.getD t default).get d

/-- Overwrite the enabler count of tile `t` towards direction `d`. -/
def setCount (cell : CoreCell) (t : ℕ) (d : Direction) (v : ℕ) : CoreCell :=
  { cell with
    tile_enabler_counts :=
      cell.tile_enabler_counts.set t ((cell.tile_enabler_counts.getD t default).set d v) }

end CoreCell

/-- `CoreState` (`src/core.rs`).  The entropy heap is omitted (see the
header); `tile_removals` is the FIFO removal queue, head at the front. -/
structure CoreState where
  grid : Grid2D CoreCell
  remaining_uncollapsed_cells : ℕ
  model : Model
  tile_removals : List RemovalUpdate
deriving DecidableEq

namespace CoreState

/-- Read a cell (`grid.get(coord).unwrap()`). -/
def cellAt (s : CoreState) (v : Vector2) : CoreCell :=
  s.grid.getV v

/-- Write a cell back. -/
def setCell (s : CoreState) (v : Vector2) (c : CoreCell) : CoreState :=
  { s with grid := s.grid.setV v c }

/-- `CoreState::new`, taking the already-built model (the source builds it
from the image path).  Noise distribution and heap filling are omitted
(see the header); the initial enabler counts are copied into every
cell. -/
def new (m : Model) (width height : ℕ) : CoreState :=
  let cell := { CoreCell.new m.size m with
    tile_enabler_counts := m.get_initial_tile_enabler_counts }
  { grid := Grid2D.init width height cell,
    remaining_uncollapsed_cells := width * height,
    model := m,
    tile_removals := [] }

/-- `CoreState::collapse_cell_at`, given the roulette-chosen sample index:
mark the cell collapsed, enqueue a `RemovalUpdate` for every other
possible tile (ascending bitset order), and replace `possible` by the
singleton of the chosen tile.  The cached weight sums are deliberately
not updated (source comment: the cell's entropy is never needed again). -/
def collapse_cell_at (s : CoreState) (coord : Vector2) (sample_index_chosen : ℕ) : CoreState :=
  let cell := s.cellAt coord
  let removals := (bsIter (cell.possible.erase sample_index_chosen) s.model.size).map
    fun tile_index => RemovalUpdate.mk tile_index coord
  let cell2 := { cell with is_collpased := true, possible := {sample_index_chosen} }
  { s.setCell coord cell2 with tile_removals := s.tile_removals ++ removals }

/-- The second guard of the removal branch of `CoreState::propagate`:
the neighbour is already collapsed, or some *other* direction of the
tile's enabler counts is already at zero. -/
def removeBlocked (neighbor1 : CoreCell) (t : ℕ) (od : Direction) : Prop :=
  neighbor1.is_collpased = true ∨
    (((List.range 4).filter fun dir => dir ≠ od.to_idx).any
      fun dir =>
        decide ((neighbor1.tile_enabler_counts.getD t default).by_direction.getD dir 0 = 0)) = true

instance (neighbor1 : CoreCell) (t : ℕ) (od : Direction) :
    Decidable (removeBlocked neighbor1 t od) := by
  unfold removeBlocked
  infer_instance

/-- The body of the innermost loop of `CoreState::propagate`, for one
`compatible_tile` `t` of the popped removal, at the (valid) neighbour
coordinate `nc` reached in direction `d`: decrement the enabler count of
`t` towards `d.opposite()` unless it is already zero; if it reaches zero
and the neighbour is not collapsed and no other direction of `t` is
already at zero, remove `t` from the neighbour and enqueue the removal.
(The source also pushes a fresh entropy entry onto the heap, which is not
modelled.) -/
def propagateTile (s : CoreState) (d : Direction) (nc : Vector2) (t : ℕ) : CoreState :=
  let neighbor := s.cellAt nc
  let od := d.opposite
  let c0 := neighbor.countOf t od
  if c0 = 0 then s
  else
    let c1 := c0 - 1
    let neighbor1 := neighbor.setCount t od c1
    let s1 := s.setCell nc neighbor1
    if c1 = 0 then
      if removeBlocked neighbor1 t od then
        s1
      else
        let neighbor2 := neighbor1.remove_tile t s.model
        { s1.setCell nc neighbor2 with tile_removals := s1.tile_removals ++ [⟨t, nc⟩] }
    else s1

/-- One iteration of the outer `while` of `CoreState::propagate`: process
a single popped `RemovalUpdate` across the four directions (skipping
out-of-bounds neighbours), iterating the adjacency bitset in ascending
order. -/
def processRemoval (s : CoreState) (u : RemovalUpdate) : CoreState :=
  ALL_DIRECTIONS.foldl
    (fun s d =>
      let neighbour_coord := u.coord.neighbor d
      if s.grid.valid_pos neighbour_coord then
        (bsIter (s.model.adj u.tile_index d) s.model.size).foldl
          (fun s t => propagateTile s d neighbour_coord t) s
      else s)
    s

/-- The tile grid read out of a finished state: each cell's unique
remaining tile (`get_the_only_possible_tile_index`), with the output
grid's initial value 0 where there is none — mirroring the assembly in
`CoreState::par_process`. -/
def outputGrid (s : CoreState) : Grid2D ℕ :=
  ⟨s.grid.width, s.grid.height,
    s.grid.data.map fun cell => cell.get_the_only_possible_tile_index.getD 0⟩

/-- The final pixel readout of `CoreState::par_process`: map each output
tile id to the top-left pixel of its sample. -/
def outputImage (s : CoreState) : List Rgb :=
  s.outputGrid.data.map fun sample_id =>
    (s.model.samples.getD sample_id default).get_top_left_pixel

/-- The output pixel at `(x, y)` (row-major). -/
def outputAt (s : CoreState) (x y : ℕ) : Rgb :=
  s.outputImage.getD (y * s.grid.width + x) default

end CoreState

/-- One step of the collapse loop `CoreState::run`.  A `collapse` step is
possible when the removal queue has been drained (the source always runs
`propagate` to completion before the next collapse); the chosen cell may
be any uncollapsed cell (`choose_next_cell` returns only uncollapsed
cells, in an order driven by entropy and random noise), and the chosen
tile any possible tile of positive frequency (the possible outcomes of
the roulette selection `choose_sample_index`).  The decrement of
`remaining_uncollapsed_cells`, which the source performs right after the
`propagate` call of the same iteration, is folded into the collapse
step.  A `propagate1` step processes one popped entry of the removal
queue. -/
inductive Step : CoreState → CoreState → Prop
  | collapse (s : CoreState) (coord : Vector2) (chosen : ℕ) :
      s.tile_removals = [] →
      s.grid.valid_pos coord →
      (s.cellAt coord).is_collpased = false →
      chosen ∈ (s.cellAt coord).possible →
      1 ≤ (s.model.get_relative_freq chosen).1 →
      Step s { s.collapse_cell_at coord chosen with
        remaining_uncollapsed_cells := s.remaining_uncollapsed_cells - 1 }
  | propagate1 (s : CoreState) (u : RemovalUpdate) (rest : List RemovalUpdate) :
      s.tile_removals = u :: rest →
      Step s (CoreState.processRemoval { s with tile_removals := rest } u)

/-- States reachable by the collapse loop from a fresh `CoreState`. -/
def Reachable (m : Model) (width height : ℕ) (s : CoreState) : Prop :=
  Relation.ReflTransGen Step (CoreState.new m width height) s

/-- The selector as described by the specification text (for comparison
with `choose_next_cell`): entries whose cell is collapsed *or whose
recorded entropy is higher than the cell's current entropy* are
discarded.  `entropyAt` stands for the current `cell.entropy()`. -/
def choose_next_cell_spec (heap : List EntropyCoord) (collapsedAt : Vector2 → Bool)
    (entropyAt : Vector2 → ℚ) : Option Vector2 :=
  match heap with
  | [] => none
  | ec :: rest =>
      if collapsedAt ec.coord ∨ entropyAt ec.coord < ec.entropy then
        choose_next_cell_spec rest collapsedAt entropyAt
      else some ec.coord

instance : Inhabited Model := ⟨⟨[], [], []⟩⟩

instance : Inhabited CoreState := ⟨⟨⟨0, 0, []⟩, 0, default, []⟩⟩

/-- Drive the propagation loop of `CoreState::propagate` to completion
(with fuel); every unfolding is one `Step.propagate1`. -/
def drainSteps : ℕ → CoreState → CoreState
  | 0, s => s
  | fuel + 1, s =>
    match s.tile_removals with
    | [] => s
    | u :: rest => drainSteps fuel (CoreState.processRemoval { s with tile_removals := rest } u)

/-- Attempt one collapse step with an explicit cell and tile choice,
checking exactly the side conditions of `Step.collapse`. -/
def tryCollapse (s : CoreState) (coord : Vector2) (chosen : ℕ) : Option CoreState :=
  if s.tile_removals = [] ∧ s.grid.valid_pos coord ∧
      (s.cellAt coord).is_collpased = false ∧
      chosen ∈ (s.cellAt coord).possible ∧
      1 ≤ (s.model.get_relative_freq chosen).1 then
    some { s.collapse_cell_at coord chosen with
      remaining_uncollapsed_cells := s.remaining_uncollapsed_cells - 1 }
  else none

/-- Execute a scripted run of the collapse loop: each script entry is a
(cell, tile) choice, followed by a full propagation. -/
def runScript (fuel : ℕ) : List (Vector2 × ℕ) → CoreState → Option CoreState
  | [], s => some s
  | (c, t) :: rest, s =>
    match tryCollapse s c t with
    | none => none
    | some s2 => runScript fuel rest (drainSteps fuel s2)

/-- The removals of `tile_removals` pending at coordinate `c`: tiles
already removed from the cell whose effect on the neighbours' enabler
counts has not yet been propagated. -/
def pendingAt (s : CoreState) (c : Vector2) : List ℕ :=
  (s.tile_removals.filter fun u => u.coord = c).map RemovalUpdate.tile_index

/-- The tiles of the cell at `c` whose removal has been fully propagated
away: the possible set together with the pending removals. -/
def activeSet (s : CoreState) (c : Vector2) : Finset ℕ :=
  (s.cellAt c).possible ∪ (pendingAt s c).toFinset

/-- The number of enablers of tile `t` at cell `c` from direction `d`,
counted over the *active* set of the neighbour (possible ∪ pending). -/
def enablersIn (s : CoreState) (c : Vector2) (t : ℕ) (d : Direction) : ℕ :=
  ((activeSet s (c.neighbor d)).filter fun t2 => t ∈ s.model.adj t2 d.opposite).card

/-- The number of enablers of tile `t` at cell `c` from direction `d`, as
stated by the specification: tiles `t2` still possible in the neighbour
in direction `d` such that `t ∈ adjacency[t2][opposite d]`. -/
def enablersNow (s : CoreState) (c : Vector2) (t : ℕ) (d : Direction) : ℕ :=
  (((s.cellAt (c.neighbor d)).possible).filter fun t2 => t ∈ s.model.adj t2 d.opposite).card

/-- Well-formedness of a model, as established by `Model::create` for an
`N ≥ 1` pattern size: lengths agree, samples are `N × N`, the adjacency
bitsets are characterised by `Sample::compatible` over in-range tiles,
and the total weight fits in a `u32` (so that the cached `u32` weight
sums never wrap). -/
structure Model.Wellformed (m : Model) (N : ℕ) : Prop where
  hN : 1 ≤ N
  freq_len : m.freq_map.length = m.samples.length
  sample_dims : ∀ p ∈ m.samples,
    p.region.width = N ∧ p.region.height = N ∧ p.region.data.length = N * N
  adj_char : ∀ i j, i < m.size → j < m.size → ∀ d : Direction,
    (j ∈ m.adj i d ↔
      (m.samples.getD i default).compatible (m.samples.getD j default) d = true)
  adj_bound : ∀ i : ℕ, ∀ d : Direction, ∀ j ∈ m.adj i d, j < m.size
  freq_bound : (∑ t ∈ Finset.range m.size, (m.get_relative_freq t).1) < 2 ^ 32

/-- The count of uncollapsed cells of a state. -/
def uncollapsedCount (s : CoreState) : ℕ :=
  (s.grid.data.filter fun cell => cell.is_collpased = false).length

/-- The core safety invariant of reachable states (independent of the
enabler-count bookkeeping): dimensions and model are fixed; possible
sets stay in range; the cached weight sums of *uncollapsed* cells are
exactly the sums over their possible sets; a tile missing from an
uncollapsed cell has some enabler count at zero (`zero_stick`); collapsed
cells hold exactly one tile; the uncollapsed-cell counter is exact. -/
structure SafeInv (m : Model) (W H : ℕ) (s : CoreState) : Prop where
  grid_w : s.grid.width = W
  grid_h : s.grid.height = H
  grid_len : s.grid.data.length = W * H
  model_eq : s.model = m
  possible_sub : ∀ c : Vector2, s.grid.valid_pos c →
    ∀ t ∈ (s.cellAt c).possible, t < m.size
  counts_len : ∀ c : Vector2, s.grid.valid_pos c →
    (s.cellAt c).tile_enabler_counts.length = m.size ∧
    ∀ tec ∈ (s.cellAt c).tile_enabler_counts, tec.by_direction.length = 4
  sums_ok : ∀ c : Vector2, s.grid.valid_pos c → (s.cellAt c).is_collpased = false →
    (s.cellAt c).sum_of_possible_tile_weights =
        (∑ t ∈ (s.cellAt c).possible, (m.get_relative_freq t).1) ∧
      (s.cellAt c).sum_of_possible_tile_weight_log_weights =
        (∑ t ∈ (s.cellAt c).possible, (m.get_relative_freq t).2)
  zero_stick : ∀ c : Vector2, s.grid.valid_pos c →
    (s.cellAt c).is_collpased = false → ∀ t, t < m.size →
    t ∉ (s.cellAt c).possible → ∃ d : Direction, (s.cellAt c).countOf t d = 0
  collapsed_one : ∀ c : Vector2, s.grid.valid_pos c →
    (s.cellAt c).is_collpased = true → (s.cellAt c).possible.card = 1
  remaining_ok : s.remaining_uncollapsed_cells = uncollapsedCount s

/-- The full invariant of reachable states: `SafeInv` together with the
removal-queue bookkeeping and the exact enabler-count accounting: the
stored count of tile `t` at cell `c` towards a direction with an
in-bounds neighbour equals the number of enablers over the neighbour's
active set, and towards an out-of-bounds direction it still holds its
initial value `|adjacency[t][d]|`. -/
structure Inv (m : Model) (W H : ℕ) (s : CoreState) : Prop where
  safe : SafeInv m W H s
  queue_val : ∀ u ∈ s.tile_removals, s.grid.valid_pos u.coord ∧
    u.tile_index < m.size ∧ u.tile_index ∉ (s.cellAt u.coord).possible
  queue_nodup : s.tile_removals.Nodup
  count_formula : ∀ c : Vector2, s.grid.valid_pos c → ∀ t, t < m.size →
    ∀ d : Direction, s.grid.valid_pos (c.neighbor d) →
    (s.cellAt c).countOf t d = enablersIn s c t d
  count_boundary : ∀ c : Vector2, s.grid.valid_pos c → ∀ t, t < m.size →
    ∀ d : Direction, ¬ s.grid.valid_pos (c.neighbor d) →
    (s.cellAt c).countOf t d = (m.adj t d).card

/-- The additional invariant available when every adjacency set of the
model is nonempty: every possible tile of every uncollapsed cell has all
four enabler counts positive, and the tiles of adjacent collapsed cells
are mutually compatible. -/
structure PosInv (m : Model) (W H : ℕ) (s : CoreState) : Prop where
  pos_counts : ∀ c : Vector2, s.grid.valid_pos c →
    (s.cellAt c).is_collpased = false → ∀ t ∈ (s.cellAt c).possible,
    ∀ d : Direction, 1 ≤ (s.cellAt c).countOf t d
  collapsed_compat : ∀ c : Vector2, s.grid.valid_pos c → ∀ d : Direction,
    s.grid.valid_pos (c.neighbor d) →
    (s.cellAt c).is_collpased = true →
    (s.cellAt (c.neighbor d)).is_collpased = true →
    ∀ a ∈ (s.cellAt c).possible, ∀ b ∈ (s.cellAt (c.neighbor d)).possible,
    b ∈ m.adj a d

/-- Whether the innermost propagation step for tile `t` at neighbour `nc`
would call `CoreCell::remove_tile` under safe conditions: if the step
reaches the removal branch, the removed tile must still be possible and
its weight must not exceed the cached `u32` weight sum (no underflow). -/
def propagateTileSafe (s : CoreState) (d : Direction) (nc : Vector2) (t : ℕ) : Bool :=
  let neighbor := s.cellAt nc
  let od := d.opposite
  let c0 := neighbor.countOf t od
  if c0 = 0 then true
  else
    let c1 := c0 - 1
    let neighbor1 := neighbor.setCount t od c1
    if c1 = 0 then
      if CoreState.removeBlocked neighbor1 t od then
        true
      else
        decide (t ∈ neighbor1.possible ∧
          (s.model.get_relative_freq t).1 ≤ neighbor1.sum_of_possible_tile_weights)
    else true

/-- `processRemoval` instrumented with the safety check of every inner
step: the resulting flag is true iff every `remove_tile` call performed
while processing `u` was safe in the sense of `propagateTileSafe`. -/
def processRemovalChecked (s : CoreState) (u : RemovalUpdate) : CoreState × Bool :=
  ALL_DIRECTIONS.foldl
    (fun p d =>
      let neighbour_coord := u.coord.neighbor d
      if p.1.grid.valid_pos neighbour_coord then
        (bsIter (p.1.model.adj u.tile_index d) p.1.model.size).foldl
          (fun p t =>
            (CoreState.propagateTile p.1 d neighbour_coord t,
             p.2 && propagateTileSafe p.1 d neighbour_coord t))
          p
      else p)
    (s, true)

/-- Concrete 2×2 exemplar with four distinct pixels (used by several
counterexamples and witnesses). -/
def imgTwo : Image :=
  ⟨2, 2, [(1, 0, 0), (2, 0, 0), (3, 0, 0), (4, 0, 0)]⟩

/-- Concrete 3×3 exemplar: a single white pixel in a black field. -/
def imgThree : Image :=
  ⟨3, 3, [(1, 0, 0), (0, 0, 0), (0, 0, 0), (0, 0, 0), (0, 0, 0), (0, 0, 0), (0, 0, 0), (0, 0, 0), (0, 0, 0)]⟩

/-- Concrete 2×3 exemplar: a single white pixel in a black field.  With
pattern size 3 its model has tiles whose adjacency is empty in some
direction. -/
def imgTall : Image :=
  ⟨2, 3, [(1, 0, 0), (0, 0, 0), (0, 0, 0), (0, 0, 0), (0, 0, 0), (0, 0, 0)]⟩

/-- Model of `imgTwo` at pattern size 1: four tiles of weight 2 each. -/
def mTwo : Model := Model.create imgTwo 1 fun _ => 0

/-- Model of `imgThree` at pattern size 2: five tiles, with asymmetric
adjacency cardinalities. -/
def mThree : Model := Model.create imgThree 2 fun _ => 0

/-- Model of `imgTall` at pattern size 3: four tiles, each with an empty
adjacency set in some direction. -/
def mTall : Model := Model.create imgTall 3 fun _ => 0

/-- A finished scripted run on `mTwo` over a 1×1 grid: collapse the only
cell to tile 0 and drain the queue. -/
def sTwoDone : CoreState :=
  (runScript 10 [(⟨0, 0⟩, 0)] (CoreState.new mTwo 1 1)).getD default

/-- The script of a full run on `mTall` over a 3×3 grid collapsing every
cell to tile 0, row-major. -/
def tallScript : List (Vector2 × ℕ) :=
  (List.range 3).flatMap fun y => (List.range 3).map fun x =>
    ((⟨(x : ℤ), (y : ℤ)⟩ : Vector2), 0)

/-- The final state of that run: it succeeds (all cells collapsed, queue
drained) with every cell holding tile 0. -/
def sTallDone : CoreState :=
  (runScript 40 tallScript (CoreState.new mTall 3 3)).getD default

/-- Position validity expressed by the dimensions alone (equivalent to
`Grid2D.valid_pos` on any grid of width `W` and height `H`). -/
def validWH (W H : ℕ) (v : Vector2) : Prop :=
  0 ≤ v.x ∧ v.x < (W : ℤ) ∧ 0 ≤ v.y ∧ v.y < (H : ℤ)

instance (W H : ℕ) (v : Vector2) : Decidable (validWH W H v) := by
  unfold validWH
  infer_instance

/-- The mid-propagation invariant: the removal `⟨T, A⟩` has been popped,
and for each direction `d` the tiles of `rem d` (a suffix of the iterated
adjacency bitset `adj[T][d]`) still await their decrement at the
neighbour `A.neighbor d`, so the count stored there towards `d.opposite`
exceeds the active-set count by one. -/
structure InvMid (m : Model) (W H : ℕ) (A : Vector2) (T : ℕ)
    (rem : Direction → List ℕ) (s : CoreState) : Prop where
  safe : SafeInv m W H s
  queue_val : ∀ u ∈ s.tile_removals, s.grid.valid_pos u.coord ∧
    u.tile_index < m.size ∧ u.tile_index ∉ (s.cellAt u.coord).possible
  queue_nodup : s.tile_removals.Nodup
  hA : s.grid.valid_pos A
  rem_nodup : ∀ d, (rem d).Nodup
  rem_sub : ∀ d, ∀ t ∈ rem d, t ∈ m.adj T d ∧ t < m.size
  count_mid : ∀ c : Vector2, s.grid.valid_pos c → ∀ t, t < m.size →
    ∀ d : Direction, s.grid.valid_pos (c.neighbor d) →
    (s.cellAt c).countOf t d = enablersIn s c t d +
      (if c = A.neighbor d.opposite ∧ t ∈ rem d.opposite then 1 else 0)
  count_boundary : ∀ c : Vector2, s.grid.valid_pos c → ∀ t, t < m.size →
    ∀ d : Direction, ¬ s.grid.valid_pos (c.neighbor d) →
    (s.cellAt c).countOf t d = (m.adj t d).card

/-! ## Theorems -/

/-- Claim C10: the `EntropyCoord` comparison inverts entropy order so the
max-heap pops minimum entropy — `cmp a b = Greater` whenever
`a.entropy < b.entropy` — but on every exact entropy tie between
different coordinates both `cmp a b` and `cmp b a` are `Greater`, so the
ordering is not antisymmetric. -/
theorem C10_entropy_ord :
    (∀ a b : EntropyCoord, a.entropy < b.entropy →
      EntropyCoord.cmpE a b = Ordering.gt) ∧
    (∀ a b : EntropyCoord, a.entropy = b.entropy → a.coord ≠ b.coord →
      EntropyCoord.cmpE a b = Ordering.gt ∧ EntropyCoord.cmpE b a = Ordering.gt) := by
  have hlt : ∀ a b : EntropyCoord, EntropyCoord.ltE a b = true ↔ b.entropy < a.entropy := by
    intro a b
    rw [EntropyCoord.ltE, EntropyCoord.pcmpE, decide_eq_true_eq, compare_lt_iff_lt]
  constructor
  · intro a b h
    have h1 : EntropyCoord.ltE a b = false := by
      rw [Bool.eq_false_iff]
      intro hc
      exact absurd (hlt a b |>.mp hc) (by exact not_lt.mpr (le_of_lt h))
    have h2 : EntropyCoord.eqE a b = false := by
      simp [EntropyCoord.eqE]
      intro he
      exact absurd he (ne_of_lt h)
    simp [EntropyCoord.cmpE, h1, h2]
  · intro a b he hc
    have h1 : EntropyCoord.ltE a b = false := by
      rw [Bool.eq_false_iff]
      intro hx
      exact absurd (hlt a b |>.mp hx) (by rw [he]; exact lt_irrefl _)
    have h1' : EntropyCoord.ltE b a = false := by
      rw [Bool.eq_false_iff]
      intro hx
      exact absurd (hlt b a |>.mp hx) (by rw [he]; exact lt_irrefl _)
    have h2 : EntropyCoord.eqE a b = false := by
      simp [EntropyCoord.eqE]
      intro _
      exact hc
    have h2' : EntropyCoord.eqE b a = false := by
      simp [EntropyCoord.eqE]
      intro _
      exact fun hx => hc hx.symm
    constructor
    · simp [EntropyCoord.cmpE, h1, h2]
    · simp [EntropyCoord.cmpE, h1', h2']

/-- Witness for C10 at concrete entries. -/
theorem C10_entropy_ord_witness :
    EntropyCoord.cmpE ⟨1, ⟨0, 0⟩⟩ ⟨2, ⟨0, 0⟩⟩ = Ordering.gt ∧
    EntropyCoord.cmpE ⟨1, ⟨0, 0⟩⟩ ⟨1, ⟨1, 0⟩⟩ = Ordering.gt ∧
    EntropyCoord.cmpE ⟨1, ⟨1, 0⟩⟩ ⟨1, ⟨0, 0⟩⟩ = Ordering.gt :=
  ⟨C10_entropy_ord.1 ⟨1, ⟨0, 0⟩⟩ ⟨2, ⟨0, 0⟩⟩ (by norm_num),
   (C10_entropy_ord.2 ⟨1, ⟨0, 0⟩⟩ ⟨1, ⟨1, 0⟩⟩ rfl (by decide)).1,
   (C10_entropy_ord.2 ⟨1, ⟨0, 0⟩⟩ ⟨1, ⟨1, 0⟩⟩ rfl (by decide)).2⟩

/-- Claim C8 fails on the code: `choose_next_cell` inspects only the
`is_collpased` flag and never compares the recorded entropy with the
cell's current entropy.  A popped entry recording entropy 5 for an
uncollapsed cell whose current entropy is 3 is *returned*, while the
claimed selector (which discards entries with a stale, higher recorded
entropy) would discard it and report the heap exhausted. -/
theorem C8_counterexample :
    choose_next_cell [⟨5, ⟨0, 0⟩⟩] (fun _ => false) = some ⟨0, 0⟩ ∧
    (3 : ℚ) < 5 ∧
    choose_next_cell_spec [⟨5, ⟨0, 0⟩⟩] (fun _ => false) (fun _ => 3) = none := by
  refine ⟨rfl, by norm_num, ?_⟩
  simp [choose_next_cell_spec]
  norm_num

/-- Claim C8 (amended): `choose_next_cell` pops the heap and discards
exactly the entries whose cell is already collapsed — recorded entropies
are never compared — returning the coordinate of the first entry on an
uncollapsed cell, and it returns `None` iff every popped entry's cell is
collapsed (the heap is exhausted first). -/
theorem C8_amended (heap : List EntropyCoord) (collapsedAt : Vector2 → Bool) :
    choose_next_cell heap collapsedAt =
      (heap.find? fun ec => !collapsedAt ec.coord).map EntropyCoord.coord ∧
    (choose_next_cell heap collapsedAt = none ↔
      ∀ ec ∈ heap, collapsedAt ec.coord = true) := by
  induction heap with
  | nil => simp [choose_next_cell]
  | cons ec rest ih =>
    by_cases h : collapsedAt ec.coord
    · constructor
      · rw [choose_next_cell, if_pos h, List.find?_cons_of_neg _ (by simp [h]), ih.1]
      · rw [choose_next_cell, if_pos h, ih.2]
        constructor
        · intro hall e he
          rcases List.mem_cons.mp he with rfl | hm
          · exact h
          · exact hall e hm
        · intro hall e he
          exact hall e (List.mem_cons_of_mem _ he)
    · constructor
      · rw [choose_next_cell, if_neg h, List.find?_cons_of_pos _ (by simp [h])]
        rfl
      · rw [choose_next_cell, if_neg h]
        constructor
        · intro hx
          exact absurd hx (by simp)
        · intro hall
          exact absurd (hall ec (List.mem_cons_self _ _)) (by simp [h])

/-- Componentwise description of `Vector2` addition. -/
theorem Vector2.add_mk (a b c d : ℤ) :
    ((⟨a, b⟩ : Vector2) + ⟨c, d⟩) = ⟨a + c, b + d⟩ := rfl

/-- `Sample::compatible` is false between samples of unequal dimensions. -/
theorem compatible_ne_dims (A B : Sample) (d : Direction)
    (h : ¬ (B.region.width = A.region.width ∧ B.region.height = A.region.height)) :
    A.compatible B d = false := by
  rw [Sample.compatible.eq_def, if_pos]
  tauto

/-- Vertical symmetry of the overlap test: `A` is down-compatible with
`B` iff `B` is up-compatible with `A`. -/
theorem compatible_down_up (A B : Sample)
    (h1 : B.region.width = A.region.width) (h2 : B.region.height = A.region.height) :
    (A.compatible B Direction.down = true ↔ B.compatible A Direction.up = true) := by
  rw [Sample.compatible.eq_def, Sample.compatible.eq_def]
  rw [if_neg (by simp [h1, h2]), if_neg (by simp [h1, h2])]
  simp only [List.all_eq_true, List.mem_range, List.mem_range'_1, decide_eq_true_eq, h1, h2]
  constructor
  · intro h y hy x hx
    have hy1 : 1 ≤ y ∧ y < 1 + (A.region.height - 1) := hy
    have hys : y - 1 < A.region.height - 1 := by omega
    have := h (y - 1) hys x hx
    have e1 : ((⟨(x : ℤ), ((y - 1 : ℕ) : ℤ)⟩ : Vector2) + ⟨0, 1⟩) = ⟨(x : ℤ), (y : ℤ)⟩ := by
      rw [Vector2.add_mk]
      simp only [Vector2.mk.injEq]
      omega
    have e2 : ((⟨(x : ℤ), (y : ℤ)⟩ : Vector2) + ⟨0, -1⟩) = ⟨(x : ℤ), ((y - 1 : ℕ) : ℤ)⟩ := by
      rw [Vector2.add_mk]
      simp only [Vector2.mk.injEq]
      omega
    rw [e1] at this
    rw [e2]
    exact this.symm
  · intro h y hy x hx
    have := h (y + 1) (by constructor <;> omega) x hx
    have e1 : ((⟨(x : ℤ), ((y + 1 : ℕ) : ℤ)⟩ : Vector2) + ⟨0, -1⟩) = ⟨(x : ℤ), (y : ℤ)⟩ := by
      rw [Vector2.add_mk]
      simp only [Vector2.mk.injEq]
      omega
    have e2 : ((⟨(x : ℤ), (y : ℤ)⟩ : Vector2) + ⟨0, 1⟩) = ⟨(x : ℤ), ((y + 1 : ℕ) : ℤ)⟩ := by
      rw [Vector2.add_mk]
      simp only [Vector2.mk.injEq]
      omega
    rw [e1] at this
    rw [e2]
    exact this.symm

/-- Horizontal symmetry of the overlap test: `A` is right-compatible with
`B` iff `B` is left-compatible with `A`. -/
theorem compatible_right_left (A B : Sample)
    (h1 : B.region.width = A.region.width) (h2 : B.region.height = A.region.height) :
    (A.compatible B Direction.right = true ↔ B.compatible A Direction.left = true) := by
  rw [Sample.compatible.eq_def, Sample.compatible.eq_def]
  rw [if_neg (by simp [h1, h2]), if_neg (by simp [h1, h2])]
  simp only [List.all_eq_true, List.mem_range, List.mem_range'_1, decide_eq_true_eq, h1, h2]
  constructor
  · intro h y hy x hx
    have hx1 : 1 ≤ x ∧ x < 1 + (A.region.width - 1) := hx
    have hxs : x - 1 < A.region.width - 1 := by omega
    have := h y hy (x - 1) hxs
    have e1 : ((⟨((x - 1 : ℕ) : ℤ), (y : ℤ)⟩ : Vector2) + ⟨1, 0⟩) = ⟨(x : ℤ), (y : ℤ)⟩ := by
      rw [Vector2.add_mk]
      simp only [Vector2.mk.injEq]
      omega
    have e2 : ((⟨(x : ℤ), (y : ℤ)⟩ : Vector2) + ⟨-1, 0⟩) = ⟨((x - 1 : ℕ) : ℤ), (y : ℤ)⟩ := by
      rw [Vector2.add_mk]
      simp only [Vector2.mk.injEq]
      omega
    rw [e1] at this
    rw [e2]
    exact this.symm
  · intro h y hy x hx
    have := h y hy (x + 1) (by constructor <;> omega)
    have e1 : ((⟨((x + 1 : ℕ) : ℤ), (y : ℤ)⟩ : Vector2) + ⟨-1, 0⟩) = ⟨(x : ℤ), (y : ℤ)⟩ := by
      rw [Vector2.add_mk]
      simp only [Vector2.mk.injEq]
      omega
    have e2 : ((⟨(x : ℤ), (y : ℤ)⟩ : Vector2) + ⟨1, 0⟩) = ⟨((x + 1 : ℕ) : ℤ), (y : ℤ)⟩ := by
      rw [Vector2.add_mk]
      simp only [Vector2.mk.injEq]
      omega
    rw [e1] at this
    rw [e2]
    exact this.symm

/-- Full symmetry of `Sample::compatible`, for all directions and all
pairs of samples (samples of unequal dimensions are incompatible both
ways). -/
theorem compatible_symm (A B : Sample) (d : Direction) :
    (A.compatible B d = true ↔ B.compatible A d.opposite = true) := by
  by_cases hd : B.region.width = A.region.width ∧ B.region.height = A.region.height
  · obtain ⟨h1, h2⟩ := hd
    cases d with
    | down => exact compatible_down_up A B h1 h2
    | up => exact (compatible_down_up B A h1.symm h2.symm).symm
    | right => exact compatible_right_left A B h1 h2
    | left => exact (compatible_right_left B A h1.symm h2.symm).symm
  · rw [compatible_ne_dims A B d hd, compatible_ne_dims B A d.opposite (by tauto)]

/-- Fold invariant of the frequency-count fold: every accumulated entry
holds the exact multiplicity of its key in the processed prefix, and the
keys are exactly the members of the prefix. -/
theorem dedup_fold_inv (l : List Sample) :
    ∀ (pre : List Sample) (acc : List (Sample × ℕ)),
    (∀ pr ∈ acc, pr.2 = pre.count pr.1 ∧ pr.1 ∈ pre) →
    (∀ q : Sample, (∃ pr ∈ acc, pr.1 = q) ↔ q ∈ pre) →
    (∀ pr ∈ l.foldl bumpCount acc, pr.2 = (pre ++ l).count pr.1 ∧ pr.1 ∈ pre ++ l) ∧
    (∀ q : Sample, (∃ pr ∈ l.foldl bumpCount acc, pr.1 = q) ↔ q ∈ pre ++ l) := by
  induction l with
  | nil =>
    intro pre acc h1 h2
    simp only [List.foldl_nil, List.append_nil]
    exact ⟨h1, h2⟩
  | cons s t ih =>
    intro pre acc h1 h2
    have step1 : ∀ pr ∈ bumpCount acc s,
        pr.2 = (pre ++ [s]).count pr.1 ∧ pr.1 ∈ pre ++ [s] := by
      intro pr hpr
      rw [bumpCount] at hpr
      by_cases hany : acc.any fun p => p.1 = s
      · rw [if_pos hany] at hpr
        obtain ⟨pr0, hpr0, heq⟩ := List.mem_map.mp hpr
        obtain ⟨hc0, hm0⟩ := h1 pr0 hpr0
        by_cases hk : pr0.1 = s
        · rw [if_pos hk] at heq
          subst heq
          refine ⟨?_, List.mem_append_left _ hm0⟩
          simp only [List.count_append, hk]
          simp [hc0, hk]
        · rw [if_neg hk] at heq
          subst heq
          refine ⟨?_, List.mem_append_left _ hm0⟩
          rw [List.count_append, hc0]
          simp [List.count_cons, hk]
      · rw [if_neg hany] at hpr
        rcases List.mem_append.mp hpr with hin | hnew
        · obtain ⟨hc0, hm0⟩ := h1 pr hin
          refine ⟨?_, List.mem_append_left _ hm0⟩
          rw [List.count_append, hc0]
          have hne : pr.1 ≠ s := by
            intro hx
            exact hany (List.any_eq_true.mpr ⟨pr, hin, by simp [hx]⟩)
          simp [List.count_cons, hne]
        · have : pr = (s, 1) := by simpa using hnew
          subst this
          have hs_not : s ∉ pre := by
            intro hx
            obtain ⟨pr0, hpr0, hk⟩ := (h2 s).mpr hx
            exact hany (List.any_eq_true.mpr ⟨pr0, hpr0, by simp [hk]⟩)
          refine ⟨?_, List.mem_append_right _ (by simp)⟩
          rw [List.count_append, List.count_eq_zero.mpr hs_not]
          simp
    have step2 : ∀ q : Sample,
        (∃ pr ∈ bumpCount acc s, pr.1 = q) ↔ q ∈ pre ++ [s] := by
      intro q
      rw [bumpCount]
      by_cases hany : acc.any fun p => p.1 = s
      · rw [if_pos hany]
        constructor
        · intro ⟨pr, hpr, hk⟩
          obtain ⟨pr0, hpr0, heq⟩ := List.mem_map.mp hpr
          have : pr0.1 = q := by
            by_cases hx : pr0.1 = s
            · rw [if_pos hx] at heq; rw [← heq] at hk; simpa using hk ▸ hx.symm ▸ rfl
            · rw [if_neg hx] at heq; rw [← heq] at hk; exact hk
          exact List.mem_append_left _ ((h2 q).mp ⟨pr0, hpr0, this⟩)
        · intro hq
          rcases List.mem_append.mp hq with hq | hq
          · obtain ⟨pr0, hpr0, hk⟩ := (h2 q).mpr hq
            by_cases hx : pr0.1 = s
            · exact ⟨(pr0.1, pr0.2 + 1), List.mem_map.mpr ⟨pr0, hpr0, by rw [if_pos hx]⟩, hk⟩
            · exact ⟨pr0, List.mem_map.mpr ⟨pr0, hpr0, by rw [if_neg hx]⟩, hk⟩
          · have hq : q = s := by simpa using hq
            obtain ⟨pr0, hpr0, hk⟩ := List.any_eq_true.mp hany
            have hk : pr0.1 = s := by simpa using hk
            by_cases hx : pr0.1 = s
            · exact ⟨(pr0.1, pr0.2 + 1), List.mem_map.mpr ⟨pr0, hpr0, by rw [if_pos hx]⟩,
                by rw [hk, hq]⟩
            · exact absurd hk hx
      · rw [if_neg hany]
        constructor
        · intro ⟨pr, hpr, hk⟩
          rcases List.mem_append.mp hpr with hin | hnew
          · exact List.mem_append_left _ ((h2 q).mp ⟨pr, hin, hk⟩)
          · have : pr = (s, 1) := by simpa using hnew
            subst this
            exact List.mem_append_right _ (by simp [← hk])
        · intro hq
          rcases List.mem_append.mp hq with hq | hq
          · obtain ⟨pr0, hpr0, hk⟩ := (h2 q).mpr hq
            exact ⟨pr0, List.mem_append_left _ hpr0, hk⟩
          · have hq : q = s := by simpa using hq
            exact ⟨(s, 1), List.mem_append_right _ (by simp), hq.symm⟩
    have := ih (pre ++ [s]) (bumpCount acc s) step1 step2
    simpa [List.append_assoc] using this

/-- Every entry of the frequency map holds the exact multiplicity of its
key in the input list, and its key occurs in the input. -/
theorem dedupCounts_spec (l : List Sample) :
    ∀ pr ∈ dedupCounts l, pr.2 = l.count pr.1 ∧ pr.1 ∈ l := by
  have := (dedup_fold_inv l [] [] (by simp) (by simp)).1
  simpa using this

/-- Indexing a map over `List.range`. -/
theorem getD_map_range {α : Type} (K i : ℕ) (F : ℕ → α) (dflt : α) (h : i < K) :
    ((List.range K).map F).getD i dflt = F i := by
  rw [List.getD_eq_getElem?_getD, List.getElem?_map, List.getElem?_range h]
  rfl

/-- Every sample of a created model is an `n × n` grid of `n * n`
pixels. -/
theorem create_sample_dims (img : Image) (n : ℕ) (f : ℕ → ℚ) :
    ∀ p ∈ (Model.create img n f).samples,
      p.region.width = n ∧ p.region.height = n ∧ p.region.data.length = n * n := by
  intro p hp
  have hp2 : ∃ pr ∈ dedupCounts (Model.unprocessedSamples img n), pr.1 = p := by
    simpa [Model.create] using List.mem_map.mp hp
  obtain ⟨pr, hpr, hk⟩ := hp2
  have hmem : p ∈ Model.unprocessedSamples img n := hk ▸ (dedupCounts_spec _ pr hpr).2
  obtain ⟨s, hs, hps⟩ := List.mem_flatMap.mp hmem
  obtain ⟨i, _, hsi⟩ := List.mem_map.mp hs
  have hreg : (img.get_region (i % img.width) (i / img.width) n n).length = n * n := by
    rw [Image.get_region, List.length_flatMap]
    have h : (List.length ∘ fun a => List.map
        (fun j => img.at' ⟨(((i / img.width + j) % img.width : ℕ) : ℤ),
          (((i % img.width + a) % img.height : ℕ) : ℤ)⟩) (List.range n)) = fun _ => n := by
      funext a
      simp
    rw [h, List.map_const', List.sum_replicate, List.length_range, smul_eq_mul]
  have hsdim : s.region.width = n ∧ s.region.height = n ∧ s.region.data.length = n * n := by
    rw [← hsi]
    exact ⟨rfl, rfl, hreg⟩
  rcases List.mem_cons.mp hps with rfl | hps
  · exact hsdim
  · have : p = s.rev_sample := by simpa using hps
    subst this
    simpa [Sample.rev_sample] using hsdim

/-- Membership in the adjacency bitsets of a created model is exactly the
`Sample::compatible` relation over in-range tiles. -/
theorem create_adj_mem (img : Image) (n : ℕ) (f : ℕ → ℚ) (i : ℕ)
    (hi : i < (Model.create img n f).size) (d : Direction) (j : ℕ) :
    j ∈ (Model.create img n f).adj i d ↔
      j < (Model.create img n f).size ∧
      ((Model.create img n f).samples.getD i default).compatible
        ((Model.create img n f).samples.getD j default) d = true := by
  have hlen : (Model.create img n f).size =
      ((Model.create img n f).samples).length := rfl
  rw [Model.adj]
  have hrule : (Model.create img n f).adjacency_rule =
      (List.range (Model.create img n f).samples.length).map fun s1 =>
        idxOrder.map fun direction =>
          ((List.range (Model.create img n f).samples.length).filter fun s2 =>
            ((Model.create img n f).samples.getD s1 default).compatible
              ((Model.create img n f).samples.getD s2 default) direction).toFinset := rfl
  rw [hrule]
  rw [getD_map_range _ _ _ _ (by simpa [Model.size] using hi)]
  have hidx : ∀ (g : Direction → Finset ℕ),
      ((idxOrder.map g).getD d.to_idx ∅) = g d := by
    intro g
    cases d <;> rfl
  rw [hidx]
  rw [List.mem_toFinset, List.mem_filter]
  simp [Model.size]

/-- Claim C5: `Sample::compatible` is symmetric — `A.compatible(B, d)`
iff `B.compatible(A, opposite(d))` — and consequently the adjacency rule
of every created model is symmetric: `j ∈ adjacency_rule[i][d]` iff
`i ∈ adjacency_rule[j][opposite(d)]`. -/
theorem C5_adjacency_symmetry :
    (∀ (A B : Sample) (d : Direction),
      A.region.width = B.region.width → A.region.height = B.region.height →
      1 ≤ A.region.width → 1 ≤ A.region.height →
      (A.compatible B d = true ↔ B.compatible A d.opposite = true)) ∧
    (∀ (img : Image) (n : ℕ) (f : ℕ → ℚ),
      ∀ i j, i < (Model.create img n f).size → j < (Model.create img n f).size →
      ∀ d : Direction,
        (j ∈ (Model.create img n f).adj i d ↔
         i ∈ (Model.create img n f).adj j d.opposite)) := by
  constructor
  · intro A B d _ _ _ _
    exact compatible_symm A B d
  · intro img n f i j hi hj d
    rw [create_adj_mem img n f i hi d j, create_adj_mem img n f j hj d.opposite i]
    rw [compatible_symm]
    tauto

/-- Witness for C5 on the concrete model `mThree` (tile 1 sits below tile
0 iff tile 0 sits above tile 1). -/
theorem C5_adjacency_symmetry_witness :
    ((⟨⟨1, 1, [(7, 0, 0)]⟩⟩ : Sample).compatible ⟨⟨1, 1, [(9, 0, 0)]⟩⟩ Direction.down = true ↔
      (⟨⟨1, 1, [(9, 0, 0)]⟩⟩ : Sample).compatible ⟨⟨1, 1, [(7, 0, 0)]⟩⟩ Direction.up = true) ∧
    (1 ∈ mThree.adj 0 Direction.down ↔ 0 ∈ mThree.adj 1 Direction.up) :=
  ⟨C5_adjacency_symmetry.1 _ _ Direction.down rfl rfl (by norm_num) (by norm_num),
   C5_adjacency_symmetry.2 imgThree 2 (fun _ => 0) 0 1 (by decide) (by decide) Direction.down⟩

/-- Length of a rectangular double loop. -/
theorem flatMap_range_len {α : Type} (n m : ℕ) (f : ℕ → ℕ → α) :
    ((List.range n).flatMap fun i => (List.range m).map fun j => f i j).length = n * m := by
  rw [List.length_flatMap]
  have h : (List.length ∘ fun i => (List.range m).map (f i)) = fun _ => m := by
    funext a
    simp
  rw [h, List.map_const', List.sum_replicate, List.length_range, smul_eq_mul, Nat.mul_comm]

/-- Indexing a rectangular double loop: element `a * m + b` is `f a b`. -/
theorem flatMap_range_getD {α : Type} (m : ℕ) (dflt : α) :
    ∀ (n : ℕ) (f : ℕ → ℕ → α) (a b : ℕ), a < n → b < m →
    (((List.range n).flatMap fun i => (List.range m).map fun j => f i j).getD (a * m + b) dflt)
      = f a b := by
  intro n
  induction n with
  | zero =>
    intro f a b ha _
    exact absurd ha (Nat.not_lt_zero a)
  | succ k ih =>
    intro f a b ha hb
    rw [List.range_succ, List.flatMap_append]
    have hlen : ((List.range k).flatMap fun i => (List.range m).map fun j => f i j).length
        = k * m := flatMap_range_len k m f
    rcases Nat.lt_or_ge a k with hak | hak
    · have hidx : a * m + b < k * m := by
        calc a * m + b < a * m + m := by omega
        _ = (a + 1) * m := by ring
        _ ≤ k * m := Nat.mul_le_mul_right m (by omega)
      rw [List.getD_append _ _ _ _ (by rw [hlen]; exact hidx)]
      exact ih f a b hak hb
    · have hak : a = k := by omega
      subst hak
      rw [List.getD_append_right _ _ _ _ (by rw [hlen]; exact Nat.le_add_right _ b)]
      rw [hlen, Nat.add_sub_cancel_left]
      have : ([a].flatMap fun i => (List.range m).map fun j => f i j)
          = (List.range m).map fun j => f a j := by simp
      rw [this, getD_map_range _ _ _ _ hb]

/-- Claim C6 fails on the code: `Image::get_region` uses its outer loop
index (derived from `x`) as the *row* and its inner index (derived from
`y`) as the *column*, so the sample extracted at position `(x, y)` reads
the exemplar at transposed coordinates.  At position `(0, 1)` of a 2×2
exemplar with pattern size 1, the extracted pixel is `I[1, 0]`, not the
claimed `I[(0+0) mod 2, (1+0) mod 2] = I[0, 1]`. -/
theorem C6_counterexample :
    ((imgTwo.sample 1).getD 2 default).at' ⟨0, 0⟩ = (2, 0, 0) ∧
    imgTwo.at' ⟨(((0 + 0) % 2 : ℕ) : ℤ), (((1 + 0) % 2 : ℕ) : ℤ)⟩ = (3, 0, 0) ∧
    ((imgTwo.sample 1).getD 2 default).at' ⟨0, 0⟩ ≠
      imgTwo.at' ⟨(((0 + 0) % 2 : ℕ) : ℤ), (((1 + 0) % 2 : ℕ) : ℤ)⟩ := by
  refine ⟨rfl, rfl, ?_⟩
  decide

/-- Claim C6 (amended): `Image::sample(n)` returns one sample per pixel
position, and the sample extracted at position `(x, y)` has as its pixel
at offset `(i, j)` the exemplar pixel `I[(y + i) mod W, (x + j) mod H]` —
the position and the offset enter with their roles transposed relative
to the claim. -/
theorem C6_amended (img : Image) (n x y i j : ℕ)
    (hx : x < img.width) (hy : y < img.height)
    (hlen : img.pixels.length = img.width * img.height)
    (hi : i < n) (hj : j < n) :
    (img.sample n).length = img.pixels.length ∧
    ((img.sample n).getD (y * img.width + x) default).at' ⟨(i : ℤ), (j : ℤ)⟩ =
      img.at' ⟨(((y + i) % img.width : ℕ) : ℤ), (((x + j) % img.height : ℕ) : ℤ)⟩ := by
  have hW : 0 < img.width := Nat.lt_of_le_of_lt (Nat.zero_le x) hx
  constructor
  · rw [Image.sample]
    simp
  · have h1 : y * img.width + x < (y + 1) * img.width := by
      rw [Nat.succ_mul]
      omega
    have h2 : (y + 1) * img.width ≤ img.height * img.width :=
      Nat.mul_le_mul_right _ (by omega)
    have hidx : y * img.width + x < img.pixels.length := by
      rw [hlen]
      exact Nat.lt_of_lt_of_le h1 (h2.trans (Nat.le_of_eq (Nat.mul_comm _ _)))
    rw [Image.sample, getD_map_range _ _ _ _ hidx]
    have hmod : (y * img.width + x) % img.width = x := by
      rw [Nat.add_comm]
      rw [Nat.add_mul_mod_self_right]
      exact Nat.mod_eq_of_lt hx
    have hdiv : (y * img.width + x) / img.width = y := by
      rw [Nat.add_comm]
      rw [Nat.add_mul_div_right _ _ hW, Nat.div_eq_of_lt hx]
      omega
    simp only [hmod, hdiv]
    show (Grid2D.mk n n (img.get_region x y n n)).getV ⟨(i : ℤ), (j : ℤ)⟩ = _
    rw [Grid2D.getV, Grid2D.idxOf]
    simp only [Int.toNat_ofNat]
    rw [Image.get_region]
    exact flatMap_range_getD n default n _ j i hj hi

/-- Witness for C6 (amended) at position `(0, 1)` of `imgTwo`. -/
theorem C6_amended_witness :
    (imgTwo.sample 1).length = imgTwo.pixels.length ∧
    ((imgTwo.sample 1).getD (1 * imgTwo.width + 0) default).at' ⟨(0 : ℕ), (0 : ℕ)⟩ =
      imgTwo.at' ⟨(((1 + 0) % imgTwo.width : ℕ) : ℤ), (((0 + 0) % imgTwo.height : ℕ) : ℤ)⟩ :=
  C6_amended imgTwo 1 0 1 0 0 (by decide) (by decide) (by decide) (by decide) (by decide)

/-- Indexing a map. -/
theorem getD_map {α β : Type} (l : List α) (g : α → β) (i : ℕ) (da : α) (db : β)
    (h : i < l.length) : (l.map g).getD i db = g (l.getD i da) := by
  rw [List.getD_eq_getElem?_getD, List.getElem?_map, List.getElem?_eq_getElem h]
  rw [List.getD_eq_getElem?_getD, List.getElem?_eq_getElem h]
  rfl

/-- Counting through the `flat_map` that appends each sample's
`rev_sample`. -/
theorem count_flatMap_pair (l : List Sample) (p : Sample) :
    (l.flatMap fun s => [s, s.rev_sample]).count p =
      l.count p + (l.map Sample.rev_sample).count p := by
  induction l with
  | nil => rfl
  | cons s t ih =>
    simp only [List.flatMap_cons, List.map_cons, List.count_cons, List.count_append, ih,
      List.count_nil]
    omega

/-- Claim C7 fails on the code: `Model::create` takes no rotation flag at
all, and it always extends the extracted multiset with the `rev_sample`
(180° reversal) of each extracted pattern.  For the 2×2 exemplar at
pattern size 1 the all-`(1,0,0)` pattern is counted twice, whereas the
claim would count it once (flag disabled) or four times (flag enabled:
the three 90°-rotations of a 1×1 pattern are the pattern itself). -/
theorem C7_counterexample :
    (Model.unprocessedSamples imgTwo 1).count ⟨⟨1, 1, [(1, 0, 0)]⟩⟩ = 2 ∧
    (imgTwo.sample 1).count ⟨⟨1, 1, [(1, 0, 0)]⟩⟩ = 1 ∧
    ((imgTwo.sample 1).flatMap Sample.rotate).count ⟨⟨1, 1, [(1, 0, 0)]⟩⟩ = 4 ∧
    mTwo.samples.getD 0 default = ⟨⟨1, 1, [(1, 0, 0)]⟩⟩ ∧
    (mTwo.get_relative_freq 0).1 = 2 ∧
    (2 : ℕ) ≠ 1 ∧ (2 : ℕ) ≠ 4 := by
  refine ⟨by decide, by decide, by decide, by decide, by decide, by decide, by decide⟩

/-- Claim C7 (amended): the multiset of patterns that `Model::create`
counts into its frequency map is the extracted multiset extended by the
`rev_sample` (180° reversal) of each extracted pattern, unconditionally
— the source's `Model::create` takes no rotation flag.  Part one ties
every stored frequency to the multiplicity in that multiset; part two
describes the multiset itself. -/
theorem C7_amended (img : Image) (n : ℕ) (f : ℕ → ℚ) :
    (∀ i, i < (Model.create img n f).size →
      ((Model.create img n f).get_relative_freq i).1 =
        (Model.unprocessedSamples img n).count
          ((Model.create img n f).samples.getD i default)) ∧
    (∀ p : Sample,
      (Model.unprocessedSamples img n).count p =
        (img.sample n).count p + ((img.sample n).map Sample.rev_sample).count p) := by
  constructor
  · intro i hi
    set counted := dedupCounts (Model.unprocessedSamples img n) with hc
    have hsz : (Model.create img n f).size = counted.length := by
      simp [Model.create, Model.size]
    have hig : i < counted.length := hsz ▸ hi
    have hfm0 : (Model.create img n f).freq_map =
        (List.range (counted.map Prod.snd).length).map fun i =>
          (i, ((counted.map Prod.snd).getD i 0, f ((counted.map Prod.snd).getD i 0))) := rfl
    have hfm : (Model.create img n f).get_relative_freq i =
        ((counted.map Prod.snd).getD i 0, f ((counted.map Prod.snd).getD i 0)) := by
      rw [Model.get_relative_freq, hfm0, getD_map_range _ _ _ _ (by simpa using hig)]
    have hsamp : (Model.create img n f).samples.getD i default =
        (counted.getD i default).1 := by
      show (counted.map Prod.fst).getD i default = _
      exact getD_map counted Prod.fst i default default hig
    rw [hfm, hsamp]
    have h1 : (counted.map Prod.snd).getD i 0 = (counted.getD i default).2 :=
      getD_map counted Prod.snd i default 0 hig
    rw [h1]
    have hmem : counted.getD i default ∈ counted := by
      rw [List.getD_eq_getElem?_getD, List.getElem?_eq_getElem hig]
      exact List.getElem_mem _
    exact (dedupCounts_spec _ _ hmem).1
  · intro p
    exact count_flatMap_pair _ p

/-- Witness for C7 (amended) on `mTwo`. -/
theorem C7_amended_witness :
    (mTwo.get_relative_freq 0).1 =
      (Model.unprocessedSamples imgTwo 1).count (mTwo.samples.getD 0 default) ∧
    (Model.unprocessedSamples imgTwo 1).count ⟨⟨1, 1, [(1, 0, 0)]⟩⟩ =
      (imgTwo.sample 1).count ⟨⟨1, 1, [(1, 0, 0)]⟩⟩ +
        ((imgTwo.sample 1).map Sample.rev_sample).count ⟨⟨1, 1, [(1, 0, 0)]⟩⟩ :=
  ⟨(C7_amended imgTwo 1 (fun _ => 0)).1 0 (by decide),
   (C7_amended imgTwo 1 (fun _ => 0)).2 ⟨⟨1, 1, [(1, 0, 0)]⟩⟩⟩

/-- Out-of-range tiles have empty adjacency bitsets in a created model. -/
theorem create_adj_out (img : Image) (n : ℕ) (f : ℕ → ℚ) (i : ℕ)
    (hi : ¬ i < (Model.create img n f).size) (d : Direction) :
    (Model.create img n f).adj i d = ∅ := by
  have hlen : (Model.create img n f).adjacency_rule.length = (Model.create img n f).size := by
    simp [Model.create, Model.size]
  have h0 : (Model.create img n f).adjacency_rule.getD i [] = [] :=
    List.getD_eq_default _ _ (by rw [hlen]; omega)
  rw [Model.adj, h0]
  cases d <;> rfl

/-- Adjacency bitsets of a created model only hold in-range tiles. -/
theorem create_adj_bound (img : Image) (n : ℕ) (f : ℕ → ℚ) :
    ∀ (i : ℕ) (d : Direction), ∀ j ∈ (Model.create img n f).adj i d,
      j < (Model.create img n f).size := by
  intro i d j hj
  by_cases hi : i < (Model.create img n f).size
  · exact ((create_adj_mem img n f i hi d j).mp hj).1
  · rw [create_adj_out img n f i hi d] at hj
    exact absurd hj (Finset.not_mem_empty j)

/-- `Model::create` produces a well-formed model (for `n ≥ 1`, and given
that the total pattern multiplicity fits in a `u32`). -/
theorem create_wellformed (img : Image) (n : ℕ) (f : ℕ → ℚ) (hn : 1 ≤ n)
    (hfb : (∑ t ∈ Finset.range (Model.create img n f).size,
      ((Model.create img n f).get_relative_freq t).1) < 2 ^ 32) :
    (Model.create img n f).Wellformed n := by
  refine ⟨hn, ?_, create_sample_dims img n f, ?_, create_adj_bound img n f, hfb⟩
  · simp [Model.create]
  · intro i j hi hj d
    rw [create_adj_mem img n f i hi d j]
    exact ⟨fun h => h.2, fun h => ⟨hj, h⟩⟩

/-- `mThree` is a well-formed model of pattern size 2. -/
theorem mThree_wf : mThree.Wellformed 2 :=
  create_wellformed imgThree 2 (fun _ => 0) (by norm_num) (by decide)

/-- `mTwo` is a well-formed model of pattern size 1. -/
theorem mTwo_wf : mTwo.Wellformed 1 :=
  create_wellformed imgTwo 1 (fun _ => 0) (by norm_num) (by decide)

/-- `mTall` is a well-formed model of pattern size 3. -/
theorem mTall_wf : mTall.Wellformed 3 :=
  create_wellformed imgTall 3 (fun _ => 0) (by norm_num) (by decide)

/-- Claim C3 fails on the code: `get_initial_tile_enabler_counts` stores
`|adjacency_rule[i][d]|`, not `|adjacency_rule[i][opposite(d)]|`.  In the
model of `imgThree` (pattern size 2), tile 0 has 1 upward neighbour but 3
downward neighbours, so the stored initial count for Up is 1 while the
claimed value `|adjacency_rule[0][Down]|` is 3. -/
theorem C3_counterexample :
    (mThree.get_initial_tile_enabler_counts.getD 0 default).by_direction.getD
      Direction.up.to_idx 0 = 1 ∧
    (mThree.adj 0 Direction.up.opposite).card = 3 ∧
    (1 : ℕ) ≠ 3 := by
  refine ⟨by decide, by decide, by decide⟩

/-- Claim C3 (amended): for every well-formed model, tile `i` and
direction `d`, the initial enabler count equals `|adjacency_rule[i][d]|`
(the *same* direction), which by adjacency symmetry equals the number of
tiles `j` with `i ∈ adjacency_rule[j][opposite(d)]` — i.e. the number of
tiles that could sit in the neighbour at direction `d` and enable `i`
here. -/
theorem C3_amended (m : Model) (N : ℕ) (hwf : m.Wellformed N) (i : ℕ)
    (hi : i < m.size) (d : Direction) :
    (m.get_initial_tile_enabler_counts.getD i default).by_direction.getD d.to_idx 0 =
      (m.adj i d).card ∧
    (m.adj i d).card =
      ((Finset.range m.size).filter fun j => i ∈ m.adj j d.opposite).card := by
  constructor
  · rw [Model.get_initial_tile_enabler_counts,
      getD_map_range _ _ _ _ (show i < m.samples.length from hi)]
    cases d <;> rfl
  · have hset : (Finset.range m.size).filter (fun j => i ∈ m.adj j d.opposite) = m.adj i d := by
      ext j
      simp only [Finset.mem_filter, Finset.mem_range]
      constructor
      · rintro ⟨hj, hmem⟩
        have h1 := (hwf.adj_char j i hj hi d.opposite).mp hmem
        have h2 := (compatible_symm (m.samples.getD i default)
          (m.samples.getD j default) d).mpr h1
        exact (hwf.adj_char i j hi hj d).mpr h2
      · intro hmem
        have hj : j < m.size := hwf.adj_bound i d j hmem
        refine ⟨hj, ?_⟩
        have h1 := (hwf.adj_char i j hi hj d).mp hmem
        exact (hwf.adj_char j i hj hi d.opposite).mpr
          ((compatible_symm (m.samples.getD i default) (m.samples.getD j default) d).mp h1)
    rw [hset]

/-- Witness for C3 (amended) on `mThree`, tile 0, direction Up. -/
theorem C3_amended_witness :
    (mThree.get_initial_tile_enabler_counts.getD 0 default).by_direction.getD
      Direction.up.to_idx 0 = (mThree.adj 0 Direction.up).card ∧
    (mThree.adj 0 Direction.up).card =
      ((Finset.range mThree.size).filter fun j => 0 ∈ mThree.adj j Direction.up.opposite).card :=
  C3_amended mThree 2 mThree_wf 0 (by decide) Direction.up

/-! ### Basic facts about the state machinery -/

/-- Membership in a bitset iteration. -/
theorem mem_bsIter (s : Finset ℕ) (cap t : ℕ) :
    t ∈ bsIter s cap ↔ t < cap ∧ t ∈ s := by
  simp [bsIter]

/-- Bitset iterations are duplicate-free.. -/
theorem bsIter_nodup (s : Finset ℕ) (cap : ℕ) : (bsIter s cap).Nodup :=
  (List.nodup_range cap).filter _

/-- A bitset below its capacity is recovered from its iteration. -/
theorem bsIter_toFinset (s : Finset ℕ) (cap : ℕ) (h : ∀ t ∈ s, t < cap) :
    (bsIter s cap).toFinset = s := by
  ext t
  rw [List.mem_toFinset, mem_bsIter]
  exact ⟨fun hx => hx.2, fun hx => ⟨h t hx, hx⟩⟩

/-- Taking the opposite direction twice is the identity. -/
theorem Direction.opposite_opposite (d : Direction) : d.opposite.opposite = d := by
  cases d <;> rfl

/-- A neighbour coordinate is never the coordinate itself. -/
theorem Vector2.neighbor_ne (v : Vector2) (d : Direction) : v.neighbor d ≠ v := by
  obtain ⟨x, y⟩ := v
  cases d <;> simp [Vector2.neighbor] <;> omega

/-- Moving to a neighbour and back is the identity. -/
theorem Vector2.neighbor_opposite (v : Vector2) (d : Direction) :
    (v.neighbor d).neighbor d.opposite = v := by
  obtain ⟨x, y⟩ := v
  cases d <;> simp [Vector2.neighbor, Direction.opposite] <;> omega

/-- `c.neighbor d = a` exactly when `c = a.neighbor d.opposite`. -/
theorem Vector2.neighbor_eq_iff (c a : Vector2) (d : Direction) :
    c.neighbor d = a ↔ c = a.neighbor d.opposite := by
  constructor
  · intro h
    rw [← h, Vector2.neighbor_opposite]
  · intro h
    rw [h]
    have h2 := Vector2.neighbor_opposite a d.opposite
    rw [Direction.opposite_opposite] at h2
    exact h2

/-- A valid coordinate indexes into the grid data. -/
theorem idxOf_lt_length {W H : ℕ} (s : CoreState)
    (hw : s.grid.width = W) (hh : s.grid.height = H) (hl : s.grid.data.length = W * H)
    (c : Vector2) (hc : s.grid.valid_pos c) : s.grid.idxOf c < s.grid.data.length := by
  obtain ⟨h1, h2, h3, h4⟩ := hc
  rw [Grid2D.idxOf, hl, hw]
  rw [hw] at h2
  rw [hh] at h4
  have hx : c.x.toNat < W := by omega
  have hy : c.y.toNat < H := by omega
  calc c.y.toNat * W + c.x.toNat < c.y.toNat * W + W := by omega
    _ = (c.y.toNat + 1) * W := by ring
    _ ≤ H * W := Nat.mul_le_mul_right _ (by omega)
    _ = W * H := Nat.mul_comm _ _

/-- Grid indices of valid coordinates are injective. -/
theorem idxOf_inj {W H : ℕ} (s : CoreState)
    (hw : s.grid.width = W) (hh : s.grid.height = H)
    (c1 c2 : Vector2) (h1 : s.grid.valid_pos c1) (h2 : s.grid.valid_pos c2)
    (he : s.grid.idxOf c1 = s.grid.idxOf c2) : c1 = c2 := by
  obtain ⟨a1, a2, a3, a4⟩ := h1
  obtain ⟨b1, b2, b3, b4⟩ := h2
  rw [Grid2D.idxOf, Grid2D.idxOf, hw] at he
  rw [hw] at a2 b2
  have hx1 : c1.x.toNat < W := by omega
  have hx2 : c2.x.toNat < W := by omega
  have hW : 0 < W := by omega
  have hxx : c1.x.toNat = c2.x.toNat := by
    have e1 : (c1.y.toNat * W + c1.x.toNat) % W = c1.x.toNat := by
      rw [Nat.add_comm, Nat.add_mul_mod_self_right]
      exact Nat.mod_eq_of_lt hx1
    have e2 : (c2.y.toNat * W + c2.x.toNat) % W = c2.x.toNat := by
      rw [Nat.add_comm, Nat.add_mul_mod_self_right]
      exact Nat.mod_eq_of_lt hx2
    rw [← e1, ← e2, he]
  have hyy : c1.y.toNat = c2.y.toNat := by
    have e1 : (c1.y.toNat * W + c1.x.toNat) / W = c1.y.toNat := by
      rw [Nat.add_comm, Nat.add_mul_div_right _ _ hW, Nat.div_eq_of_lt hx1]
      omega
    have e2 : (c2.y.toNat * W + c2.x.toNat) / W = c2.y.toNat := by
      rw [Nat.add_comm, Nat.add_mul_div_right _ _ hW, Nat.div_eq_of_lt hx2]
      omega
    rw [← e1, ← e2, he]
  rw [Vector2.mk.injEq]
  omega

/-- Reading back the cell just written. -/
theorem cellAt_setCell_self {W H : ℕ} (s : CoreState)
    (hw : s.grid.width = W) (hh : s.grid.height = H) (hl : s.grid.data.length = W * H)
    (c : Vector2) (hc : s.grid.valid_pos c) (a : CoreCell) :
    (s.setCell c a).cellAt c = a := by
  rw [CoreState.setCell, CoreState.cellAt, Grid2D.getV, Grid2D.setV]
  show (s.grid.data.set (s.grid.idxOf c) a).getD (s.grid.idxOf c) default = a
  have hlt := idxOf_lt_length s hw hh hl c hc
  rw [List.getD_eq_getElem?_getD, List.getElem?_set_self (by omega)]
  rfl

/-- Reading an untouched cell after a write elsewhere. -/
theorem cellAt_setCell_ne {W H : ℕ} (s : CoreState)
    (hw : s.grid.width = W) (hh : s.grid.height = H)
    (c1 c2 : Vector2) (h1 : s.grid.valid_pos c1) (h2 : s.grid.valid_pos c2)
    (hne : c2 ≠ c1) (a : CoreCell) :
    (s.setCell c1 a).cellAt c2 = s.cellAt c2 := by
  rw [CoreState.setCell, CoreState.cellAt, CoreState.cellAt, Grid2D.getV, Grid2D.getV,
    Grid2D.setV]
  show (s.grid.data.set (s.grid.idxOf c1) a).getD (s.grid.idxOf c2) default = _
  have hne2 : s.grid.idxOf c1 ≠ s.grid.idxOf c2 := by
    intro hx
    exact hne (idxOf_inj s hw hh c1 c2 h1 h2 hx).symm
  rw [List.getD_eq_getElem?_getD, List.getElem?_set_ne hne2, List.getD_eq_getElem?_getD]

/-- `setCell` leaves every grid dimension and every other state field
unchanged. -/
theorem setCell_fields (s : CoreState) (c : Vector2) (a : CoreCell) :
    (s.setCell c a).grid.width = s.grid.width ∧
    (s.setCell c a).grid.height = s.grid.height ∧
    (s.setCell c a).grid.data.length = s.grid.data.length ∧
    (s.setCell c a).model = s.model ∧
    (s.setCell c a).tile_removals = s.tile_removals ∧
    (s.setCell c a).remaining_uncollapsed_cells = s.remaining_uncollapsed_cells :=
  ⟨rfl, rfl, by simp [CoreState.setCell, Grid2D.setV], rfl, rfl, rfl⟩

/-- Validity of positions is unchanged by cell writes. -/
theorem valid_pos_setCell (s : CoreState) (c : Vector2) (a : CoreCell) (v : Vector2) :
    (s.setCell c a).grid.valid_pos v ↔ s.grid.valid_pos v := Iff.rfl

/-- Reading a count just written. -/
theorem countOf_setCount_self (cell : CoreCell) (t : ℕ) (d : Direction) (v : ℕ)
    (ht : t < cell.tile_enabler_counts.length)
    (hd : (cell.tile_enabler_counts.getD t default).by_direction.length = 4) :
    (cell.setCount t d v).countOf t d = v := by
  rw [CoreCell.setCount, CoreCell.countOf]
  show ((cell.tile_enabler_counts.set t _).getD t default).get d = v
  rw [List.getD_eq_getElem?_getD, List.getElem?_set_self (by omega)]
  show ((cell.tile_enabler_counts.getD t default).set d v).get d = v
  rw [TileEnablerCount.set, TileEnablerCount.get]
  show ((cell.tile_enabler_counts.getD t default).by_direction.set d.to_idx v).getD d.to_idx 0 = v
  have hidx : d.to_idx < 4 := by cases d <;> decide
  rw [List.getD_eq_getElem?_getD, List.getElem?_set_self (by omega)]
  rfl

/-- `to_idx` is injective. -/
theorem to_idx_inj (d1 d2 : Direction) (h : d1.to_idx = d2.to_idx) : d1 = d2 := by
  cases d1 <;> cases d2 <;> first | rfl | (exact absurd h (by decide))

/-- Reading an untouched count after a count write. -/
theorem countOf_setCount_ne (cell : CoreCell) (t t2 : ℕ) (d d2 : Direction) (v : ℕ)
    (h : t2 ≠ t ∨ d2 ≠ d) :
    (cell.setCount t d v).countOf t2 d2 = cell.countOf t2 d2 := by
  rw [CoreCell.setCount, CoreCell.countOf, CoreCell.countOf]
  rcases h with h | h
  · show ((cell.tile_enabler_counts.set t _).getD t2 default).get d2 = _
    rw [List.getD_eq_getElem?_getD, List.getElem?_set_ne (fun hx => h hx.symm),
      List.getD_eq_getElem?_getD]
  · by_cases ht : t2 = t
    · subst ht
      show ((cell.tile_enabler_counts.set t2 _).getD t2 default).get d2 = _
      by_cases hlen : t2 < cell.tile_enabler_counts.length
      · rw [List.getD_eq_getElem?_getD, List.getElem?_set_self (by omega)]
        show ((cell.tile_enabler_counts.getD t2 default).set d v).get d2 = _
        rw [TileEnablerCount.set, TileEnablerCount.get, TileEnablerCount.get]
        show ((cell.tile_enabler_counts.getD t2 default).by_direction.set d.to_idx v).getD
          d2.to_idx 0 = _
        rw [List.getD_eq_getElem?_getD,
          List.getElem?_set_ne (fun hx => h (to_idx_inj d2 d hx.symm))]
        simp [List.getD_eq_getElem?_getD]
      · rw [List.set_eq_of_length_le (by omega)]
    · show ((cell.tile_enabler_counts.set t _).getD t2 default).get d2 = _
      rw [List.getD_eq_getElem?_getD, List.getElem?_set_ne (fun hx => ht hx.symm),
        List.getD_eq_getElem?_getD]

/-- `setCount` changes neither the possible set, the cached sums, the
collapsed flag, nor the outer counts length. -/
theorem setCount_fields (cell : CoreCell) (t : ℕ) (d : Direction) (v : ℕ) :
    (cell.setCount t d v).possible = cell.possible ∧
    (cell.setCount t d v).sum_of_possible_tile_weights = cell.sum_of_possible_tile_weights ∧
    (cell.setCount t d v).sum_of_possible_tile_weight_log_weights =
      cell.sum_of_possible_tile_weight_log_weights ∧
    (cell.setCount t d v).is_collpased = cell.is_collpased ∧
    (cell.setCount t d v).tile_enabler_counts.length = cell.tile_enabler_counts.length :=
  ⟨rfl, rfl, rfl, rfl, by simp [CoreCell.setCount]⟩

/-- `remove_tile` changes neither the counts nor the collapsed flag. -/
theorem remove_tile_fields (cell : CoreCell) (t : ℕ) (m : Model) :
    (cell.remove_tile t m).possible = cell.possible.erase t ∧
    (cell.remove_tile t m).is_collpased = cell.is_collpased ∧
    (cell.remove_tile t m).tile_enabler_counts = cell.tile_enabler_counts ∧
    (∀ t2 d2, (cell.remove_tile t m).countOf t2 d2 = cell.countOf t2 d2) :=
  ⟨rfl, rfl, rfl, fun _ _ => rfl⟩

/-- Exchange law for `countP` under a point update. -/
theorem countP_set_add {α : Type} [Inhabited α] (p : α → Bool) :
    ∀ (l : List α) (i : ℕ) (a : α), i < l.length →
    (l.set i a).countP p + (if p (l.getD i default) then 1 else 0) =
      l.countP p + (if p a then 1 else 0) := by
  intro l
  induction l with
  | nil =>
    intro i a h
    exact absurd h (by simp)
  | cons b t ih =>
    intro i a h
    cases i with
    | zero =>
      simp only [List.set_cons_zero, List.countP_cons, List.getD_cons_zero]
      by_cases hpa : p a <;> by_cases hpb : p b <;> simp [hpa, hpb] <;> omega
    | succ k =>
      have hk : k < t.length := by simpa using h
      have hthis := ih k a hk
      simp only [List.set_cons_succ, List.countP_cons, List.getD_cons_succ,
        List.getD_eq_getElem?_getD] at hthis ⊢
      by_cases hpb : p b <;> simp [hpb] <;> omega

/-- `uncollapsedCount` is unchanged when a cell is overwritten without
changing its collapsed flag. -/
theorem uncollapsedCount_setCell_same {W H : ℕ} (s : CoreState)
    (hw : s.grid.width = W) (hh : s.grid.height = H) (hl : s.grid.data.length = W * H)
    (c : Vector2) (hc : s.grid.valid_pos c) (a : CoreCell)
    (hflag : a.is_collpased = (s.cellAt c).is_collpased) :
    uncollapsedCount (s.setCell c a) = uncollapsedCount s := by
  rw [uncollapsedCount, uncollapsedCount, ← List.countP_eq_length_filter,
    ← List.countP_eq_length_filter]
  show (s.grid.data.set (s.grid.idxOf c) a).countP _ = _
  have h1 := countP_set_add (fun cell => decide (cell.is_collpased = false))
    s.grid.data (s.grid.idxOf c) a (idxOf_lt_length s hw hh hl c hc)
  simp only [] at h1
  have h2 : a.is_collpased = (s.grid.data.getD (s.grid.idxOf c) default).is_collpased := hflag
  simp only [h2] at h1
  omega

/-- `uncollapsedCount` drops by one when an uncollapsed cell is
overwritten by a collapsed one. -/
theorem uncollapsedCount_setCell_collapse {W H : ℕ} (s : CoreState)
    (hw : s.grid.width = W) (hh : s.grid.height = H) (hl : s.grid.data.length = W * H)
    (c : Vector2) (hc : s.grid.valid_pos c) (a : CoreCell)
    (hold : (s.cellAt c).is_collpased = false) (hnew : a.is_collpased = true) :
    uncollapsedCount (s.setCell c a) + 1 = uncollapsedCount s := by
  rw [uncollapsedCount, uncollapsedCount, ← List.countP_eq_length_filter,
    ← List.countP_eq_length_filter]
  show (s.grid.data.set (s.grid.idxOf c) a).countP _ + 1 = _
  have h1 := countP_set_add (fun cell => decide (cell.is_collpased = false))
    s.grid.data (s.grid.idxOf c) a (idxOf_lt_length s hw hh hl c hc)
  simp only [] at h1
  have hcell : (s.grid.data.getD (s.grid.idxOf c) default).is_collpased = false := hold
  simp only [hcell, hnew] at h1
  have hx : (if decide True = true then (1 : ℕ) else 0) = 1 := rfl
  have hy : (if decide ((true : Bool) = false) = true then (1 : ℕ) else 0) = 0 := rfl
  rw [hx, hy] at h1
  omega

/-- Folding `u32add` computes the exact sum when it fits in a `u32`. -/
theorem foldl_u32add_eq_sum :
    ∀ (l : List ℕ) (a : ℕ), a + l.sum < 2 ^ 32 → l.foldl u32add a = a + l.sum := by
  intro l
  induction l with
  | nil => intro a _; simp
  | cons b t ih =>
    intro a h
    rw [List.foldl_cons, List.sum_cons] at *
    rw [show u32add a b = a + b by rw [u32add]; omega]
    rw [ih (a + b) (by omega)]
    omega

/-- Folding rational addition computes the sum. -/
theorem foldl_add_eq_sum : ∀ (l : List ℚ) (a : ℚ), l.foldl (· + ·) a = a + l.sum := by
  intro l
  induction l with
  | nil => intro a; simp
  | cons b t ih =>
    intro a
    rw [List.foldl_cons, List.sum_cons, ih (a + b)]
    ring

/-- Sum over `List.range` agrees with the `Finset.range` sum. -/
theorem sum_map_range_eq {M : Type} [AddCommMonoid M] (n : ℕ) (f : ℕ → M) :
    ((List.range n).map f).sum = ∑ i ∈ Finset.range n, f i := by
  induction n with
  | zero => simp
  | succ k ih =>
    rw [List.range_succ, List.map_append, List.sum_append, Finset.sum_range_succ, ih]
    simp

/-- Sum of a bitset iteration below capacity. -/
theorem sum_map_bsIter {M : Type} [AddCommMonoid M] (s : Finset ℕ) (cap : ℕ)
    (hcap : ∀ t ∈ s, t < cap) (f : ℕ → M) :
    ((bsIter s cap).map f).sum = ∑ t ∈ s, f t := by
  have h1 : ∑ t ∈ s, f t = ∑ t ∈ (bsIter s cap).toFinset, f t := by
    rw [bsIter_toFinset s cap hcap]
  rw [h1, List.sum_toFinset _ (bsIter_nodup s cap)]

/-! ### Characterisation of the inner propagation step -/

/-- Unfolded description of a count read. -/
theorem countOf_def (cell : CoreCell) (t : ℕ) (d : Direction) :
    cell.countOf t d =
      (cell.tile_enabler_counts.getD t default).by_direction.getD d.to_idx 0 := rfl

/-- Direction indices are below 4. -/
theorem to_idx_lt (d : Direction) : d.to_idx < 4 := by
  cases d <;> decide

/-- Writing the same cell twice keeps only the second write. -/
theorem setCell_setCell (s : CoreState) (c : Vector2) (a b : CoreCell) :
    (s.setCell c a).setCell c b = s.setCell c b := by
  show CoreState.mk _ _ _ _ = CoreState.mk _ _ _ _
  rw [CoreState.mk.injEq]
  refine ⟨?_, rfl, rfl, rfl⟩
  show Grid2D.mk _ _ _ = Grid2D.mk _ _ _
  rw [Grid2D.mk.injEq]
  exact ⟨rfl, rfl, List.set_set _ _ _ _⟩

/-- Reading any valid cell after one write. -/
theorem cellAt_after_set {W H : ℕ} (s : CoreState)
    (hw : s.grid.width = W) (hh : s.grid.height = H) (hl : s.grid.data.length = W * H)
    (c1 : Vector2) (hc1 : s.grid.valid_pos c1) (a : CoreCell)
    (c : Vector2) (hc : s.grid.valid_pos c) :
    (s.setCell c1 a).cellAt c = if c = c1 then a else s.cellAt c := by
  by_cases hx : c = c1
  · subst hx
    rw [if_pos rfl]
    exact cellAt_setCell_self s hw hh hl c hc a
  · rw [if_neg hx]
    exact cellAt_setCell_ne s hw hh c1 c hc1 hc hx a

/-- The stored direction list of any in-range tile has length 4 under the
safety invariant. -/
theorem counts_get_len {m : Model} {W H : ℕ} {s : CoreState} (hs : SafeInv m W H s)
    (c : Vector2) (hc : s.grid.valid_pos c) (t : ℕ) (ht : t < m.size) :
    ((s.cellAt c).tile_enabler_counts.getD t default).by_direction.length = 4 := by
  apply (hs.counts_len c hc).2
  have hlt : t < (s.cellAt c).tile_enabler_counts.length := by
    rw [(hs.counts_len c hc).1]
    exact ht
  rw [List.getD_eq_getElem?_getD, List.getElem?_eq_getElem hlt]
  exact List.getElem_mem _

/-- The inner propagation step does nothing when the count is already
zero. -/
theorem propagateTile_zero (s : CoreState) (d : Direction) (nc : Vector2) (t : ℕ)
    (h0 : (s.cellAt nc).countOf t d.opposite = 0) :
    CoreState.propagateTile s d nc t = s := by
  simp only [CoreState.propagateTile]
  rw [if_pos h0]

/-- The inner propagation step just decrements when the count stays
positive. -/
theorem propagateTile_dec (s : CoreState) (d : Direction) (nc : Vector2) (t : ℕ)
    (h0 : ¬ (s.cellAt nc).countOf t d.opposite = 0)
    (h1 : ¬ (s.cellAt nc).countOf t d.opposite - 1 = 0) :
    CoreState.propagateTile s d nc t =
      s.setCell nc ((s.cellAt nc).setCount t d.opposite
        ((s.cellAt nc).countOf t d.opposite - 1)) := by
  simp only [CoreState.propagateTile]
  rw [if_neg h0, if_neg h1]

/-- The inner propagation step decrements to zero but performs no removal
when the guard blocks it. -/
theorem propagateTile_blocked (s : CoreState) (d : Direction) (nc : Vector2) (t : ℕ)
    (h0 : ¬ (s.cellAt nc).countOf t d.opposite = 0)
    (h1 : (s.cellAt nc).countOf t d.opposite - 1 = 0)
    (hg : CoreState.removeBlocked
      ((s.cellAt nc).setCount t d.opposite ((s.cellAt nc).countOf t d.opposite - 1))
      t d.opposite) :
    CoreState.propagateTile s d nc t =
      s.setCell nc ((s.cellAt nc).setCount t d.opposite
        ((s.cellAt nc).countOf t d.opposite - 1)) := by
  simp only [CoreState.propagateTile]
  rw [if_neg h0, if_pos h1, if_pos hg]

/-- The inner propagation step decrements to zero and removes the tile,
enqueueing the removal, when the guard passes. -/
theorem propagateTile_remove (s : CoreState) (d : Direction) (nc : Vector2) (t : ℕ)
    (h0 : ¬ (s.cellAt nc).countOf t d.opposite = 0)
    (h1 : (s.cellAt nc).countOf t d.opposite - 1 = 0)
    (hg : ¬ CoreState.removeBlocked
      ((s.cellAt nc).setCount t d.opposite ((s.cellAt nc).countOf t d.opposite - 1))
      t d.opposite) :
    CoreState.propagateTile s d nc t =
      { s.setCell nc
          ((((s.cellAt nc).setCount t d.opposite
            ((s.cellAt nc).countOf t d.opposite - 1))).remove_tile t s.model) with
        tile_removals := s.tile_removals ++ [⟨t, nc⟩] } := by
  simp only [CoreState.propagateTile]
  rw [if_neg h0, if_pos h1, if_neg hg]
  rw [setCell_setCell, (setCell_fields s nc _).2.2.2.2.1]

/-- A tile whose removal passes both guards is still possible in the
cell: a missing tile of an uncollapsed cell has a zero count in some
*other* direction, which the second guard would have seen. -/
theorem removal_target_possible {m : Model} {W H : ℕ} (s : CoreState)
    (nc : Vector2) (t : ℕ) (od : Direction)
    (hs : SafeInv m W H s) (hnc : s.grid.valid_pos nc) (ht : t < m.size)
    (h0 : ¬ (s.cellAt nc).countOf t od = 0)
    (hg : ¬ CoreState.removeBlocked
      ((s.cellAt nc).setCount t od ((s.cellAt nc).countOf t od - 1)) t od) :
    (s.cellAt nc).is_collpased = false ∧ t ∈ (s.cellAt nc).possible := by
  simp only [CoreState.removeBlocked, not_or] at hg
  obtain ⟨hg1, hg2⟩ := hg
  have hcol : (s.cellAt nc).is_collpased = false := by
    have hsc : ((s.cellAt nc).setCount t od ((s.cellAt nc).countOf t od - 1)).is_collpased =
        (s.cellAt nc).is_collpased := (setCount_fields _ _ _ _).2.2.2.1
    rw [hsc] at hg1
    cases h : (s.cellAt nc).is_collpased
    · rfl
    · exact absurd h hg1
  refine ⟨hcol, ?_⟩
  by_contra htp
  obtain ⟨d0, hz⟩ := hs.zero_stick nc hnc hcol t ht htp
  have hd0 : d0 ≠ od := by
    intro hx
    rw [hx] at hz
    exact h0 hz
  apply hg2
  rw [List.any_eq_true]
  refine ⟨d0.to_idx, ?_, ?_⟩
  · rw [List.mem_filter]
    refine ⟨List.mem_range.mpr (to_idx_lt d0), ?_⟩
    simp only [decide_eq_true_eq]
    intro hx
    exact hd0 (to_idx_inj d0 od hx)
  · simp only [decide_eq_true_eq]
    show ((s.cellAt nc).setCount t od ((s.cellAt nc).countOf t od - 1)).countOf t d0 = 0
    rw [countOf_setCount_ne _ _ _ _ _ _ (Or.inr hd0)]
    exact hz

/-- `SafeInv` is preserved by overwriting one enabler count of a valid
cell, provided the overwritten slot was not a zero-stick witness. -/
theorem safeInv_write_count {m : Model} {W H : ℕ} (s : CoreState)
    (nc : Vector2) (t : ℕ) (dd : Direction) (v : ℕ)
    (hs : SafeInv m W H s) (hnc : s.grid.valid_pos nc) (ht : t < m.size)
    (h0 : ¬ (s.cellAt nc).countOf t dd = 0) :
    SafeInv m W H (s.setCell nc ((s.cellAt nc).setCount t dd v)) := by
  have hw := hs.grid_w
  have hh := hs.grid_h
  have hl := hs.grid_len
  have hca := cellAt_after_set s hw hh hl nc hnc ((s.cellAt nc).setCount t dd v)
  refine ⟨hw, hh, by rw [(setCell_fields s nc _).2.2.1]; exact hl, hs.model_eq,
    ?_, ?_, ?_, ?_, ?_, ?_⟩
  · intro c hc t2 ht2
    rw [valid_pos_setCell] at hc
    rw [hca c hc] at ht2
    by_cases hx : c = nc
    · rw [if_pos hx] at ht2
      rw [(setCount_fields _ _ _ _).1] at ht2
      exact hs.possible_sub nc hnc t2 ht2
    · rw [if_neg hx] at ht2
      exact hs.possible_sub c hc t2 ht2
  · intro c hc
    rw [valid_pos_setCell] at hc
    rw [hca c hc]
    by_cases hx : c = nc
    · rw [if_pos hx]
      obtain ⟨hlen, hmem⟩ := hs.counts_len nc hnc
      constructor
      · rw [(setCount_fields _ _ _ _).2.2.2.2]
        exact hlen
      · intro tec htec
        have htec2 : tec ∈ (s.cellAt nc).tile_enabler_counts.set t
            (((s.cellAt nc).tile_enabler_counts.getD t default).set dd v) := htec
        rcases List.mem_or_eq_of_mem_set htec2 with hold | hnew
        · exact hmem tec hold
        · rw [hnew]
          show (((s.cellAt nc).tile_enabler_counts.getD t default).by_direction.set
            dd.to_idx v).length = 4
          rw [List.length_set]
          exact counts_get_len hs nc hnc t ht
    · rw [if_neg hx]
      exact hs.counts_len c hc
  · intro c hc hcol
    rw [valid_pos_setCell] at hc
    rw [hca c hc] at hcol ⊢
    by_cases hx : c = nc
    · rw [if_pos hx] at hcol ⊢
      rw [(setCount_fields _ _ _ _).2.2.2.1] at hcol
      rw [(setCount_fields _ _ _ _).1, (setCount_fields _ _ _ _).2.1,
        (setCount_fields _ _ _ _).2.2.1]
      exact hs.sums_ok nc hnc hcol
    · rw [if_neg hx] at hcol ⊢
      exact hs.sums_ok c hc hcol
  · intro c hc hcol t2 ht2 htp2
    rw [valid_pos_setCell] at hc
    rw [hca c hc] at hcol htp2 ⊢
    by_cases hx : c = nc
    · rw [if_pos hx] at hcol htp2 ⊢
      rw [(setCount_fields _ _ _ _).2.2.2.1] at hcol
      rw [(setCount_fields _ _ _ _).1] at htp2
      obtain ⟨d0, hz⟩ := hs.zero_stick nc hnc hcol t2 ht2 htp2
      by_cases ht2t : t2 = t
      · subst ht2t
        by_cases hd0 : d0 = dd
        · subst hd0
          exact absurd hz h0
        · exact ⟨d0, by rw [countOf_setCount_ne _ _ _ _ _ _ (Or.inr hd0)]; exact hz⟩
      · exact ⟨d0, by rw [countOf_setCount_ne _ _ _ _ _ _ (Or.inl ht2t)]; exact hz⟩
    · rw [if_neg hx] at hcol htp2 ⊢
      exact hs.zero_stick c hc hcol t2 ht2 htp2
  · intro c hc hcol
    rw [valid_pos_setCell] at hc
    rw [hca c hc] at hcol ⊢
    by_cases hx : c = nc
    · rw [if_pos hx] at hcol ⊢
      rw [(setCount_fields _ _ _ _).2.2.2.1] at hcol
      rw [(setCount_fields _ _ _ _).1]
      exact hs.collapsed_one nc hnc hcol
    · rw [if_neg hx] at hcol ⊢
      exact hs.collapsed_one c hc hcol
  · show s.remaining_uncollapsed_cells = _
    rw [uncollapsedCount_setCell_same s hw hh hl nc hnc _ (setCount_fields _ _ _ _).2.2.2.1]
    exact hs.remaining_ok

/-- `SafeInv` is preserved by removing a still-possible tile from a valid
uncollapsed cell, for any new removal queue (the invariant does not
mention the queue). -/
theorem safeInv_remove_step {m : Model} {W H : ℕ} (s : CoreState)
    (nc : Vector2) (t : ℕ) (q2 : List RemovalUpdate)
    (hs : SafeInv m W H s) (hnc : s.grid.valid_pos nc) (ht : t < m.size)
    (hcol : (s.cellAt nc).is_collpased = false) (htp : t ∈ (s.cellAt nc).possible)
    (hzero : ∃ d0, (s.cellAt nc).countOf t d0 = 0) :
    SafeInv m W H
      { s.setCell nc ((s.cellAt nc).remove_tile t s.model) with tile_removals := q2 } := by
  have hw := hs.grid_w
  have hh := hs.grid_h
  have hl := hs.grid_len
  have hmodel := hs.model_eq
  have hca : ∀ c, s.grid.valid_pos c →
      ({ s.setCell nc ((s.cellAt nc).remove_tile t s.model) with
        tile_removals := q2 } : CoreState).cellAt c =
      if c = nc then (s.cellAt nc).remove_tile t s.model else s.cellAt c := by
    intro c hc
    exact cellAt_after_set s hw hh hl nc hnc _ c hc
  have hsums := hs.sums_ok nc hnc hcol
  refine ⟨hw, hh,
    ((setCell_fields s nc ((s.cellAt nc).remove_tile t s.model)).2.2.1).trans hl,
    hmodel, ?_, ?_, ?_, ?_, ?_, ?_⟩
  · intro c hc t2 ht2
    rw [hca c hc] at ht2
    by_cases hx : c = nc
    · rw [if_pos hx] at ht2
      rw [(remove_tile_fields _ _ _).1] at ht2
      exact hs.possible_sub nc hnc t2 (Finset.mem_of_mem_erase ht2)
    · rw [if_neg hx] at ht2
      exact hs.possible_sub c hc t2 ht2
  · intro c hc
    rw [hca c hc]
    by_cases hx : c = nc
    · rw [if_pos hx, (remove_tile_fields _ _ _).2.2.1]
      exact hs.counts_len nc hnc
    · rw [if_neg hx]
      exact hs.counts_len c hc
  · intro c hc hcol2
    rw [hca c hc] at hcol2 ⊢
    by_cases hx : c = nc
    · rw [if_pos hx] at hcol2 ⊢
      have hadd : (∑ t2 ∈ (s.cellAt nc).possible.erase t, (m.get_relative_freq t2).1) +
          (m.get_relative_freq t).1 =
          ∑ t2 ∈ (s.cellAt nc).possible, (m.get_relative_freq t2).1 :=
        Finset.sum_erase_add _ _ htp
      have hadd2 : (∑ t2 ∈ (s.cellAt nc).possible.erase t, (m.get_relative_freq t2).2) +
          (m.get_relative_freq t).2 =
          ∑ t2 ∈ (s.cellAt nc).possible, (m.get_relative_freq t2).2 :=
        Finset.sum_erase_add _ _ htp
      have hfr : (m.get_relative_freq t).1 ≤
          ∑ t2 ∈ (s.cellAt nc).possible, (m.get_relative_freq t2).1 := by
        omega
      constructor
      · show u32sub (s.cellAt nc).sum_of_possible_tile_weights
          (s.model.get_relative_freq t).1 = _
        rw [hmodel, hsums.1, (remove_tile_fields _ _ _).1]
        simp only [u32sub]
        rw [if_pos hfr]
        omega
      · show (s.cellAt nc).sum_of_possible_tile_weight_log_weights -
            (s.model.get_relative_freq t).2 = _
        rw [hmodel, hsums.2, (remove_tile_fields _ _ _).1]
        linarith
    · rw [if_neg hx] at hcol2 ⊢
      exact hs.sums_ok c hc hcol2
  · intro c hc hcol2 t2 ht2 htp2
    rw [hca c hc] at hcol2 htp2 ⊢
    by_cases hx : c = nc
    · rw [if_pos hx] at hcol2 htp2 ⊢
      rw [(remove_tile_fields _ _ _).1] at htp2
      by_cases ht2t : t2 = t
      · obtain ⟨d0, hz0⟩ := hzero
        refine ⟨d0, ?_⟩
        rw [(remove_tile_fields _ _ _).2.2.2 t2 d0, ht2t]
        exact hz0
      · have hout : t2 ∉ (s.cellAt nc).possible := by
          intro hmm
          exact htp2 (Finset.mem_erase.mpr ⟨ht2t, hmm⟩)
        obtain ⟨d0, hz0⟩ := hs.zero_stick nc hnc hcol t2 ht2 hout
        refine ⟨d0, ?_⟩
        rw [(remove_tile_fields _ _ _).2.2.2 t2 d0]
        exact hz0
    · rw [if_neg hx] at hcol2 htp2 ⊢
      exact hs.zero_stick c hc hcol2 t2 ht2 htp2
  · intro c hc hcol2
    rw [hca c hc] at hcol2 ⊢
    by_cases hx : c = nc
    · rw [if_pos hx] at hcol2
      rw [(remove_tile_fields _ _ _).2.1, hcol] at hcol2
      exact absurd hcol2 Bool.false_ne_true
    · rw [if_neg hx] at hcol2 ⊢
      exact hs.collapsed_one c hc hcol2
  · exact hs.remaining_ok.trans
      (uncollapsedCount_setCell_same s hw hh hl nc hnc _ (remove_tile_fields _ _ _).2.1).symm

/-- `SafeInv` is preserved by the inner propagation step. -/
theorem safeInv_propagateTile {m : Model} {W H : ℕ} (s : CoreState)
    (d : Direction) (nc : Vector2) (t : ℕ)
    (hs : SafeInv m W H s) (hnc : s.grid.valid_pos nc) (ht : t < m.size) :
    SafeInv m W H (CoreState.propagateTile s d nc t) := by
  by_cases h0 : (s.cellAt nc).countOf t d.opposite = 0
  · rw [propagateTile_zero s d nc t h0]
    exact hs
  · by_cases h1 : (s.cellAt nc).countOf t d.opposite - 1 = 0
    · by_cases hg : CoreState.removeBlocked
        ((s.cellAt nc).setCount t d.opposite ((s.cellAt nc).countOf t d.opposite - 1))
        t d.opposite
      · rw [propagateTile_blocked s d nc t h0 h1 hg]
        exact safeInv_write_count s nc t d.opposite _ hs hnc ht h0
      · rw [propagateTile_remove s d nc t h0 h1 hg]
        obtain ⟨hcol, htp⟩ := removal_target_possible s nc t d.opposite hs hnc ht h0 hg
        have hs1 := safeInv_write_count s nc t d.opposite
          ((s.cellAt nc).countOf t d.opposite - 1) hs hnc ht h0
        have hcell1 : (s.setCell nc ((s.cellAt nc).setCount t d.opposite
              ((s.cellAt nc).countOf t d.opposite - 1))).cellAt nc =
            (s.cellAt nc).setCount t d.opposite ((s.cellAt nc).countOf t d.opposite - 1) :=
          cellAt_setCell_self s hs.grid_w hs.grid_h hs.grid_len nc hnc _
        have hlen : t < (s.cellAt nc).tile_enabler_counts.length := by
          rw [(hs.counts_len nc hnc).1]
          exact ht
        have hres := safeInv_remove_step
          (s.setCell nc ((s.cellAt nc).setCount t d.opposite
            ((s.cellAt nc).countOf t d.opposite - 1)))
          nc t (s.tile_removals ++ [⟨t, nc⟩]) hs1 hnc ht
          (by rw [hcell1, (setCount_fields _ _ _ _).2.2.2.1]; exact hcol)
          (by rw [hcell1, (setCount_fields _ _ _ _).1]; exact htp)
          (by
            refine ⟨d.opposite, ?_⟩
            rw [hcell1, countOf_setCount_self _ _ _ _ hlen (counts_get_len hs nc hnc t ht)]
            exact h1)
        have heq : ({ (s.setCell nc ((s.cellAt nc).setCount t d.opposite
              ((s.cellAt nc).countOf t d.opposite - 1))).setCell nc
              (((s.setCell nc ((s.cellAt nc).setCount t d.opposite
                ((s.cellAt nc).countOf t d.opposite - 1))).cellAt nc).remove_tile t
                (s.setCell nc ((s.cellAt nc).setCount t d.opposite
                  ((s.cellAt nc).countOf t d.opposite - 1))).model) with
            tile_removals := s.tile_removals ++ [⟨t, nc⟩] } : CoreState) =
            { s.setCell nc
              ((((s.cellAt nc).setCount t d.opposite
                ((s.cellAt nc).countOf t d.opposite - 1))).remove_tile t s.model) with
              tile_removals := s.tile_removals ++ [⟨t, nc⟩] } := by
          rw [hcell1, (setCell_fields s nc _).2.2.2.1, setCell_setCell]
        rw [heq] at hres
        exact hres
    · rw [propagateTile_dec s d nc t h0 h1]
      exact safeInv_write_count s nc t d.opposite _ hs hnc ht h0

/-! ### Safety invariant across full propagation and steps -/

/-- Position validity only depends on the grid dimensions. -/
theorem valid_pos_congr {α β : Type} (g : Grid2D α) (g2 : Grid2D β)
    (hw : g2.width = g.width) (hh : g2.height = g.height) (c : Vector2) :
    g2.valid_pos c ↔ g.valid_pos c := by
  simp only [Grid2D.valid_pos, hw, hh]

/-- `SafeInv` is preserved by folding the inner propagation step over any
list of in-range tiles. -/
theorem safeInv_foldl_tiles {m : Model} {W H : ℕ} (d : Direction) (nc : Vector2) :
    ∀ (l : List ℕ) (s : CoreState), SafeInv m W H s → s.grid.valid_pos nc →
    (∀ t ∈ l, t < m.size) →
    SafeInv m W H (l.foldl (fun s2 t => CoreState.propagateTile s2 d nc t) s) := by
  intro l
  induction l with
  | nil =>
    intro s hs _ _
    exact hs
  | cons a l2 ih =>
    intro s hs hnc hl
    rw [List.foldl_cons]
    have hs2 := safeInv_propagateTile s d nc a hs hnc (hl a (List.mem_cons_self a l2))
    exact ih _ hs2
      ((valid_pos_congr s.grid (CoreState.propagateTile s d nc a).grid
        (hs2.grid_w.trans hs.grid_w.symm) (hs2.grid_h.trans hs.grid_h.symm) nc).mpr hnc)
      (fun t htl => hl t (List.mem_cons_of_mem a htl))

/-- `SafeInv` is preserved by the per-direction body of
`CoreState::propagate`. -/
theorem safeInv_dirStep {m : Model} {W H : ℕ} (s : CoreState) (u : RemovalUpdate)
    (d : Direction) (hs : SafeInv m W H s) :
    SafeInv m W H (if s.grid.valid_pos (u.coord.neighbor d) then
        (bsIter (s.model.adj u.tile_index d) s.model.size).foldl
          (fun s2 t => CoreState.propagateTile s2 d (u.coord.neighbor d) t) s
      else s) := by
  by_cases hv : s.grid.valid_pos (u.coord.neighbor d)
  · rw [if_pos hv]
    refine safeInv_foldl_tiles d (u.coord.neighbor d) _ s hs hv ?_
    intro t htl
    rw [mem_bsIter] at htl
    have hts : t < s.model.size := htl.1
    rw [hs.model_eq] at hts
    exact hts
  · rw [if_neg hv]
    exact hs

/-- `SafeInv` is preserved by folding the per-direction body over any
direction list. -/
theorem safeInv_foldl_dirs {m : Model} {W H : ℕ} (u : RemovalUpdate) :
    ∀ (ds : List Direction) (s : CoreState), SafeInv m W H s →
    SafeInv m W H (ds.foldl (fun s2 d =>
      if s2.grid.valid_pos (u.coord.neighbor d) then
        (bsIter (s2.model.adj u.tile_index d) s2.model.size).foldl
          (fun s3 t => CoreState.propagateTile s3 d (u.coord.neighbor d) t) s2
      else s2) s) := by
  intro ds
  induction ds with
  | nil =>
    intro s hs
    exact hs
  | cons a ds2 ih =>
    intro s hs
    rw [List.foldl_cons]
    exact ih _ (safeInv_dirStep s u a hs)

/-- `SafeInv` is preserved by processing one removal update. -/
theorem safeInv_processRemoval {m : Model} {W H : ℕ} (s : CoreState) (u : RemovalUpdate)
    (hs : SafeInv m W H s) : SafeInv m W H (s.processRemoval u) :=
  safeInv_foldl_dirs u ALL_DIRECTIONS s hs

/-- `SafeInv` does not mention the removal queue. -/
theorem safeInv_queue {m : Model} {W H : ℕ} (s : CoreState) (q : List RemovalUpdate)
    (hs : SafeInv m W H s) : SafeInv m W H { s with tile_removals := q } :=
  ⟨hs.grid_w, hs.grid_h, hs.grid_len, hs.model_eq, hs.possible_sub, hs.counts_len,
    hs.sums_ok, hs.zero_stick, hs.collapsed_one, hs.remaining_ok⟩

/-- `SafeInv` is preserved by a collapse step. -/
theorem safeInv_collapse {m : Model} {W H : ℕ} (s : CoreState) (coord : Vector2)
    (chosen : ℕ) (hs : SafeInv m W H s)
    (hc0 : s.grid.valid_pos coord)
    (hcol : (s.cellAt coord).is_collpased = false)
    (hch : chosen ∈ (s.cellAt coord).possible) :
    SafeInv m W H { s.collapse_cell_at coord chosen with
      remaining_uncollapsed_cells := s.remaining_uncollapsed_cells - 1 } := by
  have hw := hs.grid_w
  have hh := hs.grid_h
  have hl := hs.grid_len
  have hca : ∀ c, s.grid.valid_pos c →
      ({ s.collapse_cell_at coord chosen with
        remaining_uncollapsed_cells := s.remaining_uncollapsed_cells - 1 } : CoreState).cellAt c =
      if c = coord then
        { s.cellAt coord with is_collpased := true, possible := {chosen} }
      else s.cellAt c := by
    intro c hc
    exact cellAt_after_set s hw hh hl coord hc0 _ c hc
  refine ⟨hw, hh, ((setCell_fields s coord _).2.2.1).trans hl, hs.model_eq,
    ?_, ?_, ?_, ?_, ?_, ?_⟩
  · intro c hc t2 ht2
    rw [hca c hc] at ht2
    by_cases hx : c = coord
    · rw [if_pos hx] at ht2
      have ht2s : t2 ∈ ({chosen} : Finset ℕ) := ht2
      rw [Finset.mem_singleton] at ht2s
      subst ht2s
      exact hs.possible_sub coord hc0 t2 hch
    · rw [if_neg hx] at ht2
      exact hs.possible_sub c hc t2 ht2
  · intro c hc
    rw [hca c hc]
    by_cases hx : c = coord
    · rw [if_pos hx]
      exact hs.counts_len coord hc0
    · rw [if_neg hx]
      exact hs.counts_len c hc
  · intro c hc hcol2
    rw [hca c hc] at hcol2 ⊢
    by_cases hx : c = coord
    · rw [if_pos hx] at hcol2
      exact absurd (show (true : Bool) = false from hcol2) (by decide)
    · rw [if_neg hx] at hcol2 ⊢
      exact hs.sums_ok c hc hcol2
  · intro c hc hcol2 t2 ht2 htp2
    rw [hca c hc] at hcol2 htp2 ⊢
    by_cases hx : c = coord
    · rw [if_pos hx] at hcol2
      exact absurd (show (true : Bool) = false from hcol2) (by decide)
    · rw [if_neg hx] at hcol2 htp2 ⊢
      exact hs.zero_stick c hc hcol2 t2 ht2 htp2
  · intro c hc hcol2
    rw [hca c hc] at hcol2 ⊢
    by_cases hx : c = coord
    · rw [if_pos hx]
      exact Finset.card_singleton chosen
    · rw [if_neg hx] at hcol2 ⊢
      exact hs.collapsed_one c hc hcol2
  · have hdec := uncollapsedCount_setCell_collapse s hw hh hl coord hc0
      { s.cellAt coord with is_collpased := true, possible := {chosen} } hcol rfl
    have hro := hs.remaining_ok
    show s.remaining_uncollapsed_cells - 1 =
      uncollapsedCount (s.setCell coord
        { s.cellAt coord with is_collpased := true, possible := {chosen} })
    omega

/-- `SafeInv` is preserved by every step of the collapse loop. -/
theorem safeInv_step {m : Model} {W H : ℕ} {s s2 : CoreState}
    (hs : SafeInv m W H s) (hstep : Step s s2) : SafeInv m W H s2 := by
  cases hstep with
  | collapse coord chosen hq hv hcolx hch hfr =>
    exact safeInv_collapse s coord chosen hs hv hcolx hch
  | propagate1 u rest hq =>
    exact safeInv_processRemoval _ u (safeInv_queue s rest hs)

/-- The length and inner lengths of the initial enabler-count table. -/
theorem initCounts_len (m : Model) :
    m.get_initial_tile_enabler_counts.length = m.size ∧
    ∀ tec ∈ m.get_initial_tile_enabler_counts, tec.by_direction.length = 4 := by
  constructor
  · simp [Model.get_initial_tile_enabler_counts, Model.size]
  · intro tec htec
    simp only [Model.get_initial_tile_enabler_counts, List.mem_map] at htec
    obtain ⟨i, _, hi⟩ := htec
    rw [← hi]
    rfl

/-- The fresh grid data is a replicated initial cell. -/
theorem new_data (m : Model) (W H : ℕ) :
    (CoreState.new m W H).grid.data = List.replicate (W * H)
      { CoreCell.new m.size m with
        tile_enabler_counts := m.get_initial_tile_enabler_counts } := rfl

/-- The fresh grid data has `W * H` cells. -/
theorem new_data_len (m : Model) (W H : ℕ) :
    (CoreState.new m W H).grid.data.length = W * H := by
  rw [new_data, List.length_replicate]

/-- Every valid cell of a fresh state is the initial cell. -/
theorem cellAt_new (m : Model) (W H : ℕ) (c : Vector2)
    (hc : (CoreState.new m W H).grid.valid_pos c) :
    (CoreState.new m W H).cellAt c =
      { CoreCell.new m.size m with
        tile_enabler_counts := m.get_initial_tile_enabler_counts } := by
  have hlt := idxOf_lt_length (CoreState.new m W H) rfl rfl (new_data_len m W H) c hc
  have hlt2 : (CoreState.new m W H).grid.idxOf c < (List.replicate (W * H)
      ({ CoreCell.new m.size m with
        tile_enabler_counts := m.get_initial_tile_enabler_counts } : CoreCell)).length := by
    rw [List.length_replicate]
    rw [new_data_len m W H] at hlt
    exact hlt
  show (CoreState.new m W H).grid.data.getD ((CoreState.new m W H).grid.idxOf c) default = _
  rw [new_data, List.getD_eq_getElem?_getD, List.getElem?_eq_getElem hlt2,
    List.getElem_replicate]
  rfl

/-- The fresh state satisfies the safety invariant whenever the total
tile weight fits in a `u32`. -/
theorem safeInv_new (m : Model) (W H : ℕ)
    (hb : (∑ t ∈ Finset.range m.size, (m.get_relative_freq t).1) < 2 ^ 32) :
    SafeInv m W H (CoreState.new m W H) := by
  have hca := cellAt_new m W H
  have hls : ((bsIter (Finset.range m.size) m.size).map
      fun id => (m.get_relative_freq id).1).sum
      = ∑ t ∈ Finset.range m.size, (m.get_relative_freq t).1 :=
    sum_map_bsIter _ _ (fun t ht => Finset.mem_range.mp ht) _
  have hls2 : ((bsIter (Finset.range m.size) m.size).map
      fun id => (m.get_relative_freq id).2).sum
      = ∑ t ∈ Finset.range m.size, (m.get_relative_freq t).2 :=
    sum_map_bsIter _ _ (fun t ht => Finset.mem_range.mp ht) _
  have hw1 : ((bsIter (Finset.range m.size) m.size).map
      fun id => (m.get_relative_freq id).1).foldl u32add 0
      = ∑ t ∈ Finset.range m.size, (m.get_relative_freq t).1 := by
    rw [foldl_u32add_eq_sum _ 0 (by rw [hls]; omega), hls]
    omega
  have hw2 : ((bsIter (Finset.range m.size) m.size).map
      fun id => (m.get_relative_freq id).2).foldl (· + ·) 0
      = ∑ t ∈ Finset.range m.size, (m.get_relative_freq t).2 := by
    rw [foldl_add_eq_sum, hls2]
    ring
  have hrep : ∀ n : ℕ, ((List.replicate n
      ({ CoreCell.new m.size m with
        tile_enabler_counts := m.get_initial_tile_enabler_counts })).filter
      fun cell => cell.is_collpased = false).length = n := by
    intro n
    have hpt : (fun cell => decide (cell.is_collpased = false))
        ({ CoreCell.new m.size m with
          tile_enabler_counts := m.get_initial_tile_enabler_counts } : CoreCell) = true := rfl
    induction n with
    | zero => rfl
    | succ k ih =>
      rw [List.replicate_succ, List.filter_cons, if_pos hpt, List.length_cons, ih]
  refine ⟨rfl, rfl, new_data_len m W H, rfl, ?_, ?_, ?_, ?_, ?_, ?_⟩
  · intro c hc t2 ht2
    rw [hca c hc] at ht2
    exact Finset.mem_range.mp ht2
  · intro c hc
    rw [hca c hc]
    exact initCounts_len m
  · intro c hc hcol2
    rw [hca c hc]
    exact ⟨hw1, hw2⟩
  · intro c hc hcol2 t2 ht2 htp2
    rw [hca c hc] at htp2
    exact absurd (Finset.mem_range.mpr ht2) htp2
  · intro c hc hcol2
    rw [hca c hc] at hcol2
    exact absurd hcol2 Bool.false_ne_true
  · exact (hrep (W * H)).symm

/-- Every reachable state satisfies the safety invariant. -/
theorem safeInv_reachable {m : Model} {W H : ℕ}
    (hb : (∑ t ∈ Finset.range m.size, (m.get_relative_freq t).1) < 2 ^ 32)
    (s : CoreState) (hr : Reachable m W H s) : SafeInv m W H s := by
  induction hr with
  | refl => exact safeInv_new m W H hb
  | tail hab hbc ih => exact safeInv_step ih hbc

/-! ### Reachability of scripted runs -/

/-- Draining the queue is a sequence of `propagate1` steps. -/
theorem drainSteps_rtg : ∀ (fuel : ℕ) (s : CoreState),
    Relation.ReflTransGen Step s (drainSteps fuel s) := by
  intro fuel
  induction fuel with
  | zero =>
    intro s
    exact Relation.ReflTransGen.refl
  | succ k ih =>
    intro s
    cases hq : s.tile_removals with
    | nil =>
      simp only [drainSteps, hq]
      exact Relation.ReflTransGen.refl
    | cons u rest =>
      have he : drainSteps (k + 1) s =
          drainSteps k (CoreState.processRemoval { s with tile_removals := rest } u) := by
        simp only [drainSteps, hq]
      rw [he]
      exact Relation.ReflTransGen.trans
        (Relation.ReflTransGen.single (Step.propagate1 s u rest hq)) (ih _)

/-- A successful `tryCollapse` is a `collapse` step. -/
theorem tryCollapse_some (s s2 : CoreState) (coord : Vector2) (chosen : ℕ)
    (h : tryCollapse s coord chosen = some s2) : Step s s2 := by
  simp only [tryCollapse] at h
  by_cases hc : s.tile_removals = [] ∧ s.grid.valid_pos coord ∧
      (s.cellAt coord).is_collpased = false ∧ chosen ∈ (s.cellAt coord).possible ∧
      1 ≤ (s.model.get_relative_freq chosen).1
  · rw [if_pos hc] at h
    obtain ⟨h1, h2, h3, h4, h5⟩ := hc
    injection h with h6
    rw [← h6]
    exact Step.collapse s coord chosen h1 h2 h3 h4 h5
  · rw [if_neg hc] at h
    exact Option.noConfusion h

/-- A successful scripted run reaches its final state through `Step`. -/
theorem runScript_rtg (fuel : ℕ) : ∀ (script : List (Vector2 × ℕ)) (s s2 : CoreState),
    runScript fuel script s = some s2 → Relation.ReflTransGen Step s s2 := by
  intro script
  induction script with
  | nil =>
    intro s s2 h
    simp only [runScript] at h
    injection h with h1
    rw [h1]
  | cons a rest ih =>
    intro s s2 h
    obtain ⟨c, t⟩ := a
    simp only [runScript] at h
    cases htc : tryCollapse s c t with
    | none =>
      simp only [htc] at h
      exact Option.noConfusion h
    | some s3 =>
      simp only [htc] at h
      exact Relation.ReflTransGen.trans
        (Relation.ReflTransGen.single (tryCollapse_some s s3 c t htc))
        (Relation.ReflTransGen.trans (drainSteps_rtg fuel s3) (ih _ _ h))

/-- Claim C4 (counterexample): in the reachable, fully propagated final
state of a run on `mTwo` over a 1×1 grid, the single (collapsed) cell
violates the claimed weight-sum equation: its cached sum is still the
initial total 8 while the sum over its singleton possible set is 2 —
`collapse_cell_at` deliberately does not update the cached sums, so the
claimed invariant fails for collapsed cells. -/
theorem C4_counterexample :
    Reachable mTwo 1 1 sTwoDone ∧
    sTwoDone.tile_removals = [] ∧
    (sTwoDone.cellAt ⟨0, 0⟩).is_collpased = true ∧
    (sTwoDone.cellAt ⟨0, 0⟩).sum_of_possible_tile_weights ≠
      (∑ t ∈ (sTwoDone.cellAt ⟨0, 0⟩).possible, (mTwo.get_relative_freq t).1) := by
  refine ⟨?_, by decide, by decide, by decide⟩
  have h : runScript 10 [(⟨0, 0⟩, 0)] (CoreState.new mTwo 1 1) = some sTwoDone := rfl
  exact runScript_rtg 10 _ _ _ h

/-- Claim C4 (amended): in every reachable state of a model whose total
tile weight fits in a `u32`, every valid *uncollapsed* cell satisfies
both cached-sum equations; collapsed cells are exempt, since
`collapse_cell_at` does not update the cached sums. -/
theorem C4_amended (m : Model) (W H : ℕ)
    (hb : (∑ t ∈ Finset.range m.size, (m.get_relative_freq t).1) < 2 ^ 32)
    (s : CoreState) (hr : Reachable m W H s)
    (c : Vector2) (hc : s.grid.valid_pos c)
    (hcol : (s.cellAt c).is_collpased = false) :
    (s.cellAt c).sum_of_possible_tile_weights =
        (∑ t ∈ (s.cellAt c).possible, (m.get_relative_freq t).1) ∧
      (s.cellAt c).sum_of_possible_tile_weight_log_weights =
        (∑ t ∈ (s.cellAt c).possible, (m.get_relative_freq t).2) :=
  (safeInv_reachable hb s hr).sums_ok c hc hcol

/-- Witness for the amended C4 at a concrete input. -/
theorem C4_amended_witness :
    ((∑ t ∈ Finset.range mTwo.size, (mTwo.get_relative_freq t).1) < 2 ^ 32) ∧
    ((CoreState.new mTwo 1 1).grid.valid_pos ⟨0, 0⟩) ∧
    ((CoreState.new mTwo 1 1).cellAt ⟨0, 0⟩).sum_of_possible_tile_weights =
      (∑ t ∈ ((CoreState.new mTwo 1 1).cellAt ⟨0, 0⟩).possible,
        (mTwo.get_relative_freq t).1) :=
  ⟨by decide, by decide,
    (C4_amended mTwo 1 1 (by decide) _ Relation.ReflTransGen.refl ⟨0, 0⟩
      (by decide) (by decide)).1⟩

/-! ### Safety of every removal performed by propagation -/

/-- Under the safety invariant, every inner propagation step is safe:
whenever the removal branch is reached, the tile is still possible and
its weight does not exceed the cached `u32` sum. -/
theorem propagateTileSafe_true {m : Model} {W H : ℕ} (s : CoreState)
    (d : Direction) (nc : Vector2) (t : ℕ)
    (hs : SafeInv m W H s) (hnc : s.grid.valid_pos nc) (ht : t < m.size) :
    propagateTileSafe s d nc t = true := by
  simp only [propagateTileSafe]
  by_cases h0 : (s.cellAt nc).countOf t d.opposite = 0
  · rw [if_pos h0]
  · rw [if_neg h0]
    by_cases h1 : (s.cellAt nc).countOf t d.opposite - 1 = 0
    · rw [if_pos h1]
      by_cases hg : CoreState.removeBlocked
          ((s.cellAt nc).setCount t d.opposite ((s.cellAt nc).countOf t d.opposite - 1))
          t d.opposite
      · rw [if_pos hg]
      · rw [if_neg hg]
        obtain ⟨hcol, htp⟩ := removal_target_possible s nc t d.opposite hs hnc ht h0 hg
        rw [decide_eq_true_eq]
        refine ⟨?_, ?_⟩
        · rw [(setCount_fields _ _ _ _).1]
          exact htp
        · rw [(setCount_fields _ _ _ _).2.1, hs.model_eq, (hs.sums_ok nc hnc hcol).1]
          have hadd : (∑ t2 ∈ (s.cellAt nc).possible.erase t, (m.get_relative_freq t2).1) +
              (m.get_relative_freq t).1 =
              ∑ t2 ∈ (s.cellAt nc).possible, (m.get_relative_freq t2).1 :=
            Finset.sum_erase_add _ _ htp
          omega
    · rw [if_neg h1]

/-- The checked tile fold agrees with the plain fold and keeps the flag,
under the safety invariant. -/
theorem checked_foldl_tiles {m : Model} {W H : ℕ} (d : Direction) (nc : Vector2) :
    ∀ (l : List ℕ) (s : CoreState) (b : Bool), SafeInv m W H s → s.grid.valid_pos nc →
    (∀ t ∈ l, t < m.size) →
    l.foldl (fun p t => (CoreState.propagateTile p.1 d nc t,
        p.2 && propagateTileSafe p.1 d nc t)) (s, b)
      = (l.foldl (fun s2 t => CoreState.propagateTile s2 d nc t) s, b) := by
  intro l
  induction l with
  | nil =>
    intro s b _ _ _
    rfl
  | cons a l2 ih =>
    intro s b hs hnc hl
    rw [List.foldl_cons, List.foldl_cons]
    show List.foldl _ (CoreState.propagateTile s d nc a,
        b && propagateTileSafe s d nc a) l2
      = (List.foldl _ (CoreState.propagateTile s d nc a) l2, b)
    rw [propagateTileSafe_true s d nc a hs hnc (hl a (List.mem_cons_self a l2)),
      Bool.and_true]
    have hs2 := safeInv_propagateTile s d nc a hs hnc (hl a (List.mem_cons_self a l2))
    exact ih (CoreState.propagateTile s d nc a) b hs2
      ((valid_pos_congr s.grid (CoreState.propagateTile s d nc a).grid
        (hs2.grid_w.trans hs.grid_w.symm) (hs2.grid_h.trans hs.grid_h.symm) nc).mpr hnc)
      (fun t htl => hl t (List.mem_cons_of_mem a htl))

/-- The checked direction fold agrees with the plain fold and keeps the
flag, under the safety invariant. -/
theorem checked_foldl_dirs {m : Model} {W H : ℕ} (u : RemovalUpdate) :
    ∀ (ds : List Direction) (s : CoreState) (b : Bool), SafeInv m W H s →
    ds.foldl (fun p d =>
      if p.1.grid.valid_pos (u.coord.neighbor d) then
        (bsIter (p.1.model.adj u.tile_index d) p.1.model.size).foldl
          (fun p2 t => (CoreState.propagateTile p2.1 d (u.coord.neighbor d) t,
            p2.2 && propagateTileSafe p2.1 d (u.coord.neighbor d) t)) p
      else p) (s, b)
    = (ds.foldl (fun s2 d =>
      if s2.grid.valid_pos (u.coord.neighbor d) then
        (bsIter (s2.model.adj u.tile_index d) s2.model.size).foldl
          (fun s3 t => CoreState.propagateTile s3 d (u.coord.neighbor d) t) s2
      else s2) s, b) := by
  intro ds
  induction ds with
  | nil =>
    intro s b _
    rfl
  | cons a ds2 ih =>
    intro s b hs
    rw [List.foldl_cons, List.foldl_cons]
    by_cases hv : s.grid.valid_pos (u.coord.neighbor a)
    · show List.foldl _ (if s.grid.valid_pos (u.coord.neighbor a) then
          (bsIter (s.model.adj u.tile_index a) s.model.size).foldl
            (fun p2 t => (CoreState.propagateTile p2.1 a (u.coord.neighbor a) t,
              p2.2 && propagateTileSafe p2.1 a (u.coord.neighbor a) t)) (s, b)
        else (s, b)) ds2
        = (List.foldl _ (if s.grid.valid_pos (u.coord.neighbor a) then
          (bsIter (s.model.adj u.tile_index a) s.model.size).foldl
            (fun s3 t => CoreState.propagateTile s3 a (u.coord.neighbor a) t) s
        else s) ds2, b)
      rw [if_pos hv, if_pos hv]
      have hbnd : ∀ t ∈ bsIter (s.model.adj u.tile_index a) s.model.size, t < m.size := by
        intro t htl
        rw [mem_bsIter] at htl
        have hts : t < s.model.size := htl.1
        rw [hs.model_eq] at hts
        exact hts
      rw [checked_foldl_tiles a (u.coord.neighbor a) _ s b hs hv hbnd]
      exact ih _ b (safeInv_foldl_tiles a (u.coord.neighbor a) _ s hs hv hbnd)
    · show List.foldl _ (if s.grid.valid_pos (u.coord.neighbor a) then
          (bsIter (s.model.adj u.tile_index a) s.model.size).foldl
            (fun p2 t => (CoreState.propagateTile p2.1 a (u.coord.neighbor a) t,
              p2.2 && propagateTileSafe p2.1 a (u.coord.neighbor a) t)) (s, b)
        else (s, b)) ds2
        = (List.foldl _ (if s.grid.valid_pos (u.coord.neighbor a) then
          (bsIter (s.model.adj u.tile_index a) s.model.size).foldl
            (fun s3 t => CoreState.propagateTile s3 a (u.coord.neighbor a) t) s
        else s) ds2, b)
      rw [if_neg hv, if_neg hv]
      exact ih s b hs

/-- Under the safety invariant, the checked removal processing agrees
with the plain one and every performed removal is safe. -/
theorem processRemovalChecked_spec {m : Model} {W H : ℕ} (s : CoreState)
    (u : RemovalUpdate) (hs : SafeInv m W H s) :
    processRemovalChecked s u = (CoreState.processRemoval s u, true) :=
  checked_foldl_dirs u ALL_DIRECTIONS s true hs

/-- Claim C9: from every reachable state of a model whose total tile
weight fits in a `u32`, processing any removal update only ever calls
`remove_tile` on a tile that is still in the target cell's possible set,
and the `u32` subtraction of the tile's weight from the cached weight sum
never underflows: the instrumented propagation returns the same state as
the plain one with its safety flag still true. -/
theorem C9_removals_safe (m : Model) (W H : ℕ)
    (hb : (∑ t ∈ Finset.range m.size, (m.get_relative_freq t).1) < 2 ^ 32)
    (s : CoreState) (hr : Reachable m W H s) (u : RemovalUpdate) :
    processRemovalChecked s u = (CoreState.processRemoval s u, true) :=
  processRemovalChecked_spec s u (safeInv_reachable hb s hr)

/-- Witness for C9 at a concrete input. -/
theorem C9_removals_safe_witness :
    ((∑ t ∈ Finset.range mTwo.size, (mTwo.get_relative_freq t).1) < 2 ^ 32) ∧
    processRemovalChecked (CoreState.new mTwo 2 2) ⟨1, ⟨0, 0⟩⟩ =
      (CoreState.processRemoval (CoreState.new mTwo 2 2) ⟨1, ⟨0, 0⟩⟩, true) :=
  ⟨by decide, C9_removals_safe mTwo 2 2 (by decide) _ Relation.ReflTransGen.refl ⟨1, ⟨0, 0⟩⟩⟩

/-! ### Active sets and the enabler-count bookkeeping -/

/-- `valid_pos` coincides with `validWH` on grids of the stated size. -/
theorem validWH_iff {α : Type} (g : Grid2D α) (W H : ℕ)
    (hw : g.width = W) (hh : g.height = H) (v : Vector2) :
    g.valid_pos v ↔ validWH W H v := by
  simp only [Grid2D.valid_pos, validWH, hw, hh]

/-- Adjacency of a well-formed model is symmetric. -/
theorem adj_symm_wf {m : Model} {N : ℕ} (hwf : m.Wellformed N) (i j : ℕ)
    (hi : i < m.size) (hj : j < m.size) (d : Direction) :
    j ∈ m.adj i d ↔ i ∈ m.adj j d.opposite := by
  rw [hwf.adj_char i j hi hj d, hwf.adj_char j i hj hi d.opposite]
  exact compatible_symm _ _ d

/-- In a well-formed model the adjacency set equals the set of in-range
tiles whose opposite adjacency contains the tile. -/
theorem adj_eq_filter {m : Model} {N : ℕ} (hwf : m.Wellformed N) (t : ℕ)
    (ht : t < m.size) (d : Direction) :
    m.adj t d = (Finset.range m.size).filter fun t2 => t ∈ m.adj t2 d.opposite := by
  ext j
  rw [Finset.mem_filter, Finset.mem_range]
  constructor
  · intro hjadj
    have hj := hwf.adj_bound t d j hjadj
    exact ⟨hj, (adj_symm_wf hwf t j ht hj d).mp hjadj⟩
  · rintro ⟨hj, hji⟩
    exact (adj_symm_wf hwf t j ht hj d).mpr hji

/-- The initial enabler count of an in-range tile is the cardinality of
the same-direction adjacency set. -/
theorem initCount_val (m : Model) (t : ℕ) (ht : t < m.size) (d : Direction) :
    (m.get_initial_tile_enabler_counts.getD t default).get d = (m.adj t d).card := by
  have h1 : m.get_initial_tile_enabler_counts.getD t default =
      ⟨idxOrder.map fun dir => (m.adj t dir).card⟩ := by
    show ((List.range m.samples.length).map fun tile_a =>
      (⟨idxOrder.map fun dir => (m.adj tile_a dir).card⟩ : TileEnablerCount)).getD t default = _
    rw [getD_map_range _ _ _ _ (show t < m.samples.length from ht)]
  rw [h1]
  cases d <;> rfl

/-- Membership in the pending-removal list of a cell. -/
theorem mem_pendingAt (s : CoreState) (c : Vector2) (t : ℕ) :
    t ∈ pendingAt s c ↔ (⟨t, c⟩ : RemovalUpdate) ∈ s.tile_removals := by
  rw [pendingAt.eq_def, List.mem_map]
  constructor
  · rintro ⟨u, hu, hut⟩
    rw [List.mem_filter] at hu
    obtain ⟨hq, hc⟩ := hu
    obtain ⟨ut, uc⟩ := u
    simp only [decide_eq_true_eq] at hc
    have hut2 : ut = t := hut
    have hc2 : uc = c := hc
    rw [← hut2, ← hc2]
    exact hq
  · intro hq
    refine ⟨⟨t, c⟩, ?_, rfl⟩
    rw [List.mem_filter]
    exact ⟨hq, by simp⟩

/-- Overwriting a cell without changing its possible set leaves every
active set unchanged. -/
theorem activeSet_write {W H : ℕ} (s : CoreState)
    (hw : s.grid.width = W) (hh : s.grid.height = H) (hl : s.grid.data.length = W * H)
    (nc : Vector2) (hnc : s.grid.valid_pos nc) (a : CoreCell)
    (hposs : a.possible = (s.cellAt nc).possible)
    (c : Vector2) (hc : s.grid.valid_pos c) :
    activeSet (s.setCell nc a) c = activeSet s c := by
  simp only [activeSet]
  have hp : pendingAt (s.setCell nc a) c = pendingAt s c := rfl
  rw [hp, cellAt_after_set s hw hh hl nc hnc a c hc]
  by_cases hx : c = nc
  · rw [if_pos hx, hposs, hx]
  · rw [if_neg hx]

/-- Removing a possible tile from a cell while enqueueing its removal
update leaves every active set unchanged: the tile moves from the
possible part to the pending part. -/
theorem activeSet_remove_enqueue {W H : ℕ} (s : CoreState)
    (hw : s.grid.width = W) (hh : s.grid.height = H) (hl : s.grid.data.length = W * H)
    (nc : Vector2) (hnc : s.grid.valid_pos nc) (a : CoreCell) (t : ℕ)
    (hposs : a.possible = (s.cellAt nc).possible.erase t)
    (htp : t ∈ (s.cellAt nc).possible)
    (c : Vector2) (hc : s.grid.valid_pos c) :
    activeSet ({ s.setCell nc a with tile_removals := s.tile_removals ++ [⟨t, nc⟩] }) c
      = activeSet s c := by
  simp only [activeSet]
  have hcell : ({ s.setCell nc a with
      tile_removals := s.tile_removals ++ [⟨t, nc⟩] } : CoreState).cellAt c =
      if c = nc then a else s.cellAt c :=
    cellAt_after_set s hw hh hl nc hnc a c hc
  rw [hcell]
  have hpend : pendingAt ({ s.setCell nc a with
      tile_removals := s.tile_removals ++ [⟨t, nc⟩] } : CoreState) c =
      pendingAt s c ++ (if c = nc then [t] else []) := by
    show ((s.tile_removals ++ ([⟨t, nc⟩] : List RemovalUpdate)).filter fun u =>
      u.coord = c).map RemovalUpdate.tile_index = _
    rw [List.filter_append, List.map_append]
    by_cases hx : c = nc
    · subst hx
      simp [pendingAt]
    · simp [pendingAt, hx, Ne.symm hx]
  rw [hpend]
  by_cases hx : c = nc
  · rw [if_pos hx, if_pos hx, hposs, List.toFinset_append]
    subst hx
    ext x
    by_cases hxt : x = t
    · subst hxt
      simp [htp]
    · simp [hxt]
  · rw [if_neg hx, if_neg hx, List.append_nil]

/-- Collapsing a cell leaves every active set unchanged: the discarded
tiles move from the possible part to the pending part. -/
theorem activeSet_collapse {W H : ℕ} (s : CoreState)
    (hw : s.grid.width = W) (hh : s.grid.height = H) (hl : s.grid.data.length = W * H)
    (coord : Vector2) (hc0 : s.grid.valid_pos coord) (chosen : ℕ)
    (hch : chosen ∈ (s.cellAt coord).possible)
    (hq : s.tile_removals = [])
    (hbound : ∀ t ∈ (s.cellAt coord).possible, t < s.model.size)
    (c : Vector2) (hc : s.grid.valid_pos c) :
    activeSet ({ s.collapse_cell_at coord chosen with
      remaining_uncollapsed_cells := s.remaining_uncollapsed_cells - 1 }) c
      = activeSet s c := by
  simp only [activeSet]
  have hcell : ({ s.collapse_cell_at coord chosen with
      remaining_uncollapsed_cells := s.remaining_uncollapsed_cells - 1 } : CoreState).cellAt c =
      if c = coord then
        { s.cellAt coord with is_collpased := true, possible := {chosen} }
      else s.cellAt c :=
    cellAt_after_set s hw hh hl coord hc0 _ c hc
  rw [hcell]
  have hqpend : pendingAt s c = [] := by
    show (s.tile_removals.filter fun u => u.coord = c).map RemovalUpdate.tile_index = []
    rw [hq]
    rfl
  have hpend : pendingAt ({ s.collapse_cell_at coord chosen with
      remaining_uncollapsed_cells := s.remaining_uncollapsed_cells - 1 } : CoreState) c =
      if c = coord then bsIter ((s.cellAt coord).possible.erase chosen) s.model.size
      else [] := by
    show ((s.tile_removals ++
      ((bsIter ((s.cellAt coord).possible.erase chosen) s.model.size).map
        fun tile_index => RemovalUpdate.mk tile_index coord)).filter fun u =>
          u.coord = c).map RemovalUpdate.tile_index = _
    rw [List.filter_append, List.map_append, hq]
    show ((((bsIter ((s.cellAt coord).possible.erase chosen) s.model.size).map
      fun tile_index => RemovalUpdate.mk tile_index coord).filter fun u =>
        u.coord = c).map RemovalUpdate.tile_index : List ℕ) = _
    rw [List.filter_map, List.map_map]
    by_cases hx : c = coord
    · subst hx
      rw [if_pos rfl]
      have hf : ((fun u => decide (u.coord = c)) ∘ fun tile_index =>
          RemovalUpdate.mk tile_index c) = fun _ => true := by
        funext z
        simp
      rw [hf, List.filter_true]
      have hg : (RemovalUpdate.tile_index ∘ fun tile_index =>
          RemovalUpdate.mk tile_index c) = id := rfl
      rw [hg, List.map_id]
    · rw [if_neg hx]
      have hf : ((fun u => decide (u.coord = c)) ∘ fun tile_index =>
          RemovalUpdate.mk tile_index coord) = fun _ => false := by
        funext z
        simp [Ne.symm hx]
      rw [hf, List.filter_false, List.map_nil]
  rw [hpend, hqpend]
  by_cases hx : c = coord
  · rw [if_pos hx, if_pos hx]
    subst hx
    rw [bsIter_toFinset _ _ (fun t2 ht2 => hbound t2 (Finset.mem_of_mem_erase ht2))]
    show ({chosen} : Finset ℕ) ∪ (s.cellAt c).possible.erase chosen = _
    rw [List.toFinset_nil, Finset.union_empty]
    ext x
    simp only [Finset.mem_union, Finset.mem_singleton, Finset.mem_erase]
    constructor
    · rintro (h | ⟨_, h⟩)
      · rw [h]
        exact hch
      · exact h
    · intro h
      by_cases hxc : x = chosen
      · exact Or.inl hxc
      · exact Or.inr ⟨hxc, h⟩
  · rw [if_neg hx, if_neg hx]

/-- `enablersIn` only depends on the model and the neighbour active
set. -/
theorem enablersIn_congr (s s2 : CoreState) (c : Vector2) (t : ℕ) (d : Direction)
    (hm : s2.model = s.model)
    (ha : activeSet s2 (c.neighbor d) = activeSet s (c.neighbor d)) :
    enablersIn s2 c t d = enablersIn s c t d := by
  simp only [enablersIn, hm, ha]

/-- Pointwise description of a count overwrite. -/
theorem setCount_cnt_spec (cell : CoreCell) (t : ℕ) (od : Direction) (v : ℕ)
    (hlen : t < cell.tile_enabler_counts.length)
    (hdl : (cell.tile_enabler_counts.getD t default).by_direction.length = 4) :
    ∀ t2 d2, (cell.setCount t od v).countOf t2 d2 =
      if t2 = t ∧ d2 = od then v else cell.countOf t2 d2 := by
  intro t2 d2
  by_cases hy : t2 = t ∧ d2 = od
  · obtain ⟨hy1, hy2⟩ := hy
    subst hy1
    subst hy2
    rw [if_pos ⟨rfl, rfl⟩]
    exact countOf_setCount_self _ _ _ _ hlen hdl
  · rw [if_neg hy]
    apply countOf_setCount_ne
    by_cases h1 : t2 = t
    · exact Or.inr fun h2 => hy ⟨h1, h2⟩
    · exact Or.inl h1

/-- The count awaiting its decrement at the head of a direction's
remaining list exceeds the active-set enabler count by exactly one. -/
theorem invMid_head_count {m : Model} {W H : ℕ} {A : Vector2} {T : ℕ}
    {rem : Direction → List ℕ} (s : CoreState) (d0 : Direction) (t : ℕ) (ts : List ℕ)
    (hmid : InvMid m W H A T rem s)
    (hnc : s.grid.valid_pos (A.neighbor d0))
    (hrem : rem d0 = t :: ts) :
    (s.cellAt (A.neighbor d0)).countOf t d0.opposite =
      enablersIn s (A.neighbor d0) t d0.opposite + 1 := by
  have ht : t < m.size := (hmid.rem_sub d0 t (by rw [hrem]; exact List.mem_cons_self t ts)).2
  have hAv : s.grid.valid_pos ((A.neighbor d0).neighbor d0.opposite) := by
    rw [Vector2.neighbor_opposite]
    exact hmid.hA
  have hcount := hmid.count_mid (A.neighbor d0) hnc t ht d0.opposite hAv
  have hcond : A.neighbor d0 = A.neighbor d0.opposite.opposite ∧
      t ∈ rem d0.opposite.opposite := by
    rw [Direction.opposite_opposite]
    exact ⟨rfl, by rw [hrem]; exact List.mem_cons_self t ts⟩
  rw [if_pos hcond] at hcount
  exact hcount

/-- Core bookkeeping of one inner propagation step: if the new state
differs only by setting the head tile's count at the target cell to its
decremented value, with unchanged active sets and model, then the
mid-propagation count equations hold with the head removed from the
direction's remaining list. -/
theorem invMid_cnt_core {m : Model} {W H : ℕ} {A : Vector2} {T : ℕ}
    {rem : Direction → List ℕ} (s : CoreState) (d0 : Direction) (t : ℕ) (ts : List ℕ)
    (hmid : InvMid m W H A T rem s)
    (hnc : s.grid.valid_pos (A.neighbor d0))
    (hrem : rem d0 = t :: ts)
    (s2 : CoreState)
    (hmod : s2.model = s.model)
    (hact : ∀ c, s.grid.valid_pos c → activeSet s2 c = activeSet s c)
    (hcnt : ∀ c, s.grid.valid_pos c → ∀ t2 d2, (s2.cellAt c).countOf t2 d2 =
      if c = A.neighbor d0 ∧ t2 = t ∧ d2 = d0.opposite
      then (s.cellAt (A.neighbor d0)).countOf t d0.opposite - 1
      else (s.cellAt c).countOf t2 d2) :
    (∀ c : Vector2, s.grid.valid_pos c → ∀ t2, t2 < m.size →
      ∀ d : Direction, s.grid.valid_pos (c.neighbor d) →
      (s2.cellAt c).countOf t2 d = enablersIn s2 c t2 d +
        (if c = A.neighbor d.opposite ∧
          t2 ∈ (if d.opposite = d0 then ts else rem d.opposite) then 1 else 0)) ∧
    (∀ c : Vector2, s.grid.valid_pos c → ∀ t2, t2 < m.size →
      ∀ d : Direction, ¬ s.grid.valid_pos (c.neighbor d) →
      (s2.cellAt c).countOf t2 d = (m.adj t2 d).card) := by
  have hhc := invMid_head_count s d0 t ts hmid hnc hrem
  have hE : (s.cellAt (A.neighbor d0)).countOf t d0.opposite - 1 =
      enablersIn s (A.neighbor d0) t d0.opposite := by omega
  have htnotts : t ∉ ts := (List.nodup_cons.mp (hrem ▸ hmid.rem_nodup d0)).1
  constructor
  · intro c hc t2 ht2 d hd
    rw [hcnt c hc t2 d]
    have hEq : enablersIn s2 c t2 d = enablersIn s c t2 d :=
      enablersIn_congr s s2 c t2 d hmod (hact _ hd)
    rw [hEq]
    by_cases hy : c = A.neighbor d0 ∧ t2 = t ∧ d = d0.opposite
    · obtain ⟨hy1, hy2, hy3⟩ := hy
      rw [if_pos ⟨hy1, hy2, hy3⟩]
      subst hy1
      subst hy2
      subst hy3
      rw [hE, Direction.opposite_opposite, if_pos rfl]
      rw [if_neg (fun hcc => htnotts hcc.2)]
      omega
    · rw [if_neg hy]
      have hold := hmid.count_mid c hc t2 ht2 d hd
      rw [hold]
      congr 1
      by_cases hdz : d.opposite = d0
      · rw [hdz, hrem, if_pos rfl]
        by_cases hcne : c = A.neighbor d0
        · have hdod : d = d0.opposite := by
            rw [← hdz, Direction.opposite_opposite]
          have ht2t : t2 ≠ t := fun he => hy ⟨hcne, he, hdod⟩
          refine if_congr ?_ rfl rfl
          constructor
          · rintro ⟨h1, h2⟩
            rcases List.mem_cons.mp h2 with h2 | h2
            · exact absurd h2 ht2t
            · exact ⟨h1, h2⟩
          · rintro ⟨h1, h2⟩
            exact ⟨h1, List.mem_cons_of_mem t h2⟩
        · rw [if_neg (fun hcc => hcne hcc.1), if_neg (fun hcc => hcne hcc.1)]
      · rw [if_neg hdz]
  · intro c hc t2 ht2 d hd
    have hno : ¬(c = A.neighbor d0 ∧ t2 = t ∧ d = d0.opposite) := by
      rintro ⟨hc1, _, hd1⟩
      apply hd
      rw [hd1, hc1, Vector2.neighbor_opposite]
      exact hmid.hA
    rw [hcnt c hc t2 d, if_neg hno]
    exact hmid.count_boundary c hc t2 ht2 d hd

/-- A decrement that does not reach the removal branch preserves the
mid-propagation invariant, consuming the head of the direction's
remaining list. -/
theorem invMid_write {m : Model} {W H : ℕ} {A : Vector2} {T : ℕ}
    {rem : Direction → List ℕ} (s : CoreState) (d0 : Direction) (t : ℕ) (ts : List ℕ)
    (hmid : InvMid m W H A T rem s)
    (hnc : s.grid.valid_pos (A.neighbor d0))
    (hrem : rem d0 = t :: ts) :
    InvMid m W H A T (fun d => if d = d0 then ts else rem d)
      (s.setCell (A.neighbor d0)
        ((s.cellAt (A.neighbor d0)).setCount t d0.opposite
          ((s.cellAt (A.neighbor d0)).countOf t d0.opposite - 1))) := by
  have hs := hmid.safe
  have hw := hs.grid_w
  have hh := hs.grid_h
  have hl := hs.grid_len
  have ht : t < m.size := (hmid.rem_sub d0 t (by rw [hrem]; exact List.mem_cons_self t ts)).2
  have hhc := invMid_head_count s d0 t ts hmid hnc hrem
  have h0 : ¬ (s.cellAt (A.neighbor d0)).countOf t d0.opposite = 0 := by omega
  have hlen2 : t < (s.cellAt (A.neighbor d0)).tile_enabler_counts.length := by
    rw [(hs.counts_len (A.neighbor d0) hnc).1]
    exact ht
  have hdl2 := counts_get_len hs (A.neighbor d0) hnc t ht
  have hcnt : ∀ c, s.grid.valid_pos c → ∀ t2 d2,
      ((s.setCell (A.neighbor d0)
        ((s.cellAt (A.neighbor d0)).setCount t d0.opposite
          ((s.cellAt (A.neighbor d0)).countOf t d0.opposite - 1))).cellAt c).countOf t2 d2 =
      if c = A.neighbor d0 ∧ t2 = t ∧ d2 = d0.opposite
      then (s.cellAt (A.neighbor d0)).countOf t d0.opposite - 1
      else (s.cellAt c).countOf t2 d2 := by
    intro c hc t2 d2
    rw [cellAt_after_set s hw hh hl (A.neighbor d0) hnc _ c hc]
    by_cases hx : c = A.neighbor d0
    · rw [if_pos hx, setCount_cnt_spec _ _ _ _ hlen2 hdl2 t2 d2]
      by_cases hy : t2 = t ∧ d2 = d0.opposite
      · rw [if_pos hy, if_pos ⟨hx, hy.1, hy.2⟩]
      · rw [if_neg hy, if_neg (fun hcc => hy ⟨hcc.2.1, hcc.2.2⟩), hx]
    · rw [if_neg hx, if_neg (fun hcc => hx hcc.1)]
  have hact : ∀ c, s.grid.valid_pos c →
      activeSet (s.setCell (A.neighbor d0)
        ((s.cellAt (A.neighbor d0)).setCount t d0.opposite
          ((s.cellAt (A.neighbor d0)).countOf t d0.opposite - 1))) c = activeSet s c :=
    fun c hc => activeSet_write s hw hh hl (A.neighbor d0) hnc _
      (setCount_fields _ _ _ _).1 c hc
  have hcore := invMid_cnt_core s d0 t ts hmid hnc hrem
    (s.setCell (A.neighbor d0)
      ((s.cellAt (A.neighbor d0)).setCount t d0.opposite
        ((s.cellAt (A.neighbor d0)).countOf t d0.opposite - 1)))
    rfl hact hcnt
  refine ⟨safeInv_write_count s (A.neighbor d0) t d0.opposite _ hs hnc ht h0,
    ?_, hmid.queue_nodup, hmid.hA, ?_, ?_, hcore.1, hcore.2⟩
  · intro u hu
    have h3 := hmid.queue_val u hu
    refine ⟨h3.1, h3.2.1, ?_⟩
    rw [cellAt_after_set s hw hh hl (A.neighbor d0) hnc _ u.coord h3.1]
    by_cases hx : u.coord = A.neighbor d0
    · rw [if_pos hx, (setCount_fields _ _ _ _).1]
      intro hmem
      exact h3.2.2 (by rw [hx]; exact hmem)
    · rw [if_neg hx]
      exact h3.2.2
  · intro d
    by_cases hd : d = d0
    · rw [if_pos hd]
      exact (List.nodup_cons.mp (hrem ▸ hmid.rem_nodup d0)).2
    · rw [if_neg hd]
      exact hmid.rem_nodup d
  · intro d t2 h
    by_cases hd : d = d0
    · rw [if_pos hd] at h
      rw [hd]
      exact hmid.rem_sub d0 t2 (by rw [hrem]; exact List.mem_cons_of_mem t h)
    · rw [if_neg hd] at h
      exact hmid.rem_sub d t2 h

/-- A decrement that reaches the removal branch preserves the
mid-propagation invariant: the removed tile moves from the possible set
to the pending queue, leaving the active set unchanged. -/
theorem invMid_remove {m : Model} {W H : ℕ} {A : Vector2} {T : ℕ}
    {rem : Direction → List ℕ} (s : CoreState) (d0 : Direction) (t : ℕ) (ts : List ℕ)
    (hmid : InvMid m W H A T rem s)
    (hnc : s.grid.valid_pos (A.neighbor d0))
    (hrem : rem d0 = t :: ts)
    (h1 : (s.cellAt (A.neighbor d0)).countOf t d0.opposite - 1 = 0)
    (hg : ¬ CoreState.removeBlocked
      ((s.cellAt (A.neighbor d0)).setCount t d0.opposite
        ((s.cellAt (A.neighbor d0)).countOf t d0.opposite - 1)) t d0.opposite) :
    InvMid m W H A T (fun d => if d = d0 then ts else rem d)
      { s.setCell (A.neighbor d0)
          ((((s.cellAt (A.neighbor d0)).setCount t d0.opposite
            ((s.cellAt (A.neighbor d0)).countOf t d0.opposite - 1))).remove_tile t s.model) with
        tile_removals := s.tile_removals ++ [⟨t, A.neighbor d0⟩] } := by
  have hs := hmid.safe
  have hw := hs.grid_w
  have hh := hs.grid_h
  have hl := hs.grid_len
  have ht : t < m.size := (hmid.rem_sub d0 t (by rw [hrem]; exact List.mem_cons_self t ts)).2
  have hhc := invMid_head_count s d0 t ts hmid hnc hrem
  have h0 : ¬ (s.cellAt (A.neighbor d0)).countOf t d0.opposite = 0 := by omega
  have hlen2 : t < (s.cellAt (A.neighbor d0)).tile_enabler_counts.length := by
    rw [(hs.counts_len (A.neighbor d0) hnc).1]
    exact ht
  have hdl2 := counts_get_len hs (A.neighbor d0) hnc t ht
  obtain ⟨hcol, htp⟩ := removal_target_possible s (A.neighbor d0) t d0.opposite hs hnc ht h0 hg
  have hposs : ((((s.cellAt (A.neighbor d0)).setCount t d0.opposite
      ((s.cellAt (A.neighbor d0)).countOf t d0.opposite - 1))).remove_tile t s.model).possible =
      (s.cellAt (A.neighbor d0)).possible.erase t := by
    rw [(remove_tile_fields _ _ _).1, (setCount_fields _ _ _ _).1]
  have hsafe : SafeInv m W H
      ({ s.setCell (A.neighbor d0)
          ((((s.cellAt (A.neighbor d0)).setCount t d0.opposite
            ((s.cellAt (A.neighbor d0)).countOf t d0.opposite - 1))).remove_tile t s.model) with
        tile_removals := s.tile_removals ++ [⟨t, A.neighbor d0⟩] } : CoreState) := by
    rw [← propagateTile_remove s d0 (A.neighbor d0) t h0 h1 hg]
    exact safeInv_propagateTile s d0 (A.neighbor d0) t hs hnc ht
  have hca := cellAt_after_set s hw hh hl (A.neighbor d0) hnc
    ((((s.cellAt (A.neighbor d0)).setCount t d0.opposite
      ((s.cellAt (A.neighbor d0)).countOf t d0.opposite - 1))).remove_tile t s.model)
  have hcnt : ∀ c, s.grid.valid_pos c → ∀ t2 d2,
      (({ s.setCell (A.neighbor d0)
          ((((s.cellAt (A.neighbor d0)).setCount t d0.opposite
            ((s.cellAt (A.neighbor d0)).countOf t d0.opposite - 1))).remove_tile t s.model) with
        tile_removals := s.tile_removals ++ [⟨t, A.neighbor d0⟩] } : CoreState).cellAt c).countOf
        t2 d2 =
      if c = A.neighbor d0 ∧ t2 = t ∧ d2 = d0.opposite
      then (s.cellAt (A.neighbor d0)).countOf t d0.opposite - 1
      else (s.cellAt c).countOf t2 d2 := by
    intro c hc t2 d2
    show ((s.setCell (A.neighbor d0) _).cellAt c).countOf t2 d2 = _
    rw [hca c hc]
    by_cases hx : c = A.neighbor d0
    · rw [if_pos hx, (remove_tile_fields _ _ _).2.2.2 t2 d2,
        setCount_cnt_spec _ _ _ _ hlen2 hdl2 t2 d2]
      by_cases hy : t2 = t ∧ d2 = d0.opposite
      · rw [if_pos hy, if_pos ⟨hx, hy.1, hy.2⟩]
      · rw [if_neg hy, if_neg (fun hcc => hy ⟨hcc.2.1, hcc.2.2⟩), hx]
    · rw [if_neg hx, if_neg (fun hcc => hx hcc.1)]
  have hact : ∀ c, s.grid.valid_pos c →
      activeSet ({ s.setCell (A.neighbor d0)
          ((((s.cellAt (A.neighbor d0)).setCount t d0.opposite
            ((s.cellAt (A.neighbor d0)).countOf t d0.opposite - 1))).remove_tile t s.model) with
        tile_removals := s.tile_removals ++ [⟨t, A.neighbor d0⟩] } : CoreState) c =
      activeSet s c :=
    fun c hc => activeSet_remove_enqueue s hw hh hl (A.neighbor d0) hnc _ t hposs htp c hc
  have hcore := invMid_cnt_core s d0 t ts hmid hnc hrem
    ({ s.setCell (A.neighbor d0)
        ((((s.cellAt (A.neighbor d0)).setCount t d0.opposite
          ((s.cellAt (A.neighbor d0)).countOf t d0.opposite - 1))).remove_tile t s.model) with
      tile_removals := s.tile_removals ++ [⟨t, A.neighbor d0⟩] } : CoreState)
    rfl hact hcnt
  refine ⟨hsafe, ?_, ?_, hmid.hA, ?_, ?_, hcore.1, hcore.2⟩
  · intro u hu
    have hu2 : u ∈ s.tile_removals ++ ([⟨t, A.neighbor d0⟩] : List RemovalUpdate) := hu
    rcases List.mem_append.mp hu2 with hold | hnew
    · have h3 := hmid.queue_val u hold
      refine ⟨h3.1, h3.2.1, ?_⟩
      show u.tile_index ∉ (((s.setCell (A.neighbor d0) _).cellAt u.coord)).possible
      rw [hca u.coord h3.1]
      by_cases hx : u.coord = A.neighbor d0
      · rw [if_pos hx, hposs]
        intro hmem
        exact h3.2.2 (by rw [hx]; exact Finset.mem_of_mem_erase hmem)
      · rw [if_neg hx]
        exact h3.2.2
    · have hu3 : u = ⟨t, A.neighbor d0⟩ := by simpa using hnew
      rw [hu3]
      refine ⟨hnc, ht, ?_⟩
      show t ∉ (((s.setCell (A.neighbor d0) _).cellAt (A.neighbor d0))).possible
      rw [hca (A.neighbor d0) hnc, if_pos rfl, hposs]
      exact Finset.not_mem_erase t _
  · show (s.tile_removals ++ ([⟨t, A.neighbor d0⟩] : List RemovalUpdate)).Nodup
    rw [List.nodup_append]
    refine ⟨hmid.queue_nodup, List.nodup_singleton _, ?_⟩
    intro a ha hb
    rw [List.mem_singleton] at hb
    subst hb
    exact (hmid.queue_val _ ha).2.2 htp
  · intro d
    by_cases hd : d = d0
    · rw [if_pos hd]
      exact (List.nodup_cons.mp (hrem ▸ hmid.rem_nodup d0)).2
    · rw [if_neg hd]
      exact hmid.rem_nodup d
  · intro d t2 h
    by_cases hd : d = d0
    · rw [if_pos hd] at h
      rw [hd]
      exact hmid.rem_sub d0 t2 (by rw [hrem]; exact List.mem_cons_of_mem t h)
    · rw [if_neg hd] at h
      exact hmid.rem_sub d t2 h

/-- One inner propagation step preserves the mid-propagation invariant,
consuming the head of the direction's remaining list. -/
theorem invMid_tile_step {m : Model} {W H : ℕ} {A : Vector2} {T : ℕ}
    {rem : Direction → List ℕ} (s : CoreState) (d0 : Direction) (t : ℕ) (ts : List ℕ)
    (hmid : InvMid m W H A T rem s)
    (hnc : s.grid.valid_pos (A.neighbor d0))
    (hrem : rem d0 = t :: ts) :
    InvMid m W H A T (fun d => if d = d0 then ts else rem d)
      (CoreState.propagateTile s d0 (A.neighbor d0) t) := by
  have hhc := invMid_head_count s d0 t ts hmid hnc hrem
  have h0 : ¬ (s.cellAt (A.neighbor d0)).countOf t d0.opposite = 0 := by omega
  by_cases h1 : (s.cellAt (A.neighbor d0)).countOf t d0.opposite - 1 = 0
  · by_cases hg : CoreState.removeBlocked
        ((s.cellAt (A.neighbor d0)).setCount t d0.opposite
          ((s.cellAt (A.neighbor d0)).countOf t d0.opposite - 1)) t d0.opposite
    · rw [propagateTile_blocked s d0 (A.neighbor d0) t h0 h1 hg]
      exact invMid_write s d0 t ts hmid hnc hrem
    · rw [propagateTile_remove s d0 (A.neighbor d0) t h0 h1 hg]
      exact invMid_remove s d0 t ts hmid hnc hrem h1 hg
  · rw [propagateTile_dec s d0 (A.neighbor d0) t h0 h1]
    exact invMid_write s d0 t ts hmid hnc hrem

/-- `InvMid` respects pointwise equality of the remaining lists. -/
theorem invMid_congr {m : Model} {W H : ℕ} {A : Vector2} {T : ℕ}
    {rem1 rem2 : Direction → List ℕ} (s : CoreState)
    (h : ∀ d, rem1 d = rem2 d) (hm : InvMid m W H A T rem1 s) :
    InvMid m W H A T rem2 s := by
  have he : rem1 = rem2 := funext h
  rw [← he]
  exact hm

/-- Folding the inner propagation step over a direction's whole remaining
list empties it while preserving the mid-propagation invariant. -/
theorem invMid_foldl_tiles {m : Model} {W H : ℕ} {A : Vector2} {T : ℕ} (d0 : Direction) :
    ∀ (l : List ℕ) (rem : Direction → List ℕ) (s : CoreState),
    InvMid m W H A T rem s → s.grid.valid_pos (A.neighbor d0) → rem d0 = l →
    InvMid m W H A T (fun d => if d = d0 then [] else rem d)
      (l.foldl (fun s2 t => CoreState.propagateTile s2 d0 (A.neighbor d0) t) s) := by
  intro l
  induction l with
  | nil =>
    intro rem s hmid hnc hrem
    exact invMid_congr s (fun d => by
      by_cases hd : d = d0
      · simp [hd, hrem]
      · simp [hd]) hmid
  | cons t ts ih =>
    intro rem s hmid hnc hrem
    rw [List.foldl_cons]
    have h2 := invMid_tile_step s d0 t ts hmid hnc hrem
    have hnc2 : (CoreState.propagateTile s d0 (A.neighbor d0) t).grid.valid_pos
        (A.neighbor d0) := by
      rw [validWH_iff _ W H h2.safe.grid_w h2.safe.grid_h,
        ← validWH_iff s.grid W H hmid.safe.grid_w hmid.safe.grid_h]
      exact hnc
    have h3 := ih (fun d => if d = d0 then ts else rem d) _ h2 hnc2 (by simp)
    exact invMid_congr _ (fun d => by
      by_cases hd : d = d0
      · simp [hd]
      · simp [hd]) h3

/-- Folding the per-direction body over a duplicate-free direction list
empties each visited direction's remaining list (or its neighbour was out
of bounds), preserving the mid-propagation invariant. -/
theorem invMid_foldl_dirs {m : Model} {W H : ℕ} {A : Vector2} {T : ℕ} :
    ∀ (ds : List Direction), ds.Nodup → ∀ (rem : Direction → List ℕ) (s : CoreState),
    InvMid m W H A T rem s →
    (∀ d ∈ ds, rem d = bsIter (m.adj T d) m.size) →
    (∀ d, d ∉ ds → rem d = [] ∨ ¬ validWH W H (A.neighbor d)) →
    ∃ rem2, InvMid m W H A T rem2 (ds.foldl (fun s2 d =>
        if s2.grid.valid_pos (A.neighbor d) then
          (bsIter (s2.model.adj T d) s2.model.size).foldl
            (fun s3 t => CoreState.propagateTile s3 d (A.neighbor d) t) s2
        else s2) s) ∧
      ∀ d, rem2 d = [] ∨ ¬ validWH W H (A.neighbor d) := by
  intro ds
  induction ds with
  | nil =>
    intro _ rem s hmid _ hdone
    exact ⟨rem, hmid, fun d => hdone d (List.not_mem_nil d)⟩
  | cons a ds2 ih =>
    intro hnd rem s hmid hfull hdone
    rw [List.foldl_cons]
    by_cases hv : s.grid.valid_pos (A.neighbor a)
    · have hlist : bsIter (s.model.adj T a) s.model.size = bsIter (m.adj T a) m.size := by
        rw [hmid.safe.model_eq]
      have hstep := invMid_foldl_tiles a (bsIter (m.adj T a) m.size) rem s hmid hv
        (hfull a (List.mem_cons_self a ds2))
      have hif : (if s.grid.valid_pos (A.neighbor a) then
          (bsIter (s.model.adj T a) s.model.size).foldl
            (fun s3 t => CoreState.propagateTile s3 a (A.neighbor a) t) s
          else s) = (bsIter (m.adj T a) m.size).foldl
            (fun s3 t => CoreState.propagateTile s3 a (A.neighbor a) t) s := by
        rw [if_pos hv, hlist]
      rw [hif]
      refine ih (List.nodup_cons.mp hnd).2 (fun d => if d = a then [] else rem d) _ hstep
        ?_ ?_
      · intro d hd
        have hda : ¬ d = a := fun he => (List.nodup_cons.mp hnd).1 (he ▸ hd)
        show (if d = a then [] else rem d) = bsIter (m.adj T d) m.size
        rw [if_neg hda]
        exact hfull d (List.mem_cons_of_mem a hd)
      · intro d hd
        by_cases hda : d = a
        · exact Or.inl (by simp [hda])
        · show (if d = a then [] else rem d) = [] ∨ ¬ validWH W H (A.neighbor d)
          rw [if_neg hda]
          refine hdone d (fun hm2 => hd ?_)
          rcases List.mem_cons.mp hm2 with h | h
          · exact absurd h hda
          · exact h
    · have hif : (if s.grid.valid_pos (A.neighbor a) then
          (bsIter (s.model.adj T a) s.model.size).foldl
            (fun s3 t => CoreState.propagateTile s3 a (A.neighbor a) t) s
          else s) = s := by
        rw [if_neg hv]
      rw [hif]
      refine ih (List.nodup_cons.mp hnd).2 rem s hmid
        (fun d hd => hfull d (List.mem_cons_of_mem a hd)) ?_
      intro d hd
      by_cases hda : d = a
      · right
        rw [hda]
        intro hvw
        exact hv ((validWH_iff s.grid W H hmid.safe.grid_w hmid.safe.grid_h _).mpr hvw)
      · refine hdone d (fun hm2 => hd ?_)
        rcases List.mem_cons.mp hm2 with h | h
        · exact absurd h hda
        · exact h

/-- Popping the head of the removal queue establishes the
mid-propagation invariant with every direction's remaining list full. -/
theorem invMid_pop {m : Model} {W H : ℕ} (s : CoreState) (u : RemovalUpdate)
    (rest : List RemovalUpdate) (hinv : Inv m W H s)
    (hq : s.tile_removals = u :: rest) :
    InvMid m W H u.coord u.tile_index (fun d => bsIter (m.adj u.tile_index d) m.size)
      { s with tile_removals := rest } := by
  have hu := hinv.queue_val u (by rw [hq]; exact List.mem_cons_self u rest)
  have hnd := hinv.queue_nodup
  rw [hq, List.nodup_cons] at hnd
  refine ⟨safeInv_queue s rest hinv.safe, ?_, hnd.2, hu.1, fun d => bsIter_nodup _ _,
    ?_, ?_, ?_⟩
  · intro u2 hu2
    exact hinv.queue_val u2 (by rw [hq]; exact List.mem_cons_of_mem u hu2)
  · intro d t2 h
    rw [mem_bsIter] at h
    exact ⟨h.2, h.1⟩
  · intro c hc t2 ht2 d hd
    have hcell : ({ s with tile_removals := rest } : CoreState).cellAt c = s.cellAt c := rfl
    rw [hcell]
    have hold := hinv.count_formula c hc t2 ht2 d hd
    rw [hold]
    have hcell2 : ({ s with tile_removals := rest } : CoreState).cellAt (c.neighbor d) =
        s.cellAt (c.neighbor d) := rfl
    have hm2 : ({ s with tile_removals := rest } : CoreState).model = s.model := rfl
    by_cases hx : c.neighbor d = u.coord
    · have hps : pendingAt s (c.neighbor d) =
          u.tile_index :: pendingAt { s with tile_removals := rest } (c.neighbor d) := by
        show (s.tile_removals.filter fun v => v.coord = c.neighbor d).map
          RemovalUpdate.tile_index = _
        rw [hq, List.filter_cons, if_pos (by simp [hx])]
        rfl
      have hact : activeSet s (c.neighbor d) =
          insert u.tile_index (activeSet { s with tile_removals := rest } (c.neighbor d)) := by
        simp only [activeSet, hcell2]
        rw [hps, List.toFinset_cons, Finset.union_insert]
      have hT : u.tile_index ∉ activeSet { s with tile_removals := rest } (c.neighbor d) := by
        simp only [activeSet, hcell2]
        rw [Finset.mem_union, List.mem_toFinset]
        rintro (hmem | hmem)
        · rw [hx] at hmem
          exact hu.2.2 hmem
        · rw [mem_pendingAt] at hmem
          have hmem2 : u ∈ rest := by
            have he : u = ⟨u.tile_index, u.coord⟩ := rfl
            rw [he, ← hx]
            exact hmem
          exact hnd.1 hmem2
      have hIns : enablersIn s c t2 d =
          enablersIn { s with tile_removals := rest } c t2 d +
            (if t2 ∈ s.model.adj u.tile_index d.opposite then 1 else 0) := by
        simp only [enablersIn, hm2]
        rw [hact, Finset.filter_insert]
        by_cases hp : t2 ∈ s.model.adj u.tile_index d.opposite
        · rw [if_pos hp, if_pos hp]
          have hTf : u.tile_index ∉ Finset.filter
              (fun t3 => t2 ∈ s.model.adj t3 d.opposite)
              (activeSet { s with tile_removals := rest } (c.neighbor d)) := by
            intro hmm
            exact hT (Finset.mem_of_mem_filter _ hmm)
          rw [Finset.card_insert_of_not_mem hTf]
        · rw [if_neg hp, if_neg hp]
          omega
      rw [hIns]
      congr 1
      rw [hinv.safe.model_eq]
      refine if_congr ?_ rfl rfl
      constructor
      · intro hp
        refine ⟨?_, ?_⟩
        · rw [← hx, Vector2.neighbor_opposite]
        · rw [mem_bsIter]
          exact ⟨ht2, hp⟩
      · rintro ⟨_, hmem⟩
        rw [mem_bsIter] at hmem
        exact hmem.2
    · have hps : pendingAt { s with tile_removals := rest } (c.neighbor d) =
          pendingAt s (c.neighbor d) := by
        show (rest.filter fun v => v.coord = c.neighbor d).map RemovalUpdate.tile_index =
          (s.tile_removals.filter fun v => v.coord = c.neighbor d).map
            RemovalUpdate.tile_index
        rw [hq, List.filter_cons,
          if_neg (by simp only [decide_eq_true_eq]; exact fun he => hx he.symm)]
      have hact2 : activeSet { s with tile_removals := rest } (c.neighbor d) =
          activeSet s (c.neighbor d) := by
        simp only [activeSet, hcell2, hps]
      have heq := enablersIn_congr s { s with tile_removals := rest } c t2 d rfl hact2
      rw [heq]
      have hz : (if c = u.coord.neighbor d.opposite ∧
          t2 ∈ bsIter (m.adj u.tile_index d.opposite) m.size then 1 else 0) = 0 := by
        rw [if_neg]
        rintro ⟨h1, _⟩
        exact hx ((Vector2.neighbor_eq_iff c u.coord d).mpr h1)
      rw [hz]
      omega
  · intro c hc t2 ht2 d hd
    exact hinv.count_boundary c hc t2 ht2 d hd

/-- The mid-propagation invariant with all remaining lists drained (or
their neighbours out of bounds) gives back the full invariant. -/
theorem invMid_to_inv {m : Model} {W H : ℕ} {A : Vector2} {T : ℕ}
    {rem : Direction → List ℕ} (s : CoreState)
    (hmid : InvMid m W H A T rem s)
    (hdone : ∀ d, rem d = [] ∨ ¬ validWH W H (A.neighbor d)) :
    Inv m W H s := by
  refine ⟨hmid.safe, hmid.queue_val, hmid.queue_nodup, ?_, hmid.count_boundary⟩
  intro c hc t ht d hd
  have h := hmid.count_mid c hc t ht d hd
  rw [h]
  have hz : (if c = A.neighbor d.opposite ∧ t ∈ rem d.opposite then 1 else 0) = 0 := by
    rw [if_neg]
    rintro ⟨hc1, hc2⟩
    rcases hdone d.opposite with he | hv
    · rw [he] at hc2
      exact absurd hc2 (List.not_mem_nil t)
    · apply hv
      rw [← hc1, ← validWH_iff s.grid W H hmid.safe.grid_w hmid.safe.grid_h]
      exact hc
  rw [hz]
  omega

/-- The full invariant is preserved by one `propagate1` step. -/
theorem inv_propagate1 {m : Model} {W H : ℕ} (s : CoreState) (u : RemovalUpdate)
    (rest : List RemovalUpdate) (hinv : Inv m W H s)
    (hq : s.tile_removals = u :: rest) :
    Inv m W H (CoreState.processRemoval { s with tile_removals := rest } u) := by
  have hmid := invMid_pop s u rest hinv hq
  obtain ⟨rem2, hmid2, hdone2⟩ := invMid_foldl_dirs ALL_DIRECTIONS (by decide)
    (fun d => bsIter (m.adj u.tile_index d) m.size) { s with tile_removals := rest } hmid
    (fun d _ => rfl) (fun d hd => absurd (by cases d <;> decide) hd)
  exact invMid_to_inv _ hmid2 hdone2

/-- The full invariant is preserved by a collapse step. -/
theorem inv_collapse {m : Model} {W H : ℕ} (s : CoreState) (coord : Vector2) (chosen : ℕ)
    (hinv : Inv m W H s) (hq : s.tile_removals = [])
    (hc0 : s.grid.valid_pos coord)
    (hcol : (s.cellAt coord).is_collpased = false)
    (hch : chosen ∈ (s.cellAt coord).possible) :
    Inv m W H { s.collapse_cell_at coord chosen with
      remaining_uncollapsed_cells := s.remaining_uncollapsed_cells - 1 } := by
  have hs := hinv.safe
  have hw := hs.grid_w
  have hh := hs.grid_h
  have hl := hs.grid_len
  have hbound : ∀ t ∈ (s.cellAt coord).possible, t < s.model.size := by
    intro t htm
    rw [hs.model_eq]
    exact hs.possible_sub coord hc0 t htm
  have hca : ∀ c, s.grid.valid_pos c →
      ({ s.collapse_cell_at coord chosen with
        remaining_uncollapsed_cells := s.remaining_uncollapsed_cells - 1 } : CoreState).cellAt
          c =
      if c = coord then { s.cellAt coord with is_collpased := true, possible := {chosen} }
      else s.cellAt c :=
    fun c hc => cellAt_after_set s hw hh hl coord hc0 _ c hc
  have hact := activeSet_collapse s hw hh hl coord hc0 chosen hch hq hbound
  have hcnt : ∀ c, s.grid.valid_pos c → ∀ t d,
      (({ s.collapse_cell_at coord chosen with
        remaining_uncollapsed_cells := s.remaining_uncollapsed_cells - 1 } : CoreState).cellAt
          c).countOf t d = (s.cellAt c).countOf t d := by
    intro c hc t d
    rw [hca c hc]
    by_cases hx : c = coord
    · rw [if_pos hx, hx]
      rfl
    · rw [if_neg hx]
  refine ⟨safeInv_collapse s coord chosen hs hc0 hcol hch, ?_, ?_, ?_, ?_⟩
  · intro u hu
    have hu2 : u ∈ s.tile_removals ++
        ((bsIter ((s.cellAt coord).possible.erase chosen) s.model.size).map
          fun tile_index => RemovalUpdate.mk tile_index coord) := hu
    rw [hq, List.nil_append, List.mem_map] at hu2
    obtain ⟨tile, htile, hu3⟩ := hu2
    rw [mem_bsIter] at htile
    rw [← hu3]
    refine ⟨hc0, ?_, ?_⟩
    · have hts := htile.1
      rw [hs.model_eq] at hts
      exact hts
    · show tile ∉ (({ s.collapse_cell_at coord chosen with
        remaining_uncollapsed_cells := s.remaining_uncollapsed_cells - 1 } : CoreState).cellAt
          coord).possible
      rw [hca coord hc0, if_pos rfl]
      show tile ∉ ({chosen} : Finset ℕ)
      rw [Finset.mem_singleton]
      exact (Finset.mem_erase.mp htile.2).1
  · show (s.tile_removals ++
      ((bsIter ((s.cellAt coord).possible.erase chosen) s.model.size).map
        fun tile_index => RemovalUpdate.mk tile_index coord)).Nodup
    rw [hq, List.nil_append]
    refine List.Nodup.map ?_ (bsIter_nodup _ _)
    intro a b hab
    exact congrArg RemovalUpdate.tile_index hab
  · intro c hc t ht d hd
    rw [hcnt c hc t d, hinv.count_formula c hc t ht d hd]
    exact (enablersIn_congr s ({ s.collapse_cell_at coord chosen with
      remaining_uncollapsed_cells := s.remaining_uncollapsed_cells - 1 }) c t d rfl
      (hact (c.neighbor d) hd)).symm
  · intro c hc t ht d hd
    rw [hcnt c hc t d]
    exact hinv.count_boundary c hc t ht d hd

/-- The fresh state satisfies the full invariant for well-formed models. -/
theorem inv_new (m : Model) (N W H : ℕ) (hwf : m.Wellformed N) :
    Inv m W H (CoreState.new m W H) := by
  have hca := cellAt_new m W H
  have hcnt : ∀ c, (CoreState.new m W H).grid.valid_pos c → ∀ t, t < m.size →
      ∀ d : Direction,
      ((CoreState.new m W H).cellAt c).countOf t d = (m.adj t d).card := by
    intro c hc t ht d
    rw [hca c hc]
    exact initCount_val m t ht d
  have hpend : ∀ c, pendingAt (CoreState.new m W H) c = [] := fun c => rfl
  have hact : ∀ c, activeSet (CoreState.new m W H) c =
      ((CoreState.new m W H).cellAt c).possible := by
    intro c
    simp only [activeSet, hpend c, List.toFinset_nil, Finset.union_empty]
  refine ⟨safeInv_new m W H hwf.freq_bound, ?_, List.nodup_nil, ?_, ?_⟩
  · intro u hu
    exact absurd hu (List.not_mem_nil u)
  · intro c hc t ht d hd
    rw [hcnt c hc t ht d]
    have hposs : ((CoreState.new m W H).cellAt (c.neighbor d)).possible =
        Finset.range m.size := by
      rw [hca _ hd]
      rfl
    have hmodel : (CoreState.new m W H).model = m := rfl
    simp only [enablersIn, hmodel, hact (c.neighbor d), hposs]
    rw [adj_eq_filter hwf t ht d]
  · intro c hc t ht d hd
    exact hcnt c hc t ht d

/-- The full invariant is preserved by every step of the collapse loop. -/
theorem inv_step {m : Model} {W H : ℕ} {s s2 : CoreState}
    (hinv : Inv m W H s) (hstep : Step s s2) : Inv m W H s2 := by
  cases hstep with
  | collapse coord chosen hq hv hcolx hch hfr =>
    exact inv_collapse s coord chosen hinv hq hv hcolx hch
  | propagate1 u rest hq =>
    exact inv_propagate1 s u rest hinv hq

/-- Every reachable state of a well-formed model satisfies the full
invariant. -/
theorem inv_reachable {m : Model} {N W H : ℕ} (hwf : m.Wellformed N)
    (s : CoreState) (hr : Reachable m W H s) : Inv m W H s := by
  induction hr with
  | refl => exact inv_new m N W H hwf
  | tail hab hbc ih => exact inv_step ih hbc

/-- Claim C2: in every reachable state of a well-formed model whose
removal queue is empty — after construction, and after each collapse
followed by a completed propagate — for every valid cell `c`, every tile
`t` still possible in `c`, and every direction `d` whose neighbour lies
inside the grid, the stored enabler count equals the number of tiles
`t2` in the neighbour's possible set with `t ∈ adjacency[t2][opposite d]`
(for an out-of-bounds neighbour the count instead retains its initial
value, so the in-bounds hypothesis is the claim's implicit reading). -/
theorem C2_enabler_count_invariant (m : Model) (N W H : ℕ) (hwf : m.Wellformed N)
    (s : CoreState) (hr : Reachable m W H s) (hq : s.tile_removals = [])
    (c : Vector2) (hc : s.grid.valid_pos c)
    (t : ℕ) (htp : t ∈ (s.cellAt c).possible)
    (d : Direction) (hd : s.grid.valid_pos (c.neighbor d)) :
    (s.cellAt c).countOf t d = enablersNow s c t d := by
  have hinv := inv_reachable hwf s hr
  have ht : t < m.size := hinv.safe.possible_sub c hc t htp
  rw [hinv.count_formula c hc t ht d hd]
  simp only [enablersIn, enablersNow, activeSet, pendingAt, hq, List.filter_nil,
    List.map_nil, List.toFinset_nil, Finset.union_empty]

/-- Witness for C2 at a concrete input: the fresh 2×2 state of `mThree`
with its empty queue. -/
theorem C2_enabler_count_invariant_witness :
    ((CoreState.new mThree 2 2).tile_removals = []) ∧
    ((CoreState.new mThree 2 2).grid.valid_pos ⟨0, 0⟩) ∧
    (0 ∈ ((CoreState.new mThree 2 2).cellAt ⟨0, 0⟩).possible) ∧
    ((CoreState.new mThree 2 2).cellAt ⟨0, 0⟩).countOf 0 Direction.down =
      enablersNow (CoreState.new mThree 2 2) ⟨0, 0⟩ 0 Direction.down :=
  ⟨rfl, by decide, by decide,
    C2_enabler_count_invariant mThree 2 2 2 mThree_wf _ Relation.ReflTransGen.refl rfl
      ⟨0, 0⟩ (by decide) 0 (by decide) Direction.down (by decide)⟩

/-! ### Positivity of enabler counts and compatibility of collapsed cells -/

/-- `to_idx` is surjective onto the indices below 4. -/
theorem to_idx_surj (i : ℕ) (hi : i < 4) : ∃ d : Direction, d.to_idx = i := by
  interval_cases i
  · exact ⟨Direction.up, rfl⟩
  · exact ⟨Direction.right, rfl⟩
  · exact ⟨Direction.down, rfl⟩
  · exact ⟨Direction.left, rfl⟩

/-- Two members of a one-element finite set coincide. -/
theorem mem_card_one {α : Type} [DecidableEq α] (s : Finset α) (h1 : s.card = 1)
    {a b : α} (ha : a ∈ s) (hb : b ∈ s) : a = b := by
  obtain ⟨e, he⟩ := Finset.card_eq_one.mp h1
  rw [he, Finset.mem_singleton] at ha hb
  rw [ha, hb]

/-- The compatibility of collapsed cells is preserved by any update that
keeps every collapsed flag and shrinks every possible set. -/
theorem compat_preserved {m : Model} (s s2 : CoreState)
    (hcell : ∀ c, s.grid.valid_pos c →
      ((s2.cellAt c).is_collpased = (s.cellAt c).is_collpased ∧
       (s2.cellAt c).possible ⊆ (s.cellAt c).possible))
    (hcc : ∀ c : Vector2, s.grid.valid_pos c → ∀ d : Direction,
      s.grid.valid_pos (c.neighbor d) →
      (s.cellAt c).is_collpased = true →
      (s.cellAt (c.neighbor d)).is_collpased = true →
      ∀ a ∈ (s.cellAt c).possible, ∀ b ∈ (s.cellAt (c.neighbor d)).possible,
      b ∈ m.adj a d) :
    ∀ c : Vector2, s.grid.valid_pos c → ∀ d : Direction,
      s.grid.valid_pos (c.neighbor d) →
      (s2.cellAt c).is_collpased = true →
      (s2.cellAt (c.neighbor d)).is_collpased = true →
      ∀ a ∈ (s2.cellAt c).possible, ∀ b ∈ (s2.cellAt (c.neighbor d)).possible,
      b ∈ m.adj a d := by
  intro c hc d hd hc1 hc2 a ha b hb
  have h1 := hcell c hc
  have h2 := hcell (c.neighbor d) hd
  exact hcc c hc d hd (by rw [← h1.1]; exact hc1) (by rw [← h2.1]; exact hc2)
    a (h1.2 ha) b (h2.2 hb)

/-- Every possible tile of every uncollapsed cell keeps all four enabler
counts positive across one inner propagation step. -/
theorem posCounts_propagateTile {m : Model} {W H : ℕ} (s : CoreState)
    (d0 : Direction) (nc : Vector2) (t : ℕ)
    (hs : SafeInv m W H s) (hnc : s.grid.valid_pos nc)
    (hp : ∀ c : Vector2, s.grid.valid_pos c → (s.cellAt c).is_collpased = false →
      ∀ t2 ∈ (s.cellAt c).possible, ∀ d : Direction, 1 ≤ (s.cellAt c).countOf t2 d) :
    ∀ c : Vector2, s.grid.valid_pos c →
      ((CoreState.propagateTile s d0 nc t).cellAt c).is_collpased = false →
      ∀ t2 ∈ ((CoreState.propagateTile s d0 nc t).cellAt c).possible, ∀ d : Direction,
      1 ≤ ((CoreState.propagateTile s d0 nc t).cellAt c).countOf t2 d := by
  have hw := hs.grid_w
  have hh := hs.grid_h
  have hl := hs.grid_len
  by_cases h0 : (s.cellAt nc).countOf t d0.opposite = 0
  · rw [propagateTile_zero s d0 nc t h0]
    exact hp
  · by_cases h1 : (s.cellAt nc).countOf t d0.opposite - 1 = 0
    · by_cases hg : CoreState.removeBlocked
          ((s.cellAt nc).setCount t d0.opposite
            ((s.cellAt nc).countOf t d0.opposite - 1)) t d0.opposite
      · rw [propagateTile_blocked s d0 nc t h0 h1 hg]
        intro c hc hcol t2 ht2 d
        rw [cellAt_after_set s hw hh hl nc hnc _ c hc] at hcol ht2 ⊢
        by_cases hx : c = nc
        · rw [if_pos hx] at hcol ht2 ⊢
          rw [(setCount_fields _ _ _ _).2.2.2.1] at hcol
          rw [(setCount_fields _ _ _ _).1] at ht2
          have htnot : t ∉ (s.cellAt nc).possible := by
            simp only [CoreState.removeBlocked] at hg
            rcases hg with hcase | hcase
            · rw [(setCount_fields _ _ _ _).2.2.2.1, hcol] at hcase
              exact absurd hcase Bool.false_ne_true
            · rw [List.any_eq_true] at hcase
              obtain ⟨dir, hdirmem, hdir0⟩ := hcase
              rw [List.mem_filter, List.mem_range] at hdirmem
              obtain ⟨hdlt, hdne⟩ := hdirmem
              simp only [decide_eq_true_eq] at hdne hdir0
              obtain ⟨d1, hd1⟩ := to_idx_surj dir hdlt
              have hne1 : d1 ≠ d0.opposite := by
                intro he
                exact hdne (by rw [← hd1, he])
              intro htmem
              have hge := hp nc hnc hcol t htmem d1
              have hzz : (s.cellAt nc).countOf t d1 = 0 := by
                rw [← countOf_setCount_ne (s.cellAt nc) t t d0.opposite d1
                  ((s.cellAt nc).countOf t d0.opposite - 1) (Or.inr hne1)]
                rw [countOf_def, hd1]
                exact hdir0
              omega
          have ht2t : t2 ≠ t := fun he => htnot (he ▸ ht2)
          rw [countOf_setCount_ne _ _ _ _ _ _ (Or.inl ht2t)]
          exact hp nc hnc hcol t2 ht2 d
        · rw [if_neg hx] at hcol ht2 ⊢
          exact hp c hc hcol t2 ht2 d
      · rw [propagateTile_remove s d0 nc t h0 h1 hg]
        intro c hc hcol t2 ht2 d
        have hca := cellAt_after_set s hw hh hl nc hnc
          ((((s.cellAt nc).setCount t d0.opposite
            ((s.cellAt nc).countOf t d0.opposite - 1))).remove_tile t s.model)
        have hcell : ({ s.setCell nc
            ((((s.cellAt nc).setCount t d0.opposite
              ((s.cellAt nc).countOf t d0.opposite - 1))).remove_tile t s.model) with
          tile_removals := s.tile_removals ++ [⟨t, nc⟩] } : CoreState).cellAt c =
            if c = nc then (((s.cellAt nc).setCount t d0.opposite
              ((s.cellAt nc).countOf t d0.opposite - 1))).remove_tile t s.model
            else s.cellAt c := hca c hc
        rw [hcell] at hcol ht2 ⊢
        by_cases hx : c = nc
        · rw [if_pos hx] at hcol ht2 ⊢
          rw [(remove_tile_fields _ _ _).2.1, (setCount_fields _ _ _ _).2.2.2.1] at hcol
          rw [(remove_tile_fields _ _ _).1, (setCount_fields _ _ _ _).1] at ht2
          have ht2t : t2 ≠ t := (Finset.mem_erase.mp ht2).1
          rw [(remove_tile_fields _ _ _).2.2.2 t2 d,
            countOf_setCount_ne _ _ _ _ _ _ (Or.inl ht2t)]
          exact hp nc hnc hcol t2 (Finset.mem_of_mem_erase ht2) d
        · rw [if_neg hx] at hcol ht2 ⊢
          exact hp c hc hcol t2 ht2 d
    · rw [propagateTile_dec s d0 nc t h0 h1]
      intro c hc hcol t2 ht2 d
      rw [cellAt_after_set s hw hh hl nc hnc _ c hc] at hcol ht2 ⊢
      by_cases hx : c = nc
      · rw [if_pos hx] at hcol ht2 ⊢
        rw [(setCount_fields _ _ _ _).2.2.2.1] at hcol
        rw [(setCount_fields _ _ _ _).1] at ht2
        by_cases hy : t2 = t ∧ d = d0.opposite
        · obtain ⟨hy1, hy2⟩ := hy
          subst hy1
          subst hy2
          rw [countOf_setCount_self _ _ _ _ (by
              rw [(hs.counts_len nc hnc).1]
              exact hs.possible_sub nc hnc t2 ht2)
            (counts_get_len hs nc hnc t2 (hs.possible_sub nc hnc t2 ht2))]
          omega
        · rw [countOf_setCount_ne _ _ _ _ _ _ (by tauto)]
          exact hp nc hnc hcol t2 ht2 d
      · rw [if_neg hx] at hcol ht2 ⊢
        exact hp c hc hcol t2 ht2 d

/-- The compatibility of collapsed cells is preserved by one inner
propagation step. -/
theorem compat_propagateTile {m : Model} {W H : ℕ} (s : CoreState)
    (d0 : Direction) (nc : Vector2) (t : ℕ)
    (hs : SafeInv m W H s) (hnc : s.grid.valid_pos nc)
    (hcc : ∀ c : Vector2, s.grid.valid_pos c → ∀ d : Direction,
      s.grid.valid_pos (c.neighbor d) →
      (s.cellAt c).is_collpased = true →
      (s.cellAt (c.neighbor d)).is_collpased = true →
      ∀ a ∈ (s.cellAt c).possible, ∀ b ∈ (s.cellAt (c.neighbor d)).possible,
      b ∈ m.adj a d) :
    ∀ c : Vector2, s.grid.valid_pos c → ∀ d : Direction,
      s.grid.valid_pos (c.neighbor d) →
      ((CoreState.propagateTile s d0 nc t).cellAt c).is_collpased = true →
      ((CoreState.propagateTile s d0 nc t).cellAt (c.neighbor d)).is_collpased = true →
      ∀ a ∈ ((CoreState.propagateTile s d0 nc t).cellAt c).possible,
      ∀ b ∈ ((CoreState.propagateTile s d0 nc t).cellAt (c.neighbor d)).possible,
      b ∈ m.adj a d := by
  have hw := hs.grid_w
  have hh := hs.grid_h
  have hl := hs.grid_len
  refine compat_preserved s _ ?_ hcc
  intro c hc
  by_cases h0 : (s.cellAt nc).countOf t d0.opposite = 0
  · rw [propagateTile_zero s d0 nc t h0]
    exact ⟨rfl, fun x hx => hx⟩
  · by_cases h1 : (s.cellAt nc).countOf t d0.opposite - 1 = 0
    · by_cases hg : CoreState.removeBlocked
          ((s.cellAt nc).setCount t d0.opposite
            ((s.cellAt nc).countOf t d0.opposite - 1)) t d0.opposite
      · rw [propagateTile_blocked s d0 nc t h0 h1 hg,
          cellAt_after_set s hw hh hl nc hnc _ c hc]
        by_cases hx : c = nc
        · rw [if_pos hx, (setCount_fields _ _ _ _).2.2.2.1, (setCount_fields _ _ _ _).1, hx]
          exact ⟨rfl, fun x hx2 => hx2⟩
        · rw [if_neg hx]
          exact ⟨rfl, fun x hx2 => hx2⟩
      · rw [propagateTile_remove s d0 nc t h0 h1 hg]
        have hcell : ({ s.setCell nc
            ((((s.cellAt nc).setCount t d0.opposite
              ((s.cellAt nc).countOf t d0.opposite - 1))).remove_tile t s.model) with
          tile_removals := s.tile_removals ++ [⟨t, nc⟩] } : CoreState).cellAt c =
            if c = nc then (((s.cellAt nc).setCount t d0.opposite
              ((s.cellAt nc).countOf t d0.opposite - 1))).remove_tile t s.model
            else s.cellAt c :=
          cellAt_after_set s hw hh hl nc hnc _ c hc
        rw [hcell]
        by_cases hx : c = nc
        · rw [if_pos hx, (remove_tile_fields _ _ _).2.1, (setCount_fields _ _ _ _).2.2.2.1,
            (remove_tile_fields _ _ _).1, (setCount_fields _ _ _ _).1, hx]
          exact ⟨rfl, fun x hx2 => Finset.mem_of_mem_erase hx2⟩
        · rw [if_neg hx]
          exact ⟨rfl, fun x hx2 => hx2⟩
    · rw [propagateTile_dec s d0 nc t h0 h1,
        cellAt_after_set s hw hh hl nc hnc _ c hc]
      by_cases hx : c = nc
      · rw [if_pos hx, (setCount_fields _ _ _ _).2.2.2.1, (setCount_fields _ _ _ _).1, hx]
        exact ⟨rfl, fun x hx2 => hx2⟩
      · rw [if_neg hx]
        exact ⟨rfl, fun x hx2 => hx2⟩

/-- `PosInv` is preserved by one inner propagation step. -/
theorem posInv_propagateTile {m : Model} {W H : ℕ} (s : CoreState)
    (d0 : Direction) (nc : Vector2) (t : ℕ)
    (hs : SafeInv m W H s) (hnc : s.grid.valid_pos nc) (ht : t < m.size)
    (hpos : PosInv m W H s) : PosInv m W H (CoreState.propagateTile s d0 nc t) := by
  have hs2 := safeInv_propagateTile s d0 nc t hs hnc ht
  have hvc : ∀ c : Vector2, (CoreState.propagateTile s d0 nc t).grid.valid_pos c →
      s.grid.valid_pos c := fun c hc =>
    (valid_pos_congr s.grid (CoreState.propagateTile s d0 nc t).grid
      (hs2.grid_w.trans hs.grid_w.symm) (hs2.grid_h.trans hs.grid_h.symm) c).mp hc
  constructor
  · intro c hc hcol t2 ht2 d
    exact posCounts_propagateTile s d0 nc t hs hnc hpos.pos_counts c (hvc c hc)
      hcol t2 ht2 d
  · intro c hc d hd hc1 hc2 a ha b hb
    exact compat_propagateTile s d0 nc t hs hnc hpos.collapsed_compat c (hvc c hc)
      d (hvc _ hd) hc1 hc2 a ha b hb

/-- `PosInv` is preserved by folding the inner propagation step over a
list of in-range tiles. -/
theorem posInv_foldl_tiles {m : Model} {W H : ℕ} (d0 : Direction) (nc : Vector2) :
    ∀ (l : List ℕ) (s : CoreState), SafeInv m W H s → s.grid.valid_pos nc →
    (∀ t ∈ l, t < m.size) → PosInv m W H s →
    PosInv m W H (l.foldl (fun s2 t => CoreState.propagateTile s2 d0 nc t) s) := by
  intro l
  induction l with
  | nil =>
    intro s _ _ _ hpos
    exact hpos
  | cons a l2 ih =>
    intro s hs hnc hl hpos
    rw [List.foldl_cons]
    have hs2 := safeInv_propagateTile s d0 nc a hs hnc (hl a (List.mem_cons_self a l2))
    exact ih _ hs2
      ((valid_pos_congr s.grid (CoreState.propagateTile s d0 nc a).grid
        (hs2.grid_w.trans hs.grid_w.symm) (hs2.grid_h.trans hs.grid_h.symm) nc).mpr hnc)
      (fun t htl => hl t (List.mem_cons_of_mem a htl))
      (posInv_propagateTile s d0 nc a hs hnc (hl a (List.mem_cons_self a l2)) hpos)

/-- `PosInv` is preserved by processing one removal update. -/
theorem posInv_processRemoval {m : Model} {W H : ℕ} (s : CoreState) (u : RemovalUpdate)
    (hs : SafeInv m W H s) (hpos : PosInv m W H s) :
    PosInv m W H (s.processRemoval u) := by
  have hgen : ∀ (ds : List Direction) (s2 : CoreState), SafeInv m W H s2 →
      PosInv m W H s2 →
      PosInv m W H (ds.foldl (fun s3 d =>
        if s3.grid.valid_pos (u.coord.neighbor d) then
          (bsIter (s3.model.adj u.tile_index d) s3.model.size).foldl
            (fun s4 t => CoreState.propagateTile s4 d (u.coord.neighbor d) t) s3
        else s3) s2) := by
    intro ds
    induction ds with
    | nil =>
      intro s2 _ hpos2
      exact hpos2
    | cons a ds2 ih =>
      intro s2 hs2 hpos2
      rw [List.foldl_cons]
      by_cases hv : s2.grid.valid_pos (u.coord.neighbor a)
      · have hif : (if s2.grid.valid_pos (u.coord.neighbor a) then
            (bsIter (s2.model.adj u.tile_index a) s2.model.size).foldl
              (fun s4 t => CoreState.propagateTile s4 a (u.coord.neighbor a) t) s2
            else s2) = (bsIter (s2.model.adj u.tile_index a) s2.model.size).foldl
              (fun s4 t => CoreState.propagateTile s4 a (u.coord.neighbor a) t) s2 := by
          rw [if_pos hv]
        rw [hif]
        have hbnd : ∀ t ∈ bsIter (s2.model.adj u.tile_index a) s2.model.size, t < m.size := by
          intro t htl
          rw [mem_bsIter] at htl
          have hts : t < s2.model.size := htl.1
          rw [hs2.model_eq] at hts
          exact hts
        exact ih _ (safeInv_foldl_tiles a (u.coord.neighbor a) _ s2 hs2 hv hbnd)
          (posInv_foldl_tiles a (u.coord.neighbor a) _ s2 hs2 hv hbnd hpos2)
      · have hif : (if s2.grid.valid_pos (u.coord.neighbor a) then
            (bsIter (s2.model.adj u.tile_index a) s2.model.size).foldl
              (fun s4 t => CoreState.propagateTile s4 a (u.coord.neighbor a) t) s2
            else s2) = s2 := by
          rw [if_neg hv]
        rw [hif]
        exact ih s2 hs2 hpos2
  exact hgen ALL_DIRECTIONS s hs hpos

/-- `PosInv` is preserved by a collapse step performed on an empty queue
of a well-formed model. -/
theorem posInv_collapse {m : Model} {N W H : ℕ} (hwf : m.Wellformed N)
    (s : CoreState) (coord : Vector2) (chosen : ℕ)
    (hinv : Inv m W H s) (hpos : PosInv m W H s)
    (hq : s.tile_removals = [])
    (hc0 : s.grid.valid_pos coord)
    (hcolx : (s.cellAt coord).is_collpased = false)
    (hch : chosen ∈ (s.cellAt coord).possible) :
    PosInv m W H { s.collapse_cell_at coord chosen with
      remaining_uncollapsed_cells := s.remaining_uncollapsed_cells - 1 } := by
  have hs := hinv.safe
  have hw := hs.grid_w
  have hh := hs.grid_h
  have hl := hs.grid_len
  have hclt : chosen < m.size := hs.possible_sub coord hc0 chosen hch
  have hca : ∀ c, s.grid.valid_pos c →
      ({ s.collapse_cell_at coord chosen with
        remaining_uncollapsed_cells := s.remaining_uncollapsed_cells - 1 } : CoreState).cellAt
          c =
      if c = coord then { s.cellAt coord with is_collpased := true, possible := {chosen} }
      else s.cellAt c :=
    fun c hc => cellAt_after_set s hw hh hl coord hc0 _ c hc
  have hactq : ∀ x : Vector2, activeSet s x = (s.cellAt x).possible := by
    intro x
    simp only [activeSet, pendingAt, hq, List.filter_nil, List.map_nil, List.toFinset_nil,
      Finset.union_empty]
  have hwitness : ∀ d : Direction, s.grid.valid_pos (coord.neighbor d) →
      ∃ t3 ∈ (s.cellAt (coord.neighbor d)).possible, chosen ∈ m.adj t3 d.opposite := by
    intro d hdv
    have hcnt1 : 1 ≤ (s.cellAt coord).countOf chosen d :=
      hpos.pos_counts coord hc0 hcolx chosen hch d
    rw [hinv.count_formula coord hc0 chosen hclt d hdv] at hcnt1
    simp only [enablersIn, hactq, hs.model_eq] at hcnt1
    have hpos0 : 0 < (Finset.filter (fun t2 => chosen ∈ m.adj t2 d.opposite)
        (s.cellAt (coord.neighbor d)).possible).card := by omega
    obtain ⟨t3, ht3⟩ := Finset.card_pos.mp hpos0
    rw [Finset.mem_filter] at ht3
    exact ⟨t3, ht3.1, ht3.2⟩
  constructor
  · intro c hc hcol t2 ht2 d
    rw [hca c hc] at hcol ht2 ⊢
    by_cases hx : c = coord
    · rw [if_pos hx] at hcol
      exact absurd (show (true : Bool) = false from hcol) (by decide)
    · rw [if_neg hx] at hcol ht2 ⊢
      exact hpos.pos_counts c hc hcol t2 ht2 d
  · intro c hc d hd hc1 hc2 a ha b hb
    rw [hca c hc] at hc1 ha
    rw [hca (c.neighbor d) hd] at hc2 hb
    by_cases hxc : c = coord
    · rw [if_pos hxc] at ha
      have ha2 : a = chosen := Finset.mem_singleton.mp ha
      by_cases hxn : c.neighbor d = coord
      · rw [hxc] at hxn
        exact absurd hxn (Vector2.neighbor_ne coord d)
      · rw [if_neg hxn] at hc2 hb
        rw [hxc] at hd hb hc2
        obtain ⟨t3, ht3p, ht3adj⟩ := hwitness d hd
        have hb2 : b < m.size := hs.possible_sub (coord.neighbor d) hd b hb
        have hone := hs.collapsed_one (coord.neighbor d) hd hc2
        have ht3b : t3 = b := mem_card_one _ hone ht3p hb
        rw [ht3b] at ht3adj
        rw [ha2]
        exact (adj_symm_wf hwf chosen b hclt hb2 d).mpr ht3adj
    · rw [if_neg hxc] at hc1 ha
      by_cases hxn : c.neighbor d = coord
      · rw [if_pos hxn] at hb
        have hb2 : b = chosen := Finset.mem_singleton.mp hb
        have hcrel : c = coord.neighbor d.opposite := by
          rw [← hxn, Vector2.neighbor_opposite]
        have hcv2 : s.grid.valid_pos (coord.neighbor d.opposite) := by
          rw [← hcrel]
          exact hc
        obtain ⟨t3, ht3p, ht3adj⟩ := hwitness d.opposite hcv2
        rw [Direction.opposite_opposite] at ht3adj
        rw [← hcrel] at ht3p
        have hone := hs.collapsed_one c hc hc1
        have ht3a : t3 = a := mem_card_one _ hone ht3p ha
        rw [ht3a] at ht3adj
        rw [hb2]
        exact ht3adj
      · rw [if_neg hxn] at hc2 hb
        exact hpos.collapsed_compat c hc d hd hc1 hc2 a ha b hb

/-- The fresh state satisfies `PosInv` whenever every adjacency set is
nonempty. -/
theorem posInv_new (m : Model) (W H : ℕ)
    (hne : ∀ i, i < m.size → ∀ d : Direction, (m.adj i d).Nonempty) :
    PosInv m W H (CoreState.new m W H) := by
  constructor
  · intro c hc hcol t2 ht2 d
    rw [cellAt_new m W H c hc] at ht2 ⊢
    have ht2s : t2 < m.size := Finset.mem_range.mp ht2
    show 1 ≤ (m.get_initial_tile_enabler_counts.getD t2 default).get d
    rw [initCount_val m t2 ht2s d]
    exact Finset.card_pos.mpr (hne t2 ht2s d)
  · intro c hc d hd hc1 hc2 a ha b hb
    rw [cellAt_new m W H c hc] at hc1
    exact absurd hc1 Bool.false_ne_true

/-- `PosInv` is preserved by every step of the collapse loop. -/
theorem posInv_step {m : Model} {N W H : ℕ} (hwf : m.Wellformed N) {s s2 : CoreState}
    (hinv : Inv m W H s) (hpos : PosInv m W H s) (hstep : Step s s2) :
    PosInv m W H s2 := by
  cases hstep with
  | collapse coord chosen hq hv hcolx hch hfr =>
    exact posInv_collapse hwf s coord chosen hinv hpos hq hv hcolx hch
  | propagate1 u rest hq =>
    exact posInv_processRemoval _ u (safeInv_queue s rest hinv.safe)
      ⟨hpos.pos_counts, hpos.collapsed_compat⟩

/-- Every reachable state of a well-formed model with nonempty adjacency
sets satisfies `PosInv`. -/
theorem posInv_reachable {m : Model} {N W H : ℕ} (hwf : m.Wellformed N)
    (hne : ∀ i, i < m.size → ∀ d : Direction, (m.adj i d).Nonempty)
    (s : CoreState) (hr : Reachable m W H s) : PosInv m W H s := by
  induction hr with
  | refl => exact posInv_new m W H hne
  | tail hab hbc ih => exact posInv_step hwf (inv_reachable hwf _ hab) ih hbc

/-! ### The output of a finished run -/

/-- A cell holding exactly one tile reports it. -/
theorem only_tile_singleton (cell : CoreCell) (a : ℕ) (ha : cell.possible = {a}) :
    cell.get_the_only_possible_tile_index = some a := by
  have hcond : ¬(cell.possible = ∅ ∨ 1 < cell.possible.card) := by
    rw [ha]
    simp
  simp only [CoreCell.get_the_only_possible_tile_index]
  rw [dif_neg hcond]
  exact congrArg some (by
    rw [← Finset.mem_singleton, ← ha]
    exact Finset.min'_mem _ _)

/-- When no uncollapsed cells remain, every valid cell is collapsed. -/
theorem all_collapsed {m : Model} {W H : ℕ} (s : CoreState) (hs : SafeInv m W H s)
    (hdone : s.remaining_uncollapsed_cells = 0)
    (c : Vector2) (hc : s.grid.valid_pos c) : (s.cellAt c).is_collpased = true := by
  have h0 : uncollapsedCount s = 0 := by
    rw [← hs.remaining_ok]
    exact hdone
  rw [uncollapsedCount, List.length_eq_zero] at h0
  have hmem : s.cellAt c ∈ s.grid.data := by
    show s.grid.data.getD (s.grid.idxOf c) default ∈ s.grid.data
    have hlt := idxOf_lt_length s hs.grid_w hs.grid_h hs.grid_len c hc
    rw [List.getD_eq_getElem?_getD, List.getElem?_eq_getElem hlt]
    exact List.getElem_mem _
  cases hflag : (s.cellAt c).is_collpased
  · have hmf : s.cellAt c ∈ s.grid.data.filter fun cell => cell.is_collpased = false := by
      rw [List.mem_filter]
      exact ⟨hmem, by simp [hflag]⟩
    rw [h0] at hmf
    exact absurd hmf (List.not_mem_nil _)
  · rfl

/-- The output pixel at a valid position is the top-left pixel of the
sample reported by the cell there. -/
theorem outputAt_eq {m : Model} {W H : ℕ} (s : CoreState) (hs : SafeInv m W H s)
    (x y : ℕ) (hx : x < W) (hy : y < H) :
    s.outputAt x y = (s.model.samples.getD
      ((s.cellAt ⟨(x : ℤ), (y : ℤ)⟩).get_the_only_possible_tile_index.getD 0)
      default).get_top_left_pixel := by
  have hw := hs.grid_w
  have hl := hs.grid_len
  have hidx : y * W + x < s.grid.data.length := by
    rw [hl]
    calc y * W + x < y * W + W := by omega
      _ = (y + 1) * W := by ring
      _ ≤ H * W := Nat.mul_le_mul_right _ (by omega)
      _ = W * H := Nat.mul_comm _ _
  have hidx2 : s.grid.idxOf ⟨(x : ℤ), (y : ℤ)⟩ = y * W + x := by
    show ((y : ℤ)).toNat * s.grid.width + ((x : ℤ)).toNat = y * W + x
    rw [hw]
    simp
  have hcell : s.cellAt ⟨(x : ℤ), (y : ℤ)⟩ = s.grid.data.getD (y * W + x) default := by
    show s.grid.data.getD (s.grid.idxOf ⟨(x : ℤ), (y : ℤ)⟩) default = _
    rw [hidx2]
  show ((s.grid.data.map fun cell => cell.get_the_only_possible_tile_index.getD 0).map
    fun sample_id => (s.model.samples.getD sample_id default).get_top_left_pixel).getD
      (y * s.grid.width + x) default = _
  rw [hw]
  rw [getD_map _ _ _ 0 _ (by rw [List.length_map]; exact hidx)]
  rw [getD_map _ _ _ default _ hidx]
  rw [hcell]

/-- Pointwise content of a down-compatibility: every pixel of the lower
`N-1` rows of `self` equals the pixel one row up in `other`. -/
theorem compatible_down_elim (A B : Sample) (h : A.compatible B Direction.down = true)
    (x y : ℕ) (hx : x < A.region.width) (hy : y < A.region.height - 1) :
    A.at' ⟨(x : ℤ), ((y + 1 : ℕ) : ℤ)⟩ = B.at' ⟨(x : ℤ), (y : ℤ)⟩ := by
  rw [Sample.compatible.eq_def] at h
  by_cases hd : B.region.width ≠ A.region.width ∨ B.region.height ≠ A.region.height
  · rw [if_pos hd] at h
    exact absurd h (by decide)
  · rw [if_neg hd] at h
    simp only [List.all_eq_true, List.mem_range, decide_eq_true_eq] at h
    have hthis := h y hy x hx
    have e1 : ((⟨(x : ℤ), (y : ℤ)⟩ : Vector2) + ⟨0, 1⟩) = ⟨(x : ℤ), ((y + 1 : ℕ) : ℤ)⟩ := by
      rw [Vector2.add_mk]
      simp only [Vector2.mk.injEq]
      omega
    rw [e1] at hthis
    exact hthis

/-- Pointwise content of a right-compatibility: every pixel of the right
`N-1` columns of `self` equals the pixel one column left in `other`. -/
theorem compatible_right_elim (A B : Sample) (h : A.compatible B Direction.right = true)
    (x y : ℕ) (hx : x < A.region.width - 1) (hy : y < A.region.height) :
    A.at' ⟨((x + 1 : ℕ) : ℤ), (y : ℤ)⟩ = B.at' ⟨(x : ℤ), (y : ℤ)⟩ := by
  rw [Sample.compatible.eq_def] at h
  by_cases hd : B.region.width ≠ A.region.width ∨ B.region.height ≠ A.region.height
  · rw [if_pos hd] at h
    exact absurd h (by decide)
  · rw [if_neg hd] at h
    simp only [List.all_eq_true, List.mem_range, decide_eq_true_eq] at h
    have hthis := h y hy x hx
    have e1 : ((⟨(x : ℤ), (y : ℤ)⟩ : Vector2) + ⟨1, 0⟩) = ⟨((x + 1 : ℕ) : ℤ), (y : ℤ)⟩ := by
      rw [Vector2.add_mk]
      simp only [Vector2.mk.injEq]
      omega
    rw [e1] at hthis
    exact hthis

/-- Chaining down-compatibilities: pixel `(i, j)` of the sample at a cell
equals pixel `(i, 0)` of the sample `j` cells below. -/
theorem down_chain {m : Model} {W H N : ℕ} (s : CoreState)
    (hw : s.grid.width = W) (hh : s.grid.height = H)
    (hcompat : ∀ c : Vector2, s.grid.valid_pos c →
      s.grid.valid_pos (c.neighbor Direction.down) →
      (m.samples.getD ((s.cellAt c).get_the_only_possible_tile_index.getD 0)
        default).compatible
        (m.samples.getD
          ((s.cellAt (c.neighbor Direction.down)).get_the_only_possible_tile_index.getD 0)
          default) Direction.down = true)
    (hSdims : ∀ c : Vector2, s.grid.valid_pos c →
      (m.samples.getD ((s.cellAt c).get_the_only_possible_tile_index.getD 0)
        default).region.width = N ∧
      (m.samples.getD ((s.cellAt c).get_the_only_possible_tile_index.getD 0)
        default).region.height = N)
    (x : ℕ) (hx : x < W) (i : ℕ) (hi : i < N) :
    ∀ (j y : ℕ), j < N → y + j < H →
    (m.samples.getD ((s.cellAt ⟨(x : ℤ), (y : ℤ)⟩).get_the_only_possible_tile_index.getD 0)
      default).at' ⟨(i : ℤ), (j : ℤ)⟩ =
    (m.samples.getD
      ((s.cellAt ⟨(x : ℤ), ((y + j : ℕ) : ℤ)⟩).get_the_only_possible_tile_index.getD 0)
      default).at' ⟨(i : ℤ), ((0 : ℕ) : ℤ)⟩ := by
  intro j
  induction j with
  | zero =>
    intro y _ _
    simp
  | succ k ih =>
    intro y hj hyk
    have hcv : s.grid.valid_pos (⟨(x : ℤ), (y : ℤ)⟩ : Vector2) := by
      rw [validWH_iff s.grid W H hw hh]
      simp only [validWH]
      omega
    have hv : (⟨(x : ℤ), (y : ℤ)⟩ : Vector2).neighbor Direction.down =
        ⟨(x : ℤ), ((y + 1 : ℕ) : ℤ)⟩ := by
      show (⟨(x : ℤ), (y : ℤ) + 1⟩ : Vector2) = _
      simp only [Vector2.mk.injEq, true_and]
      omega
    have hcv2 : s.grid.valid_pos
        ((⟨(x : ℤ), (y : ℤ)⟩ : Vector2).neighbor Direction.down) := by
      rw [hv, validWH_iff s.grid W H hw hh]
      simp only [validWH]
      omega
    have hAB := hcompat ⟨(x : ℤ), (y : ℤ)⟩ hcv hcv2
    rw [hv] at hAB
    have hdimsA := hSdims ⟨(x : ℤ), (y : ℤ)⟩ hcv
    have hstep := compatible_down_elim _ _ hAB i k (by rw [hdimsA.1]; exact hi)
      (by rw [hdimsA.2]; omega)
    rw [hstep]
    have hih := ih (y + 1) (by omega) (by omega)
    rw [hih]
    have he : (y + 1) + k = y + (k + 1) := by omega
    rw [he]

/-- Chaining right-compatibilities along the top row: pixel `(i, 0)` of
the sample at a cell equals the top-left pixel of the sample `i` cells to
the right. -/
theorem right_chain {m : Model} {W H N : ℕ} (hN : 1 ≤ N) (s : CoreState)
    (hw : s.grid.width = W) (hh : s.grid.height = H)
    (hcompat : ∀ c : Vector2, s.grid.valid_pos c →
      s.grid.valid_pos (c.neighbor Direction.right) →
      (m.samples.getD ((s.cellAt c).get_the_only_possible_tile_index.getD 0)
        default).compatible
        (m.samples.getD
          ((s.cellAt (c.neighbor Direction.right)).get_the_only_possible_tile_index.getD 0)
          default) Direction.right = true)
    (hSdims : ∀ c : Vector2, s.grid.valid_pos c →
      (m.samples.getD ((s.cellAt c).get_the_only_possible_tile_index.getD 0)
        default).region.width = N ∧
      (m.samples.getD ((s.cellAt c).get_the_only_possible_tile_index.getD 0)
        default).region.height = N)
    (y : ℕ) (hy : y < H) :
    ∀ (i x : ℕ), i < N → x + i < W →
    (m.samples.getD ((s.cellAt ⟨(x : ℤ), (y : ℤ)⟩).get_the_only_possible_tile_index.getD 0)
      default).at' ⟨(i : ℤ), ((0 : ℕ) : ℤ)⟩ =
    (m.samples.getD
      ((s.cellAt ⟨((x + i : ℕ) : ℤ), (y : ℤ)⟩).get_the_only_possible_tile_index.getD 0)
      default).at' ⟨((0 : ℕ) : ℤ), ((0 : ℕ) : ℤ)⟩ := by
  intro i
  induction i with
  | zero =>
    intro x _ _
    simp
  | succ k ih =>
    intro x hi hxk
    have hcv : s.grid.valid_pos (⟨(x : ℤ), (y : ℤ)⟩ : Vector2) := by
      rw [validWH_iff s.grid W H hw hh]
      simp only [validWH]
      omega
    have hv : (⟨(x : ℤ), (y : ℤ)⟩ : Vector2).neighbor Direction.right =
        ⟨((x + 1 : ℕ) : ℤ), (y : ℤ)⟩ := by
      show (⟨(x : ℤ) + 1, (y : ℤ)⟩ : Vector2) = _
      simp only [Vector2.mk.injEq, and_true]
      omega
    have hcv2 : s.grid.valid_pos
        ((⟨(x : ℤ), (y : ℤ)⟩ : Vector2).neighbor Direction.right) := by
      rw [hv, validWH_iff s.grid W H hw hh]
      simp only [validWH]
      omega
    have hAB := hcompat ⟨(x : ℤ), (y : ℤ)⟩ hcv hcv2
    rw [hv] at hAB
    have hdimsA := hSdims ⟨(x : ℤ), (y : ℤ)⟩ hcv
    have hstep := compatible_right_elim _ _ hAB k 0 (by rw [hdimsA.1]; omega)
      (by rw [hdimsA.2]; omega)
    rw [hstep]
    have hih := ih (x + 1) (by omega) (by omega)
    rw [hih]
    have he : (x + 1) + k = x + (k + 1) := by omega
    rw [he]

/-- Claim C1 (amended): for a well-formed model all of whose adjacency
sets are nonempty, whenever the collapse loop succeeds — the queue is
drained and no uncollapsed cells remain — every cell's possible set holds
exactly one tile, and every NxN window lying fully inside the output
bounds pointwise equals the pixel grid of some pattern in the model's
sample list.  (In the claim's full generality, over every model, the
window property is false: see the counterexample.) -/
theorem C1_amended (m : Model) (N W H : ℕ) (hwf : m.Wellformed N)
    (hne : ∀ i, i < m.size → ∀ d : Direction, (m.adj i d).Nonempty)
    (s : CoreState) (hr : Reachable m W H s) (hq : s.tile_removals = [])
    (hdone : s.remaining_uncollapsed_cells = 0) :
    (∀ c : Vector2, s.grid.valid_pos c → (s.cellAt c).possible.card = 1) ∧
    (∀ x y : ℕ, x + N ≤ W → y + N ≤ H →
      ∃ p ∈ m.samples, ∀ i j : ℕ, i < N → j < N →
        s.outputAt (x + i) (y + j) = p.at' ⟨(i : ℤ), (j : ℤ)⟩) := by
  have hinv := inv_reachable hwf s hr
  have hpos := posInv_reachable hwf hne s hr
  have hs := hinv.safe
  have hw := hs.grid_w
  have hh := hs.grid_h
  have hallc : ∀ c, s.grid.valid_pos c → (s.cellAt c).is_collpased = true :=
    all_collapsed s hs hdone
  have hone : ∀ c, s.grid.valid_pos c → (s.cellAt c).possible.card = 1 :=
    fun c hc => hs.collapsed_one c hc (hallc c hc)
  refine ⟨hone, ?_⟩
  have htile : ∀ c, s.grid.valid_pos c →
      (s.cellAt c).get_the_only_possible_tile_index.getD 0 ∈ (s.cellAt c).possible := by
    intro c hc
    obtain ⟨a, ha⟩ := Finset.card_eq_one.mp (hone c hc)
    rw [only_tile_singleton _ a ha, ha]
    exact Finset.mem_singleton_self a
  have htlt : ∀ c, s.grid.valid_pos c →
      (s.cellAt c).get_the_only_possible_tile_index.getD 0 < m.size :=
    fun c hc => hs.possible_sub c hc _ (htile c hc)
  have hmemS : ∀ c, s.grid.valid_pos c →
      m.samples.getD ((s.cellAt c).get_the_only_possible_tile_index.getD 0) default ∈
        m.samples := by
    intro c hc
    have hlt2 : (s.cellAt c).get_the_only_possible_tile_index.getD 0 < m.samples.length :=
      htlt c hc
    rw [List.getD_eq_getElem?_getD, List.getElem?_eq_getElem hlt2]
    exact List.getElem_mem _
  have hSdims : ∀ c : Vector2, s.grid.valid_pos c →
      (m.samples.getD ((s.cellAt c).get_the_only_possible_tile_index.getD 0)
        default).region.width = N ∧
      (m.samples.getD ((s.cellAt c).get_the_only_possible_tile_index.getD 0)
        default).region.height = N := by
    intro c hc
    exact ⟨(hwf.sample_dims _ (hmemS c hc)).1, (hwf.sample_dims _ (hmemS c hc)).2.1⟩
  have hcompat : ∀ c : Vector2, s.grid.valid_pos c → ∀ d : Direction,
      s.grid.valid_pos (c.neighbor d) →
      (m.samples.getD ((s.cellAt c).get_the_only_possible_tile_index.getD 0)
        default).compatible
        (m.samples.getD
          ((s.cellAt (c.neighbor d)).get_the_only_possible_tile_index.getD 0)
          default) d = true := by
    intro c hc d hd
    have hadj := hpos.collapsed_compat c hc d hd (hallc c hc) (hallc _ hd)
      _ (htile c hc) _ (htile _ hd)
    exact (hwf.adj_char _ _ (htlt c hc) (htlt _ hd) d).mp hadj
  intro wx wy hxN hyN
  have hN := hwf.hN
  refine ⟨m.samples.getD
    ((s.cellAt ⟨(wx : ℤ), (wy : ℤ)⟩).get_the_only_possible_tile_index.getD 0) default,
    ?_, ?_⟩
  · apply hmemS
    rw [validWH_iff s.grid W H hw hh]
    simp only [validWH]
    omega
  · intro i j hi hj
    have h1 := down_chain s hw hh (fun c hc hd => hcompat c hc Direction.down hd) hSdims
      wx (by omega) i hi j wy hj (by omega)
    have h2 := right_chain hN s hw hh (fun c hc hd => hcompat c hc Direction.right hd)
      hSdims (wy + j) (by omega) i wx hi (by omega)
    rw [outputAt_eq s hs (wx + i) (wy + j) (by omega) (by omega), hs.model_eq, h1, h2]
    rfl

/-- A script run that produces a state (in the `Option.isSome` sense)
reaches the state read off with `Option.getD`. -/
theorem runScript_reach_getD (m : Model) (W H fuel : ℕ) (script : List (Vector2 × ℕ))
    (h : (runScript fuel script (CoreState.new m W H)).isSome = true) :
    Reachable m W H ((runScript fuel script (CoreState.new m W H)).getD default) := by
  obtain ⟨s2, hs2⟩ := Option.isSome_iff_exists.mp h
  rw [hs2]
  exact runScript_rtg fuel script (CoreState.new m W H) s2 hs2

set_option maxRecDepth 40000 in
set_option maxHeartbeats 2000000 in
/-- Claim C1 (counterexample): on the model of the 2×3 exemplar `imgTall`
with pattern size 3, every tile has an empty adjacency set in some
direction, the second removal guard therefore blocks every removal, and a
full scripted run over a 3×3 grid succeeds (queue drained, no uncollapsed
cells) with every cell collapsed to tile 0 — yet the single 3×3 window of
the output matches no pattern of the model, refuting the claimed window
property of successful runs. -/
theorem C1_counterexample :
    Reachable mTall 3 3 sTallDone ∧
    sTallDone.tile_removals = [] ∧
    sTallDone.remaining_uncollapsed_cells = 0 ∧
    ∀ p ∈ mTall.samples, ¬(∀ i, i < 3 → ∀ j, j < 3 →
      sTallDone.outputAt (0 + i) (0 + j) = p.at' ⟨(i : ℤ), (j : ℤ)⟩) := by
  refine ⟨?_, by decide, by decide, by decide⟩
  exact runScript_reach_getD mTall 3 3 40 tallScript rfl

/-- Witness for the amended C1 on the completed run `sTwoDone` of the
model `mTwo`, whose adjacency sets are all nonempty. -/
theorem C1_amended_witness :
    (∀ i, i < mTwo.size → ∀ d : Direction, (mTwo.adj i d).Nonempty) ∧
    sTwoDone.tile_removals = [] ∧
    sTwoDone.remaining_uncollapsed_cells = 0 ∧
    (sTwoDone.cellAt ⟨0, 0⟩).possible.card = 1 ∧
    (∃ p ∈ mTwo.samples, ∀ i j : ℕ, i < 1 → j < 1 →
      sTwoDone.outputAt (0 + i) (0 + j) = p.at' ⟨(i : ℤ), (j : ℤ)⟩) :=
  ⟨by decide, by decide, by decide,
    (C1_amended mTwo 1 1 1 mTwo_wf (by decide) sTwoDone
      (runScript_rtg 10 [(⟨0, 0⟩, 0)] (CoreState.new mTwo 1 1) sTwoDone rfl)
      (by decide) (by decide)).1 ⟨0, 0⟩ (by decide),
    (C1_amended mTwo 1 1 1 mTwo_wf (by decide) sTwoDone
      (runScript_rtg 10 [(⟨0, 0⟩, 0)] (CoreState.new mTwo 1 1) sTwoDone rfl)
      (by decide) (by decide)).2 0 0 (by decide) (by decide)⟩

end Wfc
